import Mathlib

/-!
# Page-replacement simulator (`script.js`): FIFO, LRU and Optimal

Shallow embedding of `simulateFIFO`, `simulateLRU` and `simulateOptimal`.

* Pages are JavaScript integers, modelled by `Int`; where `parseRefs` yields `Infinity` or
  `-Infinity`, these are the integers `2 ^ 1024` and `-2 ^ 1024`, which are no doubles.
* A frame array `mem` is a `List (Option Int)`; `none` is the empty marker `null`.
* `Array.prototype.indexOf` returning `-1` is modelled by `none`.
* `Infinity`, `-Infinity` and finite numbers are the three constructors of `Num`.
* The `for (t = 0; t < refs.length; t++)` loops are recursions over the references still to
  be processed, carrying the time `t`.
* `state.push(..)` appends at the end of the list of steps.
* `victim` is `null` or a page; the value `undefined` (only reachable with an empty frame
  array) is identified with `null`. The property `mem[undefined]`, which `simulateFIFO`
  reads and sets on an empty frame array, is the field `memUndefined`.
* `frames` ranges over all integers; the length limit of JavaScript arrays is not modelled.
* Texts are lists of characters; the global regular expression `-?\d+` of `parseRefs` is the
  scan `matchAll`, and `Number` on a match is the integer it writes rounded to the nearest
  double (`toDouble`).
* `runSimulation` is a function of the texts of the two fields and of the checkboxes; the
  builtin `parseInt` is a parameter.

The definitions of the program come first, then the vocabulary of the properties, then the
theorems. Each policy is shown to produce a trace that obeys one common step contract
(`TraceP`) with its own victim rule; the claims are derived from the traces.
-/

namespace PageSim

/-! ## Data model -/

/-- One entry of the `state` array: `{ ref, hit, victim, frames }`. -/
structure Step where
  ref : Int
  hit : Bool
  victim : Option Int
  frames : List (Option Int)
  deriving DecidableEq, Repr

/-- The value returned by a simulation: `{ faults, state }`. -/
structure Result where
  faults : Nat
  state : List Step
  deriving DecidableEq, Repr

/-- JavaScript numbers that occur as timestamps: `-Infinity`, a finite integer, `Infinity`. -/
inductive Num where
  | negInf : Num
  | fin : Int → Num
  | posInf : Num
  deriving DecidableEq, Repr

/-- The JavaScript comparison `a < b` on `Num`. -/
def Num.lt : Num → Num → Bool
  | .negInf, .negInf => false
  | .negInf, _ => true
  | .fin _, .negInf => false
  | .fin a, .fin b => decide (a < b)
  | .fin _, .posInf => true
  | .posInf, _ => false

/-! ## Utilities -/

/-- An attempt to match `-?\d+` at the start of the text: the match and the text after it.
`\d` is an ASCII digit and `\d+` takes all the digits there are. A `-` that no digit
follows matches nothing, also with the optional `-` left out, since `-` is no digit. -/
def matchAt : List Char → Option (List Char × List Char)
  | [] => none
  | c :: rest =>
    if c = '-' then
      if rest.takeWhile Char.isDigit = [] then none
      else some ('-' :: rest.takeWhile Char.isDigit, rest.dropWhile Char.isDigit)
    else
      if (c :: rest).takeWhile Char.isDigit = [] then none
      else some ((c :: rest).takeWhile Char.isDigit, (c :: rest).dropWhile Char.isDigit)

/-- The call `text.match(re)` for the global regular expression `-?\d+`: the matches from left to right, each search starting
where the previous match ended and moving one character on where nothing matches. The
empty list stands for `null`. Every search consumes a character, so `fuel` equal to the
length of the text lets the scan reach the end. -/
def matchAll : Nat → List Char → List (List Char)
  | 0, _ => []
  | _ + 1, [] => []
  | fuel + 1, c :: rest =>
    match matchAt (c :: rest) with
    | some (m, tl) => m :: matchAll fuel tl
    | none => matchAll fuel rest

/-- The value of a string of decimal digits. -/
def digitsValue (ds : List Char) : Nat :=
  ds.foldl (fun a c => 10 * a + (c.toNat - 48)) 0

/-- The number of bits by which `n` exceeds the 53 bits of the significand of a double:
`n` is halved until it is below `2 ^ 53`; `fuel = n` halvings are more than enough. -/
def excessBits : Nat → Nat → Nat
  | 0, _ => 0
  | fuel + 1, n => if n < 2 ^ 53 then 0 else excessBits fuel (n / 2) + 1

/-- The integer `2 ^ 1024`, written `(2 ^ 256) ^ 4`: the least value too large for a
double. It is no double itself and represents `Infinity`. -/
def infinityCode : Nat := (2 ^ 256) ^ 4

/-- The Number value of a natural number `n`: the nearest double, a tie going to the even
significand. Every value rounding to `2 ^ 1024` or more becomes `Infinity`, represented by
`infinityCode`. -/
def toDouble (n : Nat) : Nat :=
  let e := excessBits n n
  let q := n / 2 ^ e
  let r := n % 2 ^ e
  let rounded :=
    if 2 ^ e < 2 * r ∨ (2 * r = 2 ^ e ∧ q % 2 = 1) then (q + 1) * 2 ^ e else q * 2 ^ e
  if infinityCode ≤ rounded then infinityCode else rounded

/-- The conversion `Number(m)` of a match `m` of `-?\d+`: the Number value of the integer
it writes, negated after a `-` (`-0` being equal to `0`). For more than 20 significant
digits the language lets an implementation round from the first 20 digits; the model
rounds the exact value, as engines do. (The empty string, which is never a match,
converts to 0.) -/
def numberOf : List Char → Int
  | [] => 0
  | c :: ds =>
    if c = '-' then -(toDouble (digitsValue ds) : Int)
    else (toDouble (digitsValue (c :: ds)) : Int)

/-- The function `parseRefs`: `m ? m.map(Number) : []` for the matches `m` of `-?\d+`
in `text`. -/
def parseRefs (text : List Char) : List Int :=
  (matchAll text.length text).map numberOf

/-- The function `emptyFrames`: `Array.from({ length: n }, () => null)`; a negative length
gives the empty array. -/
def emptyFrames (n : Int) : List (Option Int) :=
  List.replicate n.toNat none

/-- The scan of `indexOf` over the elements from index `i` on. -/
def indexOfFrom (x : Option Int) : List (Option Int) → Nat → Option Nat
  | [], _ => none
  | y :: rest, i => if y = x then some i else indexOfFrom x rest (i + 1)

/-- The call `a.indexOf(x)`: the lowest index holding `x`, or `none` for `-1`. -/
def indexOf (a : List (Option Int)) (x : Option Int) : Option Nat :=
  indexOfFrom x a 0

/-- The read `a[i]` of an array element; a read outside the array gives `undefined`,
identified with `null`. -/
def readAt (a : List (Option Int)) (i : Nat) : Option Int :=
  (a.get? i).join

/-- The write `a[i] = v` of an array element; a write at `i = a.length` extends the array
(the code never writes further out). -/
def writeAt (a : List (Option Int)) (i : Nat) (v : Int) : List (Option Int) :=
  if i < a.length then a.set i (some v)
  else a ++ List.replicate (i - a.length) none ++ [some v]

/-! ## FIFO -/

/-- Loop variables of `simulateFIFO`. `memUndefined` is the property `mem[undefined]` of the
array object `mem`, which the code reads and sets when `q.shift()` yields `undefined`; it
is no element of the array, so `indexOf` and `clone` do not see it, and it is `none` while
unset. -/
structure FifoSt where
  faults : Nat
  mem : List (Option Int)
  memUndefined : Option Int
  q : List (Option Nat)
  state : List Step

/-- One iteration of the loop of `simulateFIFO` for the reference `p`. The call `q.shift()`
is `s.q.head?.join` with `s.q.tail` left in the queue. -/
def fifoStep (p : Int) (s : FifoSt) : FifoSt :=
  match indexOf s.mem (some p) with
  | some _ =>
    { s with state := s.state ++ [⟨p, true, none, s.mem⟩] }
  | none =>
    match indexOf s.mem none with
    | some empty =>
      let mem := writeAt s.mem empty p
      { s with faults := s.faults + 1, mem := mem, q := s.q ++ [some empty],
               state := s.state ++ [⟨p, false, none, mem⟩] }
    | none =>
      match s.q.head?.join with
      | some vicIdx =>
        let victim := readAt s.mem vicIdx
        let mem := writeAt s.mem vicIdx p
        { s with faults := s.faults + 1, mem := mem, q := s.q.tail ++ [some vicIdx],
                 state := s.state ++ [⟨p, false, victim, mem⟩] }
      | none =>
        { s with faults := s.faults + 1, memUndefined := some p, q := s.q.tail ++ [none],
                 state := s.state ++ [⟨p, false, s.memUndefined, s.mem⟩] }

/-- The loop of `simulateFIFO` over the references still to be processed. -/
def fifoLoop : List Int → FifoSt → FifoSt
  | [], s => s
  | p :: rest, s => fifoLoop rest (fifoStep p s)

/-- The function `simulateFIFO(refs, frames)`. -/
def simulateFIFO (refs : List Int) (frames : Int) : Result :=
  let s := fifoLoop refs ⟨0, emptyFrames frames, none, [], []⟩
  ⟨s.faults, s.state⟩

/-! ## LRU -/

/-- Loop variables of `simulateLRU`; `lastUsed` is the `Map` from page to time. -/
structure LruSt where
  faults : Nat
  mem : List (Option Int)
  lastUsed : Int → Option Nat
  state : List Step

/-- The call `lastUsed.set(p, t)`. -/
def mapSet (m : Int → Option Nat) (p : Int) (t : Nat) : Int → Option Nat :=
  fun x => if x = p then some t else m x

/-- The call `lastUsed.delete(victim)`; deleting `null` or `undefined` changes nothing,
since only pages are ever keys. -/
def mapDelete (m : Int → Option Nat) : Option Int → (Int → Option Nat)
  | some v => fun x => if x = v then none else m x
  | none => m

/-- The expression `lastUsed.has(page) ? lastUsed.get(page) : -Infinity`. -/
def lastUsedOr (m : Int → Option Nat) : Option Int → Num
  | some x =>
    match m x with
    | some t => Num.fin t
    | none => Num.negInf
  | none => Num.negInf

/-- The victim scan of `simulateLRU`: the `for` loop over the slots from index `i` on,
updating `(minTime, vicIdx)`. -/
def lruScan (m : Int → Option Nat) : List (Option Int) → Nat → Num × Nat → Num × Nat
  | [], _, acc => acc
  | page :: rest, i, acc =>
    let lu := lastUsedOr m page
    if lu.lt acc.1 then lruScan m rest (i + 1) (lu, i) else lruScan m rest (i + 1) acc

/-- One iteration of the loop of `simulateLRU` at time `t` for the reference `p`. -/
def lruStep (t : Nat) (p : Int) (s : LruSt) : LruSt :=
  match indexOf s.mem (some p) with
  | some _ =>
    { s with lastUsed := mapSet s.lastUsed p t,
             state := s.state ++ [⟨p, true, none, s.mem⟩] }
  | none =>
    match indexOf s.mem none with
    | some empty =>
      let mem := writeAt s.mem empty p
      { faults := s.faults + 1, mem := mem, lastUsed := mapSet s.lastUsed p t,
        state := s.state ++ [⟨p, false, none, mem⟩] }
    | none =>
      let vicIdx := (lruScan s.lastUsed s.mem 0 (Num.posInf, 0)).2
      let victim := readAt s.mem vicIdx
      let mem := writeAt s.mem vicIdx p
      { faults := s.faults + 1, mem := mem,
        lastUsed := mapSet (mapDelete s.lastUsed victim) p t,
        state := s.state ++ [⟨p, false, victim, mem⟩] }

/-- The loop of `simulateLRU` from time `t` over the references still to be processed. -/
def lruLoop : List Int → Nat → LruSt → LruSt
  | [], _, s => s
  | p :: rest, t, s => lruLoop rest (t + 1) (lruStep t p s)

/-- The function `simulateLRU(refs, frames)`. -/
def simulateLRU (refs : List Int) (frames : Int) : Result :=
  let s := lruLoop refs 0 ⟨0, emptyFrames frames, fun _ => none, []⟩
  ⟨s.faults, s.state⟩

/-! ## Optimal -/

/-- Loop variables of `simulateOptimal`. -/
structure OptSt where
  faults : Nat
  mem : List (Option Int)
  state : List Step

/-- The loop of `nextUseIndex` over the references from index `i` on. -/
def nextUseFrom (page : Option Int) : List Int → Nat → Num
  | [], _ => Num.posInf
  | r :: rest, i => if some r = page then Num.fin i else nextUseFrom page rest (i + 1)

/-- The closure `nextUseIndex(page, start)` of `simulateOptimal`. -/
def nextUseIndex (refs : List Int) (page : Option Int) (start : Nat) : Num :=
  nextUseFrom page (refs.drop start) start

/-- The victim scan of `simulateOptimal`: the `for` loop over the slots from index `i` on,
updating `(farthest, vicIdx)`. -/
def optScan (refs : List Int) (t : Nat) : List (Option Int) → Nat → Num × Nat → Num × Nat
  | [], _, acc => acc
  | page :: rest, i, acc =>
    let nx := nextUseIndex refs page (t + 1)
    if acc.1.lt nx then optScan refs t rest (i + 1) (nx, i) else optScan refs t rest (i + 1) acc

/-- One iteration of the loop of `simulateOptimal` at time `t` for the reference `p`. -/
def optStep (refs : List Int) (t : Nat) (p : Int) (s : OptSt) : OptSt :=
  match indexOf s.mem (some p) with
  | some _ =>
    { s with state := s.state ++ [⟨p, true, none, s.mem⟩] }
  | none =>
    match indexOf s.mem none with
    | some empty =>
      let mem := writeAt s.mem empty p
      { faults := s.faults + 1, mem := mem, state := s.state ++ [⟨p, false, none, mem⟩] }
    | none =>
      let vicIdx := (optScan refs t s.mem 0 (Num.fin (-1), 0)).2
      let victim := readAt s.mem vicIdx
      let mem := writeAt s.mem vicIdx p
      { faults := s.faults + 1, mem := mem, state := s.state ++ [⟨p, false, victim, mem⟩] }

/-- The loop of `simulateOptimal` from time `t` over the references still to be
processed; `refs` is the whole reference string, read by `nextUseIndex`. -/
def optLoop (refs : List Int) : List Int → Nat → OptSt → OptSt
  | [], _, s => s
  | p :: rest, t, s => optLoop refs rest (t + 1) (optStep refs t p s)

/-- The function `simulateOptimal(refs, frames)`. -/
def simulateOptimal (refs : List Int) (frames : Int) : Result :=
  let s := optLoop refs refs 0 ⟨0, emptyFrames frames, []⟩
  ⟨s.faults, s.state⟩

/-! ## The run triggered from the page -/

/-- What `runSimulation` writes into the status line `#msg`: the request for a reference
string, the request to select an algorithm, or `Parsed n references • Frames = frames`
(`none` for a `frames` that is `NaN`). -/
inductive Msg where
  | needRefs : Msg
  | needAlgorithm : Msg
  | parsed : Nat → Option Int → Msg
  deriving DecidableEq, Repr

/-- What `runSimulation` leaves on the page: the status line and the results shown, one per
selected algorithm under its name; `results` is empty when the page is cleared. -/
structure RunOutcome where
  msg : Msg
  results : List (String × Result)
  deriving DecidableEq, Repr

/-- The function `runSimulation`, as a function of the two input fields and the three
checkboxes. `parseInt` is the JavaScript builtin `parseInt(_, 10)` (`none` for `NaN`); the
field `framesText` is replaced by `"0"` when empty, and `Math.max(1, Math.min(50, _))`
keeps `NaN`. A `frames` that is `NaN` gives `emptyFrames` the length 0, as 0 does.
Rendering and `localStorage` are left out. -/
def runSimulation (parseInt : List Char → Option Int) (refsText framesText : List Char)
    (fifo lru opt : Bool) : RunOutcome :=
  let refs := parseRefs refsText
  let frames : Option Int :=
    (parseInt (if framesText = [] then ['0'] else framesText)).map (fun n => max 1 (min 50 n))
  if refs.length = 0 then ⟨Msg.needRefs, []⟩
  else
    let selected :=
      [("FIFO", simulateFIFO, fifo), ("LRU", simulateLRU, lru),
        ("Optimal", simulateOptimal, opt)].filter (fun a => a.2.2)
    if selected.length = 0 then ⟨Msg.needAlgorithm, []⟩
    else ⟨Msg.parsed refs.length frames, selected.map (fun a => (a.1, a.2.1 refs (frames.getD 0)))⟩

/-! ## Vocabulary of the properties

The step contract shared by the three policies, their victim rules, the bookkeeping
invariants of the loops and the counting functions used in the proofs. -/

/-- A scan over values keeping the best value seen and its index; `better v a` is the test
that makes the scan move to `v`. -/
def scanBest (better : Num → Num → Bool) : List Num → Nat → Num × Nat → Num × Nat
  | [], _, acc => acc
  | v :: rest, i, acc =>
    if better v acc.1 then scanBest better rest (i + 1) (v, i)
    else scanBest better rest (i + 1) acc

/-- A victim rule: `V hist F rest i` says that slot `i` is the one a policy replaces at a
capacity fault, given the steps `hist` recorded so far, the (full) frame array `F` and the
references `rest` that follow the current one. -/
abbrev VictimRule := List Step → List (Option Int) → List Int → Nat → Prop

/-- The contract of one step for the reference `p` on the frame array `F`: a hit, a
compulsory fault filling the lowest empty slot, or a capacity fault replacing a slot
allowed by `V`. -/
def StepP (V : VictimRule) (hist : List Step) (F : List (Option Int)) (p : Int)
    (rest : List Int) (s : Step) : Prop :=
  s.ref = p ∧
  ((some p ∈ F ∧ s.hit = true ∧ s.victim = none ∧ s.frames = F) ∨
   (some p ∉ F ∧ s.hit = false ∧ s.victim = none ∧
      ∃ i, F[i]? = some none ∧ (∀ j, j < i → F[j]? ≠ some none) ∧
        s.frames = F.set i (some p)) ∨
   (some p ∉ F ∧ none ∉ F ∧ s.hit = false ∧
      ∃ i v, F[i]? = some (some v) ∧ V hist F rest i ∧ s.victim = some v ∧
        s.frames = F.set i (some p)))

/-- A run of steps over the references `rest` from the frame array `F`, each step obeying
the contract. -/
def TraceP (V : VictimRule) : List Step → List (Option Int) → List Int → List Step → Prop
  | _, _, [], tr => tr = []
  | hist, F, p :: rest, tr =>
    ∃ s tr', tr = s :: tr' ∧ StepP V hist F p rest s ∧ TraceP V (hist ++ [s]) s.frames rest tr'

/-- Number of fault steps of a trace. -/
def faultCount (tr : List Step) : Nat := tr.countP (fun s => !s.hit)

/-- The frame array before step `t` of a trace that starts from `F`. -/
def framesBefore (F : List (Option Int)) (tr : List Step) : Nat → List (Option Int)
  | 0 => F
  | t + 1 =>
    match tr[t]? with
    | some s => s.frames
    | none => F

/-- The victim rule of `simulateOptimal`: the lowest slot among those whose page is used
farthest in the future (or never again). -/
def Vopt : VictimRule := fun _ F rest i =>
  ∀ j x v, F[i]? = some (some v) → F[j]? = some (some x) →
    List.indexOf x rest < List.indexOf v rest ∨
      (List.indexOf x rest = List.indexOf v rest ∧ i ≤ j)

/-- No page occupies two slots of the frame array. -/
def NoDupPages (F : List (Option Int)) : Prop :=
  ∀ (i j : Nat) (x : Int), F[i]? = some (some x) → F[j]? = some (some x) → i = j

/-- Index `i` is the most recent occurrence of `x` in the references `pre` already
processed. -/
def LastAt (pre : List Int) (x : Int) (i : Nat) : Prop :=
  pre[i]? = some x ∧ ∀ j, i < j → pre[j]? ≠ some x

/-- The victim rule of `simulateLRU`: the lowest slot among those whose page was referenced
least recently. -/
def Vlru : VictimRule := fun hist F _ i =>
  ∀ j x v tv tx, F[i]? = some (some v) → F[j]? = some (some x) →
    LastAt (hist.map Step.ref) v tv → LastAt (hist.map Step.ref) x tx →
    tv < tx ∨ (tv = tx ∧ i ≤ j)

/-- The bookkeeping of `simulateLRU`: no page is resident twice, and `lastUsed` maps every
resident page to the index of its most recent reference. -/
def LruInv (s : LruSt) : Prop :=
  NoDupPages s.mem ∧
    ∀ x, some x ∈ s.mem → ∃ i, s.lastUsed x = some i ∧ LastAt (s.state.map Step.ref) x i

/-- Step `τ` of `hist` is the most recent fault on page `x`, that is the step that placed
`x` into a slot most recently. -/
def LastFault (hist : List Step) (x : Int) (τ : Nat) : Prop :=
  (∃ st, hist[τ]? = some st ∧ st.ref = x ∧ st.hit = false) ∧
    ∀ τ' st', τ < τ' → hist[τ']? = some st' → ¬ (st'.ref = x ∧ st'.hit = false)

/-- The victim rule of `simulateFIFO`: the slot whose page was placed before the page of
every other slot. -/
def Vfifo : VictimRule := fun hist F _ i =>
  ∀ j x v τv τx, F[i]? = some (some v) → F[j]? = some (some x) → j ≠ i →
    LastFault hist v τv → LastFault hist x τx → τv < τx

/-- The order of placement of two occupied slots. -/
def PlacedBefore (hist : List Step) (F : List (Option Int)) (i j : Nat) : Prop :=
  ∀ x y τx τy, F[i]? = some (some x) → F[j]? = some (some y) →
    LastFault hist x τx → LastFault hist y τy → τx < τy

/-- The bookkeeping of `simulateFIFO`: the queue lists the occupied slots, each once, in
the order in which their pages were placed. -/
def FifoInv (s : FifoSt) : Prop :=
  ∃ ql : List Nat, s.q = ql.map some ∧ ql.Nodup ∧
    (∀ i, i ∈ ql ↔ ∃ x, s.mem[i]? = some (some x)) ∧
    (∀ (i : Nat) x, s.mem[i]? = some (some x) → ∃ τ, LastFault s.state x τ) ∧
    ql.Pairwise (PlacedBefore s.state s.mem)

/-- The rule that allows any slot. -/
def Vany : VictimRule := fun _ _ _ _ => True

/-- The next-occurrence index of page `x` after time `t`: the least `i > t` with
`refs[i] = x`, or `⊤` (plus infinity) when `x` does not occur after `t`. -/
def IsNextUse (refs : List Int) (t : Nat) (x : Int) (n : WithTop Nat) : Prop :=
  (∀ i : Nat, n = (i : WithTop Nat) →
      t < i ∧ refs[i]? = some x ∧ ∀ m, t < m → m < i → refs[m]? ≠ some x) ∧
    (n = ⊤ → ∀ m, t < m → refs[m]? ≠ some x)

/-- The set of pages resident in a frame array. -/
def pagesOf (F : List (Option Int)) : Finset Int := F.reduceOption.toFinset

/-- Number of pages of `X` whose next use is among the first `j` references of `rest`. -/
def soonCount (X : Finset Int) (rest : List Int) (j : Nat) : Nat :=
  (X.filter (fun x => List.indexOf x rest < j)).card

/-- Number of capacity faults among recorded steps: the steps that record a victim. -/
def capacityFaults (tr : List Step) : Nat := tr.countP (fun st => st.victim.isSome)

/-- The round-robin bookkeeping of `simulateFIFO`: the slots below `m` are the occupied
ones, and the queue is the list of these slots rotated by the number of capacity faults so
far, which is zero while an empty slot remains. -/
def FifoRR (s : FifoSt) : Prop :=
  ∃ m : Nat, m ≤ s.mem.length ∧
    (∀ i, i < s.mem.length → (s.mem[i]? = some none ↔ m ≤ i)) ∧
    s.q = ((List.range m).rotate (capacityFaults s.state)).map some ∧
    (m < s.mem.length → capacityFaults s.state = 0)

/-- The decimal rendering of an integer: its decimal digits, after a `-` when it is
negative. -/
def renderInt : Int → List Char
  | Int.ofNat k => Nat.toDigits 10 k
  | Int.negSucc k => '-' :: Nat.toDigits 10 (k + 1)

/-- The call `texts.join(sep)` for a separator of one character. -/
def joinWith (sep : Char) : List (List Char) → List Char
  | [] => []
  | [a] => a
  | a :: b :: rest => a ++ sep :: joinWith sep (b :: rest)

/-! ## Properties of the utilities -/

theorem indexOfFrom_eq_none_iff {x : Option Int} {a : List (Option Int)} {i : Nat} :
    indexOfFrom x a i = none ↔ x ∉ a := by
  induction a generalizing i with
  | nil => simp [indexOfFrom]
  | cons y rest ih =>
    simp only [indexOfFrom, List.mem_cons, not_or]
    by_cases h : y = x
    · simp [h]
    · rw [if_neg h, ih]
      exact ⟨fun hr => ⟨fun hxy => h hxy.symm, hr⟩, fun hr => hr.2⟩

theorem indexOfFrom_eq_some {x : Option Int} {a : List (Option Int)} {i k : Nat}
    (h : indexOfFrom x a i = some k) :
    ∃ j, k = i + j ∧ a[j]? = some x ∧ ∀ j', j' < j → a[j']? ≠ some x := by
  induction a generalizing i with
  | nil => simp [indexOfFrom] at h
  | cons y rest ih =>
    simp only [indexOfFrom] at h
    by_cases hy : y = x
    · rw [if_pos hy] at h
      refine ⟨0, by simpa using h.symm, by simp [hy], fun j' hj' => by omega⟩
    · rw [if_neg hy] at h
      obtain ⟨j, hk, hj, hlow⟩ := ih h
      refine ⟨j + 1, by omega, by simpa using hj, ?_⟩
      intro j' hj'
      cases j' with
      | zero => simpa using hy
      | succ j' => simpa using hlow j' (by omega)

theorem indexOf_eq_none_iff {a : List (Option Int)} {x : Option Int} :
    indexOf a x = none ↔ x ∉ a :=
  indexOfFrom_eq_none_iff

theorem indexOf_eq_some {a : List (Option Int)} {x : Option Int} {i : Nat}
    (h : indexOf a x = some i) :
    a[i]? = some x ∧ ∀ j, j < i → a[j]? ≠ some x := by
  obtain ⟨j, hk, hj, hlow⟩ := indexOfFrom_eq_some h
  have : i = j := by omega
  subst this
  exact ⟨hj, hlow⟩

theorem writeAt_of_lt {a : List (Option Int)} {i : Nat} (h : i < a.length) (v : Int) :
    writeAt a i v = a.set i (some v) := by
  simp [writeAt, h]

theorem readAt_of_getElem? {a : List (Option Int)} {i : Nat} {x : Option Int}
    (h : a[i]? = some x) : readAt a i = x := by
  simp [readAt, h]

/-! ## The order on `Num` -/

theorem Num.lt_irrefl (a : Num) : a.lt a = false := by
  cases a <;> simp [Num.lt]

theorem Num.lt_trans {a b c : Num} (h₁ : a.lt b = true) (h₂ : b.lt c = true) :
    a.lt c = true := by
  cases a <;> cases b <;> cases c <;> simp_all [Num.lt]; omega

theorem Num.lt_of_lt_of_not_lt {a b c : Num} (h₁ : a.lt b = true) (h₂ : c.lt b = false) :
    a.lt c = true := by
  cases a <;> cases b <;> cases c <;> simp_all [Num.lt]; omega

theorem Num.lt_of_not_lt_of_lt {a b c : Num} (h₁ : b.lt a = true) (h₂ : b.lt c = false) :
    c.lt a = true := by
  cases a <;> cases b <;> cases c <;> simp_all [Num.lt]; omega

/-! ## The two victim scans as one "keep the best so far" loop -/

theorem lruScan_eq_scanBest (m : Int → Option Nat) (l : List (Option Int)) (i : Nat)
    (acc : Num × Nat) :
    lruScan m l i acc = scanBest (fun v a => v.lt a) (l.map (lastUsedOr m)) i acc := by
  induction l generalizing i acc with
  | nil => rfl
  | cons page rest ih =>
    simp only [lruScan, List.map_cons, scanBest]
    split <;> exact ih _ _

theorem optScan_eq_scanBest (refs : List Int) (t : Nat) (l : List (Option Int)) (i : Nat)
    (acc : Num × Nat) :
    optScan refs t l i acc
      = scanBest (fun v a => a.lt v) (l.map (fun page => nextUseIndex refs page (t + 1))) i acc := by
  induction l generalizing i acc with
  | nil => rfl
  | cons page rest ih =>
    simp only [optScan, List.map_cons, scanBest]
    split <;> exact ih _ _

/-- What `scanBest` returns: either nothing beat the start value, or the result is the
lowest index among the best values, which also beats the start value. -/
theorem scanBest_spec (better : Num → Num → Bool)
    (htrans : ∀ a b c, better a b = true → better b c = true → better a c = true)
    (hneg : ∀ a b c, better a b = true → better c b = false → better a c = true)
    (vals : List Num) (i : Nat) (acc : Num × Nat) :
    (scanBest better vals i acc = acc ∧ ∀ v ∈ vals, better v acc.1 = false) ∨
    (∃ j v, vals[j]? = some v ∧ scanBest better vals i acc = (v, i + j) ∧
      better v acc.1 = true ∧
      (∀ k w, k < j → vals[k]? = some w → better v w = true) ∧
      (∀ k w, j < k → vals[k]? = some w → better w v = false)) := by
  induction vals generalizing i acc with
  | nil => left; simp [scanBest]
  | cons a rest ih =>
    simp only [scanBest]
    by_cases hb : better a acc.1 = true
    · rw [if_pos hb]
      right
      rcases ih (i + 1) (a, i) with ⟨heq, hall⟩ | ⟨j, v, hj, heq, hbv, hlow, hhigh⟩
      · refine ⟨0, a, by simp, by simpa using heq, hb, ?_, ?_⟩
        · intro k w hk; omega
        · intro k w hk hw
          cases k with
          | zero => omega
          | succ k =>
            simp only [List.getElem?_cons_succ] at hw
            exact hall w (List.getElem?_mem hw)
      · refine ⟨j + 1, v, by simpa using hj, ?_, htrans _ _ _ hbv hb, ?_, ?_⟩
        · rw [heq]; congr 1; omega
        · intro k w hk hw
          cases k with
          | zero =>
            simp only [List.getElem?_cons_zero, Option.some.injEq] at hw
            subst hw; exact hbv
          | succ k =>
            simp only [List.getElem?_cons_succ] at hw
            exact hlow k w (by omega) hw
        · intro k w hk hw
          cases k with
          | zero => omega
          | succ k =>
            simp only [List.getElem?_cons_succ] at hw
            exact hhigh k w (by omega) hw
    · have hb' : better a acc.1 = false := by simpa using hb
      rw [if_neg hb]
      rcases ih (i + 1) acc with ⟨heq, hall⟩ | ⟨j, v, hj, heq, hbv, hlow, hhigh⟩
      · left
        refine ⟨heq, ?_⟩
        intro v hv
        rcases List.mem_cons.mp hv with rfl | hv
        · exact hb'
        · exact hall v hv
      · right
        refine ⟨j + 1, v, by simpa using hj, ?_, hbv, ?_, ?_⟩
        · rw [heq]; congr 1; omega
        · intro k w hk hw
          cases k with
          | zero =>
            simp only [List.getElem?_cons_zero, Option.some.injEq] at hw
            subst hw; exact hneg _ _ _ hbv hb'
          | succ k =>
            simp only [List.getElem?_cons_succ] at hw
            exact hlow k w (by omega) hw
        · intro k w hk hw
          cases k with
          | zero => omega
          | succ k =>
            simp only [List.getElem?_cons_succ] at hw
            exact hhigh k w (by omega) hw

/-! ## The common step contract -/

theorem StepP.step_mono {V W : VictimRule} (h : ∀ hist F rest i, V hist F rest i → W hist F rest i)
    {hist : List Step} {F : List (Option Int)} {p : Int} {rest : List Int} {s : Step}
    (hs : StepP V hist F p rest s) : StepP W hist F p rest s := by
  obtain ⟨hr, hc⟩ := hs
  refine ⟨hr, ?_⟩
  rcases hc with hc | hc | ⟨h1, h2, h3, i, v, h4, h5, h6⟩
  · exact Or.inl hc
  · exact Or.inr (Or.inl hc)
  · exact Or.inr (Or.inr ⟨h1, h2, h3, i, v, h4, h _ _ _ _ h5, h6⟩)

theorem TraceP.trace_mono {V W : VictimRule} (h : ∀ hist F rest i, V hist F rest i → W hist F rest i)
    {hist : List Step} {F : List (Option Int)} {rest : List Int} {tr : List Step}
    (ht : TraceP V hist F rest tr) : TraceP W hist F rest tr := by
  induction rest generalizing hist F tr with
  | nil => exact ht
  | cons p rest ih =>
    obtain ⟨s, tr', rfl, hs, ht'⟩ := ht
    exact ⟨s, tr', rfl, hs.step_mono h, ih ht'⟩

theorem TraceP.length {V : VictimRule} {hist : List Step} {F : List (Option Int)}
    {rest : List Int} {tr : List Step} (ht : TraceP V hist F rest tr) :
    tr.length = rest.length := by
  induction rest generalizing hist F tr with
  | nil => simp [TraceP] at ht; simp [ht]
  | cons p rest ih =>
    obtain ⟨s, tr', rfl, _, ht'⟩ := ht
    simp [ih ht']

theorem StepP.length_frames {V : VictimRule} {hist : List Step} {F : List (Option Int)}
    {p : Int} {rest : List Int} {s : Step} (hs : StepP V hist F p rest s) :
    s.frames.length = F.length := by
  obtain ⟨_, hc⟩ := hs
  rcases hc with ⟨_, _, _, h⟩ | ⟨_, _, _, i, _, _, h⟩ | ⟨_, _, _, i, v, _, _, _, h⟩ <;> simp [h]

/-- Every step of a trace obeys the contract on the frame array left by the step before. -/
theorem TraceP.step_at {V : VictimRule} {hist : List Step} {F : List (Option Int)}
    {rest : List Int} {tr : List Step} (ht : TraceP V hist F rest tr) {t : Nat} {p : Int}
    (hp : rest[t]? = some p) :
    ∃ s, tr[t]? = some s ∧
      StepP V (hist ++ tr.take t) (framesBefore F tr t) p (rest.drop (t + 1)) s := by
  induction rest generalizing hist F tr t with
  | nil => simp at hp
  | cons r rest ih =>
    obtain ⟨s, tr', rfl, hs, ht'⟩ := ht
    cases t with
    | zero =>
      simp only [List.getElem?_cons_zero, Option.some.injEq] at hp
      subst hp
      exact ⟨s, by simp, by simpa [framesBefore] using hs⟩
    | succ t =>
      simp only [List.getElem?_cons_succ] at hp
      obtain ⟨s', hs', hst⟩ := ih ht' hp
      refine ⟨s', by simpa using hs', ?_⟩
      cases t with
      | zero =>
        simpa [framesBefore] using hst
      | succ t =>
        have hlen : t < tr'.length := by
          have := ht'.length
          have := (List.getElem?_eq_some.mp hp).1
          omega
        have : framesBefore F (s :: tr') (t + 1 + 1) = framesBefore s.frames tr' (t + 1) := by
          simp only [framesBefore, List.getElem?_cons_succ]
          rw [List.getElem?_eq_getElem hlen]
        rw [this]
        simpa using hst

/-! ## Optimal: the step obeys the contract with the farthest-next-use rule -/

theorem nextUseFrom_none (rest : List Int) (k : Nat) : nextUseFrom none rest k = Num.posInf := by
  induction rest generalizing k with
  | nil => rfl
  | cons r rest ih => simp [nextUseFrom, ih]

theorem nextUseFrom_some (x : Int) (rest : List Int) (k : Nat) :
    nextUseFrom (some x) rest k
      = if x ∈ rest then Num.fin ((k + List.indexOf x rest : Nat) : Int) else Num.posInf := by
  induction rest generalizing k with
  | nil => simp [nextUseFrom]
  | cons r rest ih =>
    by_cases h : r = x
    · subst h; simp [nextUseFrom]
    · have hne : x ≠ r := fun e => h e.symm
      simp only [nextUseFrom, Option.some.injEq, h, if_false, ih, List.mem_cons, hne, false_or,
        List.indexOf_cons_ne _ h]
      split
      · congr 2; omega
      · rfl

/-- Comparing two next-use indices is comparing the positions of the first occurrences in
the references still to come (the length of the list standing for "never"). -/
theorem nextUseFrom_lt_iff (x y : Int) (rest : List Int) (k : Nat) :
    (nextUseFrom (some x) rest k).lt (nextUseFrom (some y) rest k) = true
      ↔ List.indexOf x rest < List.indexOf y rest := by
  rw [nextUseFrom_some, nextUseFrom_some]
  by_cases hx : x ∈ rest <;> by_cases hy : y ∈ rest
  · simp only [hx, hy, if_true, Num.lt, decide_eq_true_eq]; omega
  · have := List.indexOf_lt_length.mpr hx
    simp [hx, hy, Num.lt, List.indexOf_of_not_mem hy, this]
  · have := @List.indexOf_le_length _ _ y rest
    simp only [hx, hy, if_true, if_false, Num.lt, List.indexOf_of_not_mem hx]
    simp; omega
  · simp [hx, hy, Num.lt, List.indexOf_of_not_mem hx, List.indexOf_of_not_mem hy]

theorem optScan_spec (refs pre rest : List Int) (p : Int) (F : List (Option Int))
    (hrefs : refs = pre ++ p :: rest) (hlen : 0 < F.length) (hfull : none ∉ F) :
    ∃ i v, (optScan refs pre.length F 0 (Num.fin (-1), 0)).2 = i ∧ F[i]? = some (some v) ∧
      Vopt [] F rest i := by
  have hdrop : refs.drop (pre.length + 1) = rest := by
    subst hrefs
    rw [List.drop_append_eq_append_drop]
    simp
  have hnu : ∀ page, nextUseIndex refs page (pre.length + 1)
      = nextUseFrom page rest (pre.length + 1) := by
    intro page; simp [nextUseIndex, hdrop]
  have hsome : ∀ (k : Nat) (page : Option Int), F[k]? = some page → ∃ x, page = some x := by
    intro k page hk
    cases page with
    | none => exact absurd (List.getElem?_mem hk) hfull
    | some x => exact ⟨x, rfl⟩
  rw [optScan_eq_scanBest]
  rcases scanBest_spec (fun v a => a.lt v)
      (fun a b c h₁ h₂ => Num.lt_trans h₂ h₁)
      (fun a b c h₁ h₂ => Num.lt_of_not_lt_of_lt h₁ h₂)
      (F.map (fun page => nextUseIndex refs page (pre.length + 1))) 0 (Num.fin (-1), 0)
    with ⟨_, hall⟩ | ⟨j, w, hj, heq, _, hlow, hhigh⟩
  · exfalso
    obtain ⟨x, hx⟩ := hsome 0 F[0] (List.getElem?_eq_getElem hlen)
    have := hall (nextUseIndex refs F[0] (pre.length + 1))
      (List.mem_map.mpr ⟨F[0], List.getElem_mem hlen, rfl⟩)
    rw [hnu, hx, nextUseFrom_some] at this
    split at this <;> simp [Num.lt] at this
    omega
  · rw [List.getElem?_map] at hj
    obtain ⟨page, hpage, hw⟩ := Option.map_eq_some'.mp hj
    obtain ⟨v, rfl⟩ := hsome j page hpage
    refine ⟨j, v, by simp [heq], hpage, ?_⟩
    intro k x v' hv' hk
    have hvv : v' = v := by
      rw [hpage] at hv'; simpa using hv'.symm
    subst hvv
    have hkv : (F.map (fun page => nextUseIndex refs page (pre.length + 1)))[k]?
        = some (nextUseFrom (some x) rest (pre.length + 1)) := by
      rw [List.getElem?_map, hk]; simp [hnu]
    rw [hnu] at hw
    rcases Nat.lt_trichotomy k j with hlt | heq' | hgt
    · left
      have := hlow k _ hlt hkv
      rw [← hw] at this
      exact (nextUseFrom_lt_iff _ _ _ _).mp this
    · subst heq'
      right
      rw [hpage] at hk
      have : x = v' := by simpa using hk.symm
      subst this
      exact ⟨rfl, le_refl _⟩
    · have := hhigh k _ hgt hkv
      rw [← hw] at this
      have hnlt : ¬ List.indexOf v' rest < List.indexOf x rest := by
        intro h
        have := (nextUseFrom_lt_iff v' x rest (pre.length + 1)).mpr h
        simp_all
      rcases Nat.lt_or_ge (List.indexOf x rest) (List.indexOf v' rest) with h | h
      · exact Or.inl h
      · exact Or.inr ⟨by omega, by omega⟩

theorem emptyFrames_length {frames : Int} (h : 1 ≤ frames) : 0 < (emptyFrames frames).length := by
  simp only [emptyFrames, List.length_replicate]; omega

theorem faultCount_cons (s : Step) (tr : List Step) :
    faultCount (s :: tr) = (if s.hit then 0 else 1) + faultCount tr := by
  cases h : s.hit <;> simp [faultCount, List.countP_cons, h, Nat.add_comm]

theorem optStep_spec (refs : List Int) (s : OptSt) (p : Int) (rest : List Int)
    (hlen : 0 < s.mem.length) (hrefs : refs = s.state.map Step.ref ++ p :: rest) :
    ∃ st, StepP Vopt s.state s.mem p rest st ∧
      optStep refs s.state.length p s
        = ⟨s.faults + (if st.hit then 0 else 1), st.frames, s.state ++ [st]⟩ := by
  unfold optStep
  cases h1 : indexOf s.mem (some p) with
  | some k =>
    exact ⟨⟨p, true, none, s.mem⟩,
      ⟨rfl, Or.inl ⟨List.getElem?_mem (indexOf_eq_some h1).1, rfl, rfl, rfl⟩⟩, by simp⟩
  | none =>
    have hp : some p ∉ s.mem := indexOf_eq_none_iff.mp h1
    cases h2 : indexOf s.mem none with
    | some e =>
      obtain ⟨he, hlow⟩ := indexOf_eq_some h2
      have hlt : e < s.mem.length := (List.getElem?_eq_some.mp he).1
      exact ⟨⟨p, false, none, s.mem.set e (some p)⟩,
        ⟨rfl, Or.inr (Or.inl ⟨hp, rfl, rfl, e, he, hlow, rfl⟩)⟩, by simp [writeAt_of_lt hlt]⟩
    | none =>
      have hfull := indexOf_eq_none_iff.mp h2
      obtain ⟨i, v, hi, hv, hV⟩ := optScan_spec refs (s.state.map Step.ref) rest p s.mem
        hrefs hlen hfull
      rw [List.length_map] at hi
      have hlt : i < s.mem.length := (List.getElem?_eq_some.mp hv).1
      refine ⟨⟨p, false, some v, s.mem.set i (some p)⟩,
        ⟨rfl, Or.inr (Or.inr ⟨hp, hfull, rfl, i, v, hv, hV, rfl, rfl⟩)⟩, ?_⟩
      simp only [hi, writeAt_of_lt hlt, readAt_of_getElem? hv]
      simp

theorem optLoop_spec (refs rest : List Int) (s : OptSt) (hlen : 0 < s.mem.length)
    (hrefs : refs = s.state.map Step.ref ++ rest) :
    ∃ tr, TraceP Vopt s.state s.mem rest tr ∧
      (optLoop refs rest s.state.length s).state = s.state ++ tr ∧
      (optLoop refs rest s.state.length s).faults = s.faults + faultCount tr := by
  induction rest generalizing s with
  | nil => exact ⟨[], rfl, by simp [optLoop], by simp [optLoop, faultCount]⟩
  | cons p rest ih =>
    obtain ⟨st, hst, heq⟩ := optStep_spec refs s p rest hlen hrefs
    have hlen' : 0 < st.frames.length := by rw [hst.length_frames]; exact hlen
    have hrefs' : refs = (s.state ++ [st]).map Step.ref ++ rest := by
      rw [hrefs, List.map_append]; simp [hst.1]
    obtain ⟨tr, htr, hstate, hfaults⟩ :=
      ih ⟨s.faults + (if st.hit then 0 else 1), st.frames, s.state ++ [st]⟩ hlen' hrefs'
    refine ⟨st :: tr, ⟨st, tr, rfl, hst, htr⟩, ?_, ?_⟩
    · simp only [optLoop, heq]
      simp only [List.length_append, List.length_singleton] at hstate
      rw [hstate]; simp
    · simp only [optLoop, heq]
      simp only [List.length_append, List.length_singleton] at hfaults
      rw [hfaults, faultCount_cons]; omega

/-- The run of `simulateOptimal` is a trace obeying the step contract with the
farthest-next-use rule, and `faults` counts its fault steps. -/
theorem simulateOptimal_trace (refs : List Int) (frames : Int) (h : 1 ≤ frames) :
    TraceP Vopt [] (emptyFrames frames) refs (simulateOptimal refs frames).state ∧
      (simulateOptimal refs frames).faults = faultCount (simulateOptimal refs frames).state := by
  obtain ⟨tr, htr, hstate, hfaults⟩ :=
    optLoop_spec refs refs ⟨0, emptyFrames frames, []⟩ (emptyFrames_length h) (by simp)
  simp only [List.length_nil, List.nil_append, Nat.zero_add] at hstate hfaults
  simp only [simulateOptimal, hstate, hfaults]
  exact ⟨htr, trivial⟩

/-! ## Residency is a set -/

theorem mem_set_ne {F : List (Option Int)} {i : Nat} {p x : Int}
    (h : some x ∈ F.set i (some p)) (hne : x ≠ p) :
    ∃ a, a ≠ i ∧ F[a]? = some (some x) := by
  obtain ⟨a, ha⟩ := List.mem_iff_getElem?.mp h
  rw [List.getElem?_set] at ha
  by_cases hia : i = a
  · rw [if_pos hia] at ha
    split at ha
    · simp only [Option.some.injEq] at ha; exact absurd ha.symm hne
    · simp at ha
  · rw [if_neg hia] at ha
    exact ⟨a, fun e => hia e.symm, ha⟩

theorem NoDupPages.set {F : List (Option Int)} (h : NoDupPages F) {p : Int}
    (hp : some p ∉ F) (i : Nat) : NoDupPages (F.set i (some p)) := by
  intro a b x ha hb
  rw [List.getElem?_set] at ha hb
  by_cases hia : i = a <;> by_cases hib : i = b
  · omega
  · rw [if_pos hia] at ha
    rw [if_neg hib] at hb
    split at ha
    · simp only [Option.some.injEq] at ha
      subst ha
      exact absurd (List.getElem?_mem hb) hp
    · simp at ha
  · rw [if_neg hia] at ha
    rw [if_pos hib] at hb
    split at hb
    · simp only [Option.some.injEq] at hb
      subst hb
      exact absurd (List.getElem?_mem ha) hp
    · simp at hb
  · rw [if_neg hia] at ha
    rw [if_neg hib] at hb
    exact h a b x ha hb

theorem StepP.noDup {V : VictimRule} {hist : List Step} {F : List (Option Int)} {p : Int}
    {rest : List Int} {s : Step} (hs : StepP V hist F p rest s) (h : NoDupPages F) :
    NoDupPages s.frames := by
  obtain ⟨_, hc⟩ := hs
  rcases hc with ⟨_, _, _, hf⟩ | ⟨hp, _, _, i, _, _, hf⟩ | ⟨hp, _, _, i, v, _, _, _, hf⟩
  · rw [hf]; exact h
  · rw [hf]; exact h.set hp i
  · rw [hf]; exact h.set hp i

theorem noDupPages_emptyFrames (frames : Int) : NoDupPages (emptyFrames frames) := by
  intro i j x hi _
  have := List.getElem?_mem hi
  simp [emptyFrames] at this

/-- After a step the referenced page is resident. -/
theorem StepP.ref_mem {V : VictimRule} {hist : List Step} {F : List (Option Int)} {p : Int}
    {rest : List Int} {s : Step} (hs : StepP V hist F p rest s) : some p ∈ s.frames := by
  obtain ⟨_, hc⟩ := hs
  rcases hc with ⟨hp, _, _, hf⟩ | ⟨_, _, _, i, hi, _, hf⟩ | ⟨_, _, _, i, v, hi, _, _, hf⟩
  · rw [hf]; exact hp
  · rw [hf]
    exact List.getElem?_mem (List.getElem?_set_self (List.getElem?_eq_some.mp hi).1)
  · rw [hf]
    exact List.getElem?_mem (List.getElem?_set_self (List.getElem?_eq_some.mp hi).1)

/-- A page resident after a step is the referenced page or was resident before. -/
theorem StepP.mem_frames {V : VictimRule} {hist : List Step} {F : List (Option Int)} {p : Int}
    {rest : List Int} {s : Step} (hs : StepP V hist F p rest s) {x : Int}
    (hx : some x ∈ s.frames) : x = p ∨ some x ∈ F := by
  obtain ⟨_, hc⟩ := hs
  rcases hc with ⟨_, _, _, hf⟩ | ⟨_, _, _, i, _, _, hf⟩ | ⟨_, _, _, i, v, _, _, _, hf⟩
  · rw [hf] at hx; exact Or.inr hx
  · rw [hf] at hx
    rcases List.mem_or_eq_of_mem_set hx with h | h
    · exact Or.inr h
    · exact Or.inl (by simpa using h)
  · rw [hf] at hx
    rcases List.mem_or_eq_of_mem_set hx with h | h
    · exact Or.inr h
    · exact Or.inl (by simpa using h)

/-! ## LRU: the step obeys the contract with the least-recently-used rule -/

theorem LastAt.page_unique {pre : List Int} {x y : Int} {i j : Nat} (hi : LastAt pre x i)
    (hj : LastAt pre y j) (hij : i = j) : x = y := by
  subst hij
  have := hi.1.symm.trans hj.1
  simpa using this

theorem LastAt.index_lt {pre : List Int} {x : Int} {i : Nat} (hi : LastAt pre x i) :
    i < pre.length := (List.getElem?_eq_some.mp hi.1).1

theorem lastAt_append_self (pre : List Int) (p : Int) : LastAt (pre ++ [p]) p pre.length := by
  refine ⟨by simp, ?_⟩
  intro j hj
  rw [List.getElem?_eq_none (by simp; omega)]
  simp

theorem LastAt.append_ne {pre : List Int} {x p : Int} {i : Nat} (h : LastAt pre x i)
    (hne : x ≠ p) : LastAt (pre ++ [p]) x i := by
  refine ⟨by rw [List.getElem?_append_left h.index_lt]; exact h.1, ?_⟩
  intro j hj
  by_cases hjl : j < pre.length
  · rw [List.getElem?_append_left hjl]; exact h.2 j hj
  · by_cases hjl' : j = pre.length
    · subst hjl'; simpa using fun e => hne e.symm
    · rw [List.getElem?_eq_none (by simp; omega)]; simp

theorem LastAt.of_append_ne {pre : List Int} {x p : Int} {i : Nat}
    (h : LastAt (pre ++ [p]) x i) (hne : x ≠ p) : LastAt pre x i := by
  have hi : i < pre.length := by
    have h1 := h.index_lt
    simp only [List.length_append, List.length_singleton] at h1
    rcases Nat.lt_or_ge i pre.length with h2 | h2
    · exact h2
    · have : i = pre.length := by omega
      subst this
      have := h.1
      simp at this
      exact absurd this.symm hne
  refine ⟨by have := h.1; rwa [List.getElem?_append_left hi] at this, ?_⟩
  intro j hj
  by_cases hjl : j < pre.length
  · have := h.2 j hj
    rwa [List.getElem?_append_left hjl] at this
  · rw [List.getElem?_eq_none (by omega)]; simp

theorem lruScan_spec (m : Int → Option Nat) (pre : List Int) (F : List (Option Int))
    (hlen : 0 < F.length) (hfull : none ∉ F)
    (hm : ∀ x, some x ∈ F → ∃ i, m x = some i ∧ LastAt pre x i) :
    ∃ i v, (lruScan m F 0 (Num.posInf, 0)).2 = i ∧ F[i]? = some (some v) ∧
      ∀ j x tv tx, F[j]? = some (some x) → LastAt pre v tv → LastAt pre x tx →
        tv < tx ∨ (tv = tx ∧ i ≤ j) := by
  have hsome : ∀ (k : Nat) (page : Option Int), F[k]? = some page →
      ∃ x t, page = some x ∧ m x = some t ∧ LastAt pre x t ∧
        lastUsedOr m page = Num.fin (t : Int) := by
    intro k page hk
    cases page with
    | none => exact absurd (List.getElem?_mem hk) hfull
    | some x =>
      obtain ⟨t, ht, hl⟩ := hm x (List.getElem?_mem hk)
      exact ⟨x, t, rfl, ht, hl, by simp [lastUsedOr, ht]⟩
  rw [lruScan_eq_scanBest]
  rcases scanBest_spec (fun v a => v.lt a)
      (fun a b c h₁ h₂ => Num.lt_trans h₁ h₂)
      (fun a b c h₁ h₂ => Num.lt_of_lt_of_not_lt h₁ h₂)
      (F.map (lastUsedOr m)) 0 (Num.posInf, 0)
    with ⟨_, hall⟩ | ⟨j, w, hj, heq, _, hlow, hhigh⟩
  · exfalso
    obtain ⟨x, t, _, _, _, hlu⟩ := hsome 0 F[0] (List.getElem?_eq_getElem hlen)
    have := hall (lastUsedOr m F[0]) (List.mem_map.mpr ⟨F[0], List.getElem_mem hlen, rfl⟩)
    rw [hlu] at this
    simp [Num.lt] at this
  · rw [List.getElem?_map] at hj
    obtain ⟨page, hpage, hw⟩ := Option.map_eq_some'.mp hj
    obtain ⟨v, t, rfl, _, hlv, hluv⟩ := hsome j page hpage
    refine ⟨j, v, by simp [heq], hpage, ?_⟩
    intro k x tv tx hk htv htx
    obtain ⟨x', t', hx', _, hlx, hlux⟩ := hsome k (some x) hk
    have hxx : x' = x := by simpa using hx'.symm
    subst hxx
    have e1 : t = tv := by
      rcases Nat.lt_trichotomy t tv with h | h | h
      · exact absurd htv.1 (hlv.2 tv h)
      · exact h
      · exact absurd hlv.1 (htv.2 t h)
    have e2 : t' = tx := by
      rcases Nat.lt_trichotomy t' tx with h | h | h
      · exact absurd htx.1 (hlx.2 tx h)
      · exact h
      · exact absurd hlx.1 (htx.2 t' h)
    subst e1 e2
    have hkv : (F.map (lastUsedOr m))[k]? = some (Num.fin (t' : Int)) := by
      rw [List.getElem?_map, hk]; simp [hlux]
    rw [hluv] at hw
    rcases Nat.lt_trichotomy k j with hlt | heq' | hgt
    · left
      have := hlow k _ hlt hkv
      rw [← hw] at this
      simpa [Num.lt] using this
    · subst heq'
      right
      rw [hpage] at hk
      have : x' = v := by simpa using hk.symm
      subst this
      exact ⟨by
        rcases Nat.lt_trichotomy t t' with h | h | h
        · exact absurd hlx.1 (hlv.2 t' h)
        · exact h
        · exact absurd hlv.1 (hlx.2 t h), le_refl _⟩
    · have := hhigh k _ hgt hkv
      rw [← hw] at this
      have hle : t ≤ t' := by simpa [Num.lt] using this
      rcases Nat.lt_or_ge t t' with h | h
      · exact Or.inl h
      · exact Or.inr ⟨by omega, by omega⟩

theorem lru_book {pre : List Int} {m' : Int → Option Nat} {F' : List (Option Int)} {p : Int}
    (hp : m' p = some pre.length)
    (hx : ∀ x, some x ∈ F' → x ≠ p → ∃ i, m' x = some i ∧ LastAt pre x i) :
    ∀ x, some x ∈ F' → ∃ i, m' x = some i ∧ LastAt (pre ++ [p]) x i := by
  intro x hxF
  by_cases hxp : x = p
  · subst hxp; exact ⟨pre.length, hp, lastAt_append_self pre x⟩
  · obtain ⟨i, hi, hl⟩ := hx x hxF hxp
    exact ⟨i, hi, hl.append_ne hxp⟩

theorem lruStep_spec (s : LruSt) (p : Int) (rest : List Int) (hlen : 0 < s.mem.length)
    (hinv : LruInv s) :
    ∃ st, StepP Vlru s.state s.mem p rest st ∧
      (lruStep s.state.length p s).state = s.state ++ [st] ∧
      (lruStep s.state.length p s).mem = st.frames ∧
      (lruStep s.state.length p s).faults = s.faults + (if st.hit then 0 else 1) ∧
      LruInv (lruStep s.state.length p s) := by
  obtain ⟨hnd, hm⟩ := hinv
  have hlenmap : (s.state.map Step.ref).length = s.state.length := List.length_map _ _
  unfold lruStep
  cases h1 : indexOf s.mem (some p) with
  | some k =>
    refine ⟨⟨p, true, none, s.mem⟩,
      ⟨rfl, Or.inl ⟨List.getElem?_mem (indexOf_eq_some h1).1, rfl, rfl, rfl⟩⟩, rfl, rfl,
      by simp, hnd, ?_⟩
    simp only [List.map_append, List.map_cons, List.map_nil]
    apply lru_book
    · simp [mapSet]
    · intro x hx hxp
      obtain ⟨i, hi, hl⟩ := hm x hx
      exact ⟨i, by simp [mapSet, hxp, hi], hl⟩
  | none =>
    have hp : some p ∉ s.mem := indexOf_eq_none_iff.mp h1
    cases h2 : indexOf s.mem none with
    | some e =>
      obtain ⟨he, hlow⟩ := indexOf_eq_some h2
      have hlt : e < s.mem.length := (List.getElem?_eq_some.mp he).1
      refine ⟨⟨p, false, none, s.mem.set e (some p)⟩,
        ⟨rfl, Or.inr (Or.inl ⟨hp, rfl, rfl, e, he, hlow, rfl⟩)⟩, by simp [writeAt_of_lt hlt],
        by simp [writeAt_of_lt hlt], by simp, ?_, ?_⟩
      · simp only [writeAt_of_lt hlt]; exact hnd.set hp e
      · simp only [writeAt_of_lt hlt, List.map_append, List.map_cons, List.map_nil]
        apply lru_book
        · simp [mapSet]
        · intro x hx hxp
          obtain ⟨a, _, ha⟩ := mem_set_ne hx hxp
          obtain ⟨i, hi, hl⟩ := hm x (List.getElem?_mem ha)
          exact ⟨i, by simp [mapSet, hxp, hi], hl⟩
    | none =>
      have hfull := indexOf_eq_none_iff.mp h2
      obtain ⟨i, v, hi, hv, hV⟩ := lruScan_spec s.lastUsed (s.state.map Step.ref) s.mem
        hlen hfull hm
      have hlt : i < s.mem.length := (List.getElem?_eq_some.mp hv).1
      refine ⟨⟨p, false, some v, s.mem.set i (some p)⟩,
        ⟨rfl, Or.inr (Or.inr ⟨hp, hfull, rfl, i, v, hv, ?_, rfl, rfl⟩)⟩, ?_, ?_, by simp, ?_, ?_⟩
      · intro j x v' tv tx hv' hj htv htx
        have : v' = v := by rw [hv] at hv'; simpa using hv'.symm
        subst this
        exact hV j x tv tx hj htv htx
      · simp [hi, writeAt_of_lt hlt, readAt_of_getElem? hv]
      · simp [hi, writeAt_of_lt hlt]
      · simp only [hi, writeAt_of_lt hlt]; exact hnd.set hp i
      · simp only [hi, writeAt_of_lt hlt, readAt_of_getElem? hv, List.map_append, List.map_cons,
          List.map_nil]
        apply lru_book
        · simp [mapSet]
        · intro x hx hxp
          obtain ⟨a, hai, ha⟩ := mem_set_ne hx hxp
          have hxv : x ≠ v := by
            intro e; subst e
            exact hai (hnd a i x ha hv)
          obtain ⟨t, ht, hl⟩ := hm x (List.getElem?_mem ha)
          exact ⟨t, by simp [mapSet, mapDelete, hxp, hxv, ht], hl⟩

theorem lruLoop_spec (rest : List Int) (s : LruSt) (hlen : 0 < s.mem.length)
    (hinv : LruInv s) :
    ∃ tr, TraceP Vlru s.state s.mem rest tr ∧
      (lruLoop rest s.state.length s).state = s.state ++ tr ∧
      (lruLoop rest s.state.length s).faults = s.faults + faultCount tr := by
  induction rest generalizing s with
  | nil => exact ⟨[], rfl, by simp [lruLoop], by simp [lruLoop, faultCount]⟩
  | cons p rest ih =>
    obtain ⟨st, hst, hstate, hmem, hfaults, hinv'⟩ := lruStep_spec s p rest hlen hinv
    have hlen' : 0 < (lruStep s.state.length p s).mem.length := by
      rw [hmem, hst.length_frames]; exact hlen
    obtain ⟨tr, htr, hstate', hfaults'⟩ := ih (lruStep s.state.length p s) hlen' hinv'
    rw [hstate, hmem] at htr
    rw [hstate] at hstate' hfaults'
    simp only [List.length_append, List.length_singleton] at hstate' hfaults'
    refine ⟨st :: tr, ⟨st, tr, rfl, hst, htr⟩, ?_, ?_⟩
    · simp only [lruLoop]
      rw [hstate']; simp
    · simp only [lruLoop]
      rw [hfaults', hfaults, faultCount_cons]; omega

/-- The run of `simulateLRU` is a trace obeying the step contract with the
least-recently-used rule, and `faults` counts its fault steps. -/
theorem simulateLRU_trace (refs : List Int) (frames : Int) (h : 1 ≤ frames) :
    TraceP Vlru [] (emptyFrames frames) refs (simulateLRU refs frames).state ∧
      (simulateLRU refs frames).faults = faultCount (simulateLRU refs frames).state := by
  obtain ⟨tr, htr, hstate, hfaults⟩ :=
    lruLoop_spec refs ⟨0, emptyFrames frames, fun _ => none, []⟩ (emptyFrames_length h)
      ⟨noDupPages_emptyFrames frames, by intro x hx; simp [emptyFrames] at hx⟩
  simp only [List.length_nil, List.nil_append, Nat.zero_add] at hstate hfaults
  have e1 : (simulateLRU refs frames).state = tr := hstate
  have e2 : (simulateLRU refs frames).faults = faultCount tr := hfaults
  rw [e1, e2]
  exact ⟨htr, rfl⟩

/-! ## FIFO: the step obeys the contract with the oldest-placement rule -/

theorem LastFault.time_lt {hist : List Step} {x : Int} {τ : Nat} (h : LastFault hist x τ) :
    τ < hist.length := by
  obtain ⟨⟨st, hst, _⟩, _⟩ := h
  exact (List.getElem?_eq_some.mp hst).1

theorem LastFault.time_unique {hist : List Step} {x : Int} {τ τ' : Nat} (h : LastFault hist x τ)
    (h' : LastFault hist x τ') : τ = τ' := by
  obtain ⟨⟨st, hst, hr, hh⟩, hlast⟩ := h
  obtain ⟨⟨st', hst', hr', hh'⟩, hlast'⟩ := h'
  rcases Nat.lt_trichotomy τ τ' with hlt | heq | hgt
  · exact absurd ⟨hr', hh'⟩ (hlast τ' st' hlt hst')
  · exact heq
  · exact absurd ⟨hr, hh⟩ (hlast' τ st hgt hst)

theorem lastFault_append_fault (hist : List Step) (st : Step) (hh : st.hit = false) :
    LastFault (hist ++ [st]) st.ref hist.length := by
  refine ⟨⟨st, by simp, rfl, hh⟩, ?_⟩
  intro τ' st' hτ hst'
  rw [List.getElem?_eq_none (by simp; omega)] at hst'
  simp at hst'

theorem LastFault.append_other {hist : List Step} {x : Int} {τ : Nat}
    (h : LastFault hist x τ) {st : Step} (hst : ¬ (st.ref = x ∧ st.hit = false)) :
    LastFault (hist ++ [st]) x τ := by
  obtain ⟨⟨s0, hs0, hr, hh⟩, hlast⟩ := h
  have hτ : τ < hist.length := (List.getElem?_eq_some.mp hs0).1
  refine ⟨⟨s0, by rw [List.getElem?_append_left hτ]; exact hs0, hr, hh⟩, ?_⟩
  intro τ' st' hlt hst'
  by_cases h1 : τ' < hist.length
  · rw [List.getElem?_append_left h1] at hst'
    exact hlast τ' st' hlt hst'
  · by_cases h2 : τ' = hist.length
    · subst h2
      simp only [List.getElem?_concat_length, Option.some.injEq] at hst'
      subst hst'; exact hst
    · rw [List.getElem?_eq_none (by simp; omega)] at hst'
      simp at hst'

theorem LastFault.of_append_other {hist : List Step} {x : Int} {τ : Nat} {st : Step}
    (h : LastFault (hist ++ [st]) x τ) (hst : ¬ (st.ref = x ∧ st.hit = false)) :
    LastFault hist x τ := by
  obtain ⟨⟨s0, hs0, hr, hh⟩, hlast⟩ := h
  have hτ : τ < hist.length := by
    have h1 := (List.getElem?_eq_some.mp hs0).1
    simp only [List.length_append, List.length_singleton] at h1
    rcases Nat.lt_or_ge τ hist.length with h2 | h2
    · exact h2
    · have : τ = hist.length := by omega
      subst this
      simp only [List.getElem?_concat_length, Option.some.injEq] at hs0
      subst hs0
      exact absurd ⟨hr, hh⟩ hst
  rw [List.getElem?_append_left hτ] at hs0
  refine ⟨⟨s0, hs0, hr, hh⟩, ?_⟩
  intro τ' st' hlt hst'
  have h1 : τ' < hist.length := (List.getElem?_eq_some.mp hst').1
  exact hlast τ' st' hlt (by rw [List.getElem?_append_left h1]; exact hst')

/-- Placing a page into slot `k` and appending `k` to a queue that does not contain it
keeps the queue in placement order. -/
theorem fifo_place {hist : List Step} {F : List (Option Int)} {p : Int} {k : Nat}
    {ql : List Nat} (st : Step) (hp : some p ∉ F) (hk : k < F.length) (hkq : k ∉ ql)
    (hex : ∀ (i : Nat) x, F[i]? = some (some x) → ∃ τ, LastFault hist x τ)
    (hpw : ql.Pairwise (PlacedBefore hist F)) (hr : st.ref = p) (hh : st.hit = false) :
    (∀ (i : Nat) x, (F.set k (some p))[i]? = some (some x) → ∃ τ, LastFault (hist ++ [st]) x τ) ∧
      (ql ++ [k]).Pairwise (PlacedBefore (hist ++ [st]) (F.set k (some p))) := by
  have hother : ∀ x, some x ∈ F → ¬ (st.ref = x ∧ st.hit = false) := by
    intro x hx hc
    rw [hr] at hc
    rw [← hc.1] at hx
    exact hp hx
  have hnew : LastFault (hist ++ [st]) p hist.length := by
    have := lastFault_append_fault hist st hh
    rwa [hr] at this
  constructor
  · intro i x hi
    rw [List.getElem?_set] at hi
    by_cases hki : k = i
    · rw [if_pos hki, if_pos hk] at hi
      simp only [Option.some.injEq] at hi
      subst hi
      exact ⟨hist.length, hnew⟩
    · rw [if_neg hki] at hi
      obtain ⟨τ, hτ⟩ := hex i x hi
      exact ⟨τ, hτ.append_other (hother x (List.getElem?_mem hi))⟩
  · rw [List.pairwise_append]
    refine ⟨?_, by simp, ?_⟩
    · refine List.Pairwise.imp_of_mem ?_ hpw
      intro a b ha hb hab x y τx τy hx hy hτx hτy
      have hka : k ≠ a := fun e => hkq (e ▸ ha)
      have hkb : k ≠ b := fun e => hkq (e ▸ hb)
      rw [List.getElem?_set_ne hka] at hx
      rw [List.getElem?_set_ne hkb] at hy
      exact hab x y τx τy hx hy
        (hτx.of_append_other (hother x (List.getElem?_mem hx)))
        (hτy.of_append_other (hother y (List.getElem?_mem hy)))
    · intro a ha b hb x y τx τy hx hy hτx hτy
      have hbk : b = k := by simpa using hb
      subst hbk
      have hka : b ≠ a := fun e => hkq (e ▸ ha)
      rw [List.getElem?_set_ne hka] at hx
      rw [List.getElem?_set_self hk] at hy
      simp only [Option.some.injEq] at hy
      subst hy
      have h1 := (hτx.of_append_other (hother x (List.getElem?_mem hx))).time_lt
      have h2 := hτy.time_unique hnew
      omega

theorem fifoStep_spec (s : FifoSt) (p : Int) (rest : List Int) (hlen : 0 < s.mem.length)
    (hinv : FifoInv s) :
    ∃ st, StepP Vfifo s.state s.mem p rest st ∧
      (fifoStep p s).state = s.state ++ [st] ∧
      (fifoStep p s).mem = st.frames ∧
      (fifoStep p s).faults = s.faults + (if st.hit then 0 else 1) ∧
      FifoInv (fifoStep p s) := by
  obtain ⟨ql, hq, hnd, hmemq, hex, hpw⟩ := hinv
  unfold fifoStep
  cases h1 : indexOf s.mem (some p) with
  | some k =>
    refine ⟨⟨p, true, none, s.mem⟩,
      ⟨rfl, Or.inl ⟨List.getElem?_mem (indexOf_eq_some h1).1, rfl, rfl, rfl⟩⟩, rfl, rfl,
      by simp, ql, hq, hnd, hmemq, ?_, ?_⟩
    · intro i x hi
      obtain ⟨τ, hτ⟩ := hex i x hi
      exact ⟨τ, hτ.append_other (by simp)⟩
    · refine List.Pairwise.imp ?_ hpw
      intro a b hab x y τx τy hx hy hτx hτy
      exact hab x y τx τy hx hy (hτx.of_append_other (by simp)) (hτy.of_append_other (by simp))
  | none =>
    have hp : some p ∉ s.mem := indexOf_eq_none_iff.mp h1
    cases h2 : indexOf s.mem none with
    | some e =>
      obtain ⟨he, hlow⟩ := indexOf_eq_some h2
      have hlt : e < s.mem.length := (List.getElem?_eq_some.mp he).1
      have heq : e ∉ ql := by
        intro hc
        obtain ⟨x, hx⟩ := (hmemq e).mp hc
        rw [he] at hx; simp at hx
      obtain ⟨hex', hpw'⟩ := fifo_place ⟨p, false, none, s.mem.set e (some p)⟩
        hp hlt heq hex hpw rfl rfl
      refine ⟨⟨p, false, none, s.mem.set e (some p)⟩,
        ⟨rfl, Or.inr (Or.inl ⟨hp, rfl, rfl, e, he, hlow, rfl⟩)⟩, by simp [writeAt_of_lt hlt],
        by simp [writeAt_of_lt hlt], by simp, ql ++ [e], by simp [hq], ?_, ?_, ?_, ?_⟩
      · exact List.Nodup.append hnd (by simp) (by simpa using heq)
      · intro i
        simp only [writeAt_of_lt hlt, List.mem_append, List.mem_singleton, hmemq,
          List.getElem?_set]
        by_cases hei : e = i
        · subst hei; simp [hlt]
        · have hie : ¬ i = e := fun h => hei h.symm
          simp [hei, hie]
      · simpa only [writeAt_of_lt hlt] using hex'
      · simpa only [writeAt_of_lt hlt] using hpw'
    | none =>
      have hfull := indexOf_eq_none_iff.mp h2
      have h0 : ∃ x, s.mem[0]? = some (some x) := by
        cases h0 : s.mem[0] with
        | none => exact absurd (h0 ▸ List.getElem_mem hlen) hfull
        | some x => exact ⟨x, by rw [List.getElem?_eq_getElem hlen, h0]⟩
      cases ql with
      | nil => exact absurd ((hmemq 0).mpr h0) (by simp)
      | cons h tl =>
        obtain ⟨v, hv⟩ := (hmemq h).mp (by simp)
        have hlt : h < s.mem.length := (List.getElem?_eq_some.mp hv).1
        have hht : h ∉ tl := (List.nodup_cons.mp hnd).1
        obtain ⟨hex', hpw'⟩ := fifo_place ⟨p, false, some v, s.mem.set h (some p)⟩
          hp hlt hht hex (List.Pairwise.of_cons hpw) rfl rfl
        have hhead : s.q.head?.join = some h := by simp [hq]
        have htail : s.q.tail = tl.map some := by simp [hq]
        simp only [hhead, htail, writeAt_of_lt hlt, readAt_of_getElem? hv]
        refine ⟨⟨p, false, some v, s.mem.set h (some p)⟩,
          ⟨rfl, Or.inr (Or.inr ⟨hp, hfull, rfl, h, v, hv, ?_, rfl, rfl⟩)⟩, ?_, ?_, by simp,
          tl ++ [h], ?_, ?_, ?_, ?_, ?_⟩
        · intro j x v' τv τx hv' hj hjh hτv hτx
          have hjq : j ∈ tl := by
            have := (hmemq j).mpr ⟨x, hj⟩
            rcases List.mem_cons.mp this with e | e
            · exact absurd e hjh
            · exact e
          exact List.rel_of_pairwise_cons hpw hjq v' x τv τx hv' hj hτv hτx
        · rfl
        · rfl
        · simp
        · exact List.Nodup.append (List.nodup_cons.mp hnd).2 (by simp) (by simpa using hht)
        · intro i
          have := hmemq i
          simp only [List.mem_cons] at this
          simp only [List.mem_append, List.mem_singleton, List.getElem?_set]
          by_cases hei : h = i
          · subst hei; simp [hlt]
          · have hie : ¬ i = h := fun e => hei e.symm
            rw [if_neg hei, ← this]; simp [hie]
        · exact hex'
        · exact hpw'

theorem fifoLoop_spec (rest : List Int) (s : FifoSt) (hlen : 0 < s.mem.length)
    (hinv : FifoInv s) :
    ∃ tr, TraceP Vfifo s.state s.mem rest tr ∧
      (fifoLoop rest s).state = s.state ++ tr ∧
      (fifoLoop rest s).faults = s.faults + faultCount tr := by
  induction rest generalizing s with
  | nil => exact ⟨[], rfl, by simp [fifoLoop], by simp [fifoLoop, faultCount]⟩
  | cons p rest ih =>
    obtain ⟨st, hst, hstate, hmem, hfaults, hinv'⟩ := fifoStep_spec s p rest hlen hinv
    have hlen' : 0 < (fifoStep p s).mem.length := by
      rw [hmem, hst.length_frames]; exact hlen
    obtain ⟨tr, htr, hstate', hfaults'⟩ := ih (fifoStep p s) hlen' hinv'
    rw [hstate, hmem] at htr
    rw [hstate] at hstate'
    refine ⟨st :: tr, ⟨st, tr, rfl, hst, htr⟩, ?_, ?_⟩
    · simp only [fifoLoop]
      rw [hstate']; simp
    · simp only [fifoLoop]
      rw [hfaults', hfaults, faultCount_cons]; omega

/-- The run of `simulateFIFO` is a trace obeying the step contract with the
oldest-placement rule, and `faults` counts its fault steps. -/
theorem simulateFIFO_trace (refs : List Int) (frames : Int) (h : 1 ≤ frames) :
    TraceP Vfifo [] (emptyFrames frames) refs (simulateFIFO refs frames).state ∧
      (simulateFIFO refs frames).faults = faultCount (simulateFIFO refs frames).state := by
  obtain ⟨tr, htr, hstate, hfaults⟩ :=
    fifoLoop_spec refs ⟨0, emptyFrames frames, none, [], []⟩ (emptyFrames_length h)
      ⟨[], rfl, List.nodup_nil, by
        intro i
        simp only [List.not_mem_nil, false_iff, not_exists]
        intro x hx
        have := List.getElem?_mem hx
        simp [emptyFrames] at this, by
        intro i x hx
        have := List.getElem?_mem hx
        simp [emptyFrames] at this, List.Pairwise.nil⟩
  simp only [List.nil_append, Nat.zero_add] at hstate hfaults
  have e1 : (simulateFIFO refs frames).state = tr := hstate
  have e2 : (simulateFIFO refs frames).faults = faultCount tr := hfaults
  rw [e1, e2]
  exact ⟨htr, rfl⟩

/-! ## The three simulations as traces -/

/-- Each simulation is a trace obeying the common step contract from the empty frame
array, and its `faults` is the number of fault steps. -/
theorem sim_trace (refs : List Int) (frames : Int) (h : 1 ≤ frames)
    (sim : List Int → Int → Result)
    (hsim : sim ∈ [simulateFIFO, simulateLRU, simulateOptimal]) :
    TraceP Vany [] (emptyFrames frames) refs (sim refs frames).state ∧
      (sim refs frames).faults = faultCount (sim refs frames).state := by
  simp only [List.mem_cons, List.mem_singleton, List.not_mem_nil, or_false] at hsim
  rcases hsim with rfl | rfl | rfl
  · exact ⟨(simulateFIFO_trace refs frames h).1.trace_mono (fun _ _ _ _ _ => trivial),
      (simulateFIFO_trace refs frames h).2⟩
  · exact ⟨(simulateLRU_trace refs frames h).1.trace_mono (fun _ _ _ _ _ => trivial),
      (simulateLRU_trace refs frames h).2⟩
  · exact ⟨(simulateOptimal_trace refs frames h).1.trace_mono (fun _ _ _ _ _ => trivial),
      (simulateOptimal_trace refs frames h).2⟩

theorem countP_hit_add (tr : List Step) :
    tr.countP (fun s => !s.hit) + tr.countP (fun s => s.hit) = tr.length := by
  induction tr with
  | nil => rfl
  | cons s tr ih =>
    cases hs : s.hit <;> simp [List.countP_cons, hs] <;> omega

theorem StepP.hit_iff {V : VictimRule} {hist : List Step} {F : List (Option Int)} {p : Int}
    {rest : List Int} {s : Step} (hs : StepP V hist F p rest s) :
    s.hit = true ↔ some p ∈ F := by
  obtain ⟨_, hc⟩ := hs
  rcases hc with ⟨hp, hh, _, _⟩ | ⟨hp, hh, _, _⟩ | ⟨hp, _, hh, _⟩
  · simp [hp, hh]
  · simp [hp, hh]
  · simp [hp, hh]

theorem StepP.of_hit {V : VictimRule} {hist : List Step} {F : List (Option Int)} {p : Int}
    {rest : List Int} {s : Step} (hs : StepP V hist F p rest s) (hh : s.hit = true) :
    s.frames = F ∧ s.victim = none := by
  obtain ⟨_, hc⟩ := hs
  rcases hc with ⟨_, _, hv, hf⟩ | ⟨_, hh', _, _⟩ | ⟨_, _, hh', _⟩
  · exact ⟨hf, hv⟩
  · rw [hh] at hh'; cases hh'
  · rw [hh] at hh'; cases hh'

theorem StepP.of_compulsory {V : VictimRule} {hist : List Step} {F : List (Option Int)}
    {p : Int} {rest : List Int} {s : Step} (hs : StepP V hist F p rest s)
    (hh : s.hit = false) (he : none ∈ F) :
    s.victim = none ∧ ∃ i, F[i]? = some none ∧ (∀ j, j < i → F[j]? ≠ some none) ∧
      s.frames = F.set i (some p) := by
  obtain ⟨_, hc⟩ := hs
  rcases hc with ⟨_, hh', _, _⟩ | ⟨_, _, hv, hi⟩ | ⟨_, hfull, _, _⟩
  · rw [hh] at hh'; cases hh'
  · exact ⟨hv, hi⟩
  · exact absurd he hfull

theorem StepP.of_capacity {V : VictimRule} {hist : List Step} {F : List (Option Int)}
    {p : Int} {rest : List Int} {s : Step} (hs : StepP V hist F p rest s)
    (hh : s.hit = false) (he : none ∉ F) :
    some p ∉ F ∧ ∃ i v, F[i]? = some (some v) ∧ V hist F rest i ∧ s.victim = some v ∧
      s.frames = F.set i (some p) := by
  obtain ⟨_, hc⟩ := hs
  rcases hc with ⟨_, hh', _, _⟩ | ⟨_, _, _, i, hi, _⟩ | ⟨hp, _, _, hi⟩
  · rw [hh] at hh'; cases hh'
  · exact absurd (List.getElem?_mem hi) he
  · exact ⟨hp, hi⟩

/-- Replacing the content of slot `i` by a different value changes slot `i` and no other. -/
theorem set_differs_iff {F : List (Option Int)} {i : Nat} {a b : Option Int}
    (hi : F[i]? = some a) (hab : a ≠ b) (j : Nat) :
    (F.set i b)[j]? ≠ F[j]? ↔ j = i := by
  have hlt : i < F.length := (List.getElem?_eq_some.mp hi).1
  constructor
  · intro h
    by_contra hne
    exact h (List.getElem?_set_ne (fun e => hne e.symm))
  · rintro rfl
    rw [List.getElem?_set_self hlt, hi]
    simpa using fun e => hab e.symm

/-! ## Claims C1 to C3 -/

/-- C1 (conservation): each of the three simulations returns one step per reference, its
`faults` is the number of steps whose hit flag is false, and `faults` plus the number of
hit steps is the number of references. -/
theorem conservation (refs : List Int) (frames : Int) (h : 1 ≤ frames) :
    ∀ sim ∈ [simulateFIFO, simulateLRU, simulateOptimal],
      (sim refs frames).state.length = refs.length ∧
      (sim refs frames).faults = (sim refs frames).state.countP (fun s => !s.hit) ∧
      (sim refs frames).faults + (sim refs frames).state.countP (fun s => s.hit)
        = refs.length := by
  intro sim hsim
  obtain ⟨htr, hf⟩ := sim_trace refs frames h sim hsim
  have hlen := htr.length
  refine ⟨hlen, hf, ?_⟩
  rw [hf, faultCount, countP_hit_add, hlen]

theorem conservation_witness :
    (1 : Int) ≤ 2 ∧
      ((simulateFIFO [1, 2, 3, 1] 2).state.length = [1, 2, 3, 1].length ∧
        (simulateFIFO [1, 2, 3, 1] 2).faults
          = (simulateFIFO [1, 2, 3, 1] 2).state.countP (fun s => !s.hit) ∧
        (simulateFIFO [1, 2, 3, 1] 2).faults
          + (simulateFIFO [1, 2, 3, 1] 2).state.countP (fun s => s.hit)
          = [1, 2, 3, 1].length) :=
  ⟨by decide, conservation [1, 2, 3, 1] 2 (by decide) simulateFIFO (by simp)⟩

/-- C2 (hit contract): in each of the three simulations, step `t` records the reference
`refs[t]`, it is a hit exactly when `refs[t]` occupies a slot of the snapshot `F` left by
step `t - 1` (the empty frame array when `t = 0`), and a hit leaves the frames equal to `F`
with no victim. -/
theorem hit_contract (refs : List Int) (frames : Int) (h : 1 ≤ frames) :
    ∀ sim ∈ [simulateFIFO, simulateLRU, simulateOptimal],
      ∀ (t : Nat) (p : Int), refs[t]? = some p →
        ∃ st, (sim refs frames).state[t]? = some st ∧ st.ref = p ∧
          (st.hit = true ↔
            some p ∈ framesBefore (emptyFrames frames) (sim refs frames).state t) ∧
          (st.hit = true →
            st.frames = framesBefore (emptyFrames frames) (sim refs frames).state t ∧
              st.victim = none) := by
  intro sim hsim t p hp
  obtain ⟨htr, _⟩ := sim_trace refs frames h sim hsim
  obtain ⟨st, hst, hstep⟩ := htr.step_at hp
  exact ⟨st, hst, hstep.1, hstep.hit_iff, hstep.of_hit⟩

theorem hit_contract_witness :
    (1 : Int) ≤ 2 ∧
      ∃ st, (simulateLRU [1, 2, 1] 2).state[2]? = some st ∧ st.ref = 1 ∧
        (st.hit = true ↔
          some 1 ∈ framesBefore (emptyFrames 2) (simulateLRU [1, 2, 1] 2).state 2) ∧
        (st.hit = true →
          st.frames = framesBefore (emptyFrames 2) (simulateLRU [1, 2, 1] 2).state 2 ∧
            st.victim = none) :=
  ⟨by decide, hit_contract [1, 2, 1] 2 (by decide) simulateLRU (by simp) 2 1 (by rfl)⟩

/-- C3 (fault contract): in each of the three simulations, at a fault step `t` with `F` the
snapshot before the step: if `F` has an empty slot, the frames are `F` with `refs[t]` put
into the lowest empty slot and there is no victim; if `F` has no empty slot, the frames
differ from `F` in exactly one slot `i`, that slot now holds `refs[t]`, and the victim is
the page that slot `i` held in `F`. -/
theorem fault_contract (refs : List Int) (frames : Int) (h : 1 ≤ frames) :
    ∀ sim ∈ [simulateFIFO, simulateLRU, simulateOptimal],
      ∀ (t : Nat) (p : Int) (st : Step), refs[t]? = some p →
        (sim refs frames).state[t]? = some st → st.hit = false →
        (none ∈ framesBefore (emptyFrames frames) (sim refs frames).state t →
          st.victim = none ∧
          ∃ i, (framesBefore (emptyFrames frames) (sim refs frames).state t)[i]? = some none ∧
            (∀ j, j < i →
              (framesBefore (emptyFrames frames) (sim refs frames).state t)[j]? ≠ some none) ∧
            st.frames
              = (framesBefore (emptyFrames frames) (sim refs frames).state t).set i (some p)) ∧
        (none ∉ framesBefore (emptyFrames frames) (sim refs frames).state t →
          ∃ i v,
            (framesBefore (emptyFrames frames) (sim refs frames).state t)[i]? = some (some v) ∧
            st.victim = some v ∧
            st.frames.length
              = (framesBefore (emptyFrames frames) (sim refs frames).state t).length ∧
            st.frames[i]? = some (some p) ∧
            ∀ j : Nat, st.frames[j]?
                ≠ (framesBefore (emptyFrames frames) (sim refs frames).state t)[j]? ↔ j = i) := by
  intro sim hsim t p st hp hst hh
  obtain ⟨htr, _⟩ := sim_trace refs frames h sim hsim
  obtain ⟨st', hst', hstep⟩ := htr.step_at hp
  have : st' = st := by rw [hst] at hst'; simpa using hst'.symm
  subst this
  refine ⟨fun he => hstep.of_compulsory hh he, fun he => ?_⟩
  obtain ⟨hpF, i, v, hi, _, hv, hf⟩ := hstep.of_capacity hh he
  have hlt := (List.getElem?_eq_some.mp hi).1
  have hvp : some v ≠ some p := by
    intro e
    rw [e] at hi
    exact hpF (List.getElem?_mem hi)
  refine ⟨i, v, hi, hv, by rw [hf, List.length_set], by rw [hf, List.getElem?_set_self hlt], ?_⟩
  intro j
  rw [hf]
  exact set_differs_iff hi hvp j

theorem fault_contract_witness :
    (1 : Int) ≤ 1 ∧
      ((none ∈ framesBefore (emptyFrames 1) (simulateOptimal [1, 2] 1).state 1 →
          (⟨2, false, some 1, [some 2]⟩ : Step).victim = none ∧
          ∃ i, (framesBefore (emptyFrames 1) (simulateOptimal [1, 2] 1).state 1)[i]? = some none ∧
            (∀ j, j < i →
              (framesBefore (emptyFrames 1) (simulateOptimal [1, 2] 1).state 1)[j]? ≠ some none) ∧
            (⟨2, false, some 1, [some 2]⟩ : Step).frames
              = (framesBefore (emptyFrames 1) (simulateOptimal [1, 2] 1).state 1).set i (some 2)) ∧
        (none ∉ framesBefore (emptyFrames 1) (simulateOptimal [1, 2] 1).state 1 →
          ∃ i v,
            (framesBefore (emptyFrames 1) (simulateOptimal [1, 2] 1).state 1)[i]? = some (some v) ∧
            (⟨2, false, some 1, [some 2]⟩ : Step).victim = some v ∧
            (⟨2, false, some 1, [some 2]⟩ : Step).frames.length
              = (framesBefore (emptyFrames 1) (simulateOptimal [1, 2] 1).state 1).length ∧
            (⟨2, false, some 1, [some 2]⟩ : Step).frames[i]? = some (some 2) ∧
            ∀ j : Nat, (⟨2, false, some 1, [some 2]⟩ : Step).frames[j]?
                ≠ (framesBefore (emptyFrames 1) (simulateOptimal [1, 2] 1).state 1)[j]? ↔ j = i)) :=
  ⟨by decide, fault_contract [1, 2] 1 (by decide) simulateOptimal (by simp) 1 2
    ⟨2, false, some 1, [some 2]⟩ (by rfl) (by decide) rfl⟩

/-! ## Compulsory faults -/

/-- A page resident before step `t` was resident at the start or was referenced before
step `t`. -/
theorem TraceP.resident_seen {V : VictimRule} {hist : List Step} {F : List (Option Int)}
    {rest : List Int} {tr : List Step} (ht : TraceP V hist F rest tr) (t : Nat) (x : Int)
    (hx : some x ∈ framesBefore F tr t) : some x ∈ F ∨ x ∈ rest.take t := by
  induction t generalizing x with
  | zero => exact Or.inl hx
  | succ t ih =>
    cases hst : tr[t]? with
    | none =>
      simp only [framesBefore, hst] at hx
      exact Or.inl hx
    | some st =>
      simp only [framesBefore, hst] at hx
      have hlt : t < rest.length := by
        have := (List.getElem?_eq_some.mp hst).1
        rw [ht.length] at this
        exact this
      obtain ⟨st', hst', hstep⟩ := ht.step_at (List.getElem?_eq_getElem hlt)
      have : st' = st := by rw [hst] at hst'; simpa using hst'.symm
      subst this
      rcases hstep.mem_frames hx with h | h
      · right
        rw [h]
        exact List.mem_take_iff_getElem.mpr ⟨t, by simp [hlt], rfl⟩
      · rcases ih x h with h' | h'
        · exact Or.inl h'
        · exact Or.inr (List.take_subset_take_left _ (Nat.le_succ t) h')

/-- A trace has at least as many faults as it references pages that were never resident
or referenced before. -/
theorem TraceP.faultCount_ge {V : VictimRule} {hist : List Step} {F : List (Option Int)}
    {rest : List Int} {tr : List Step} (ht : TraceP V hist F rest tr) (seen : Finset Int)
    (hF : ∀ x, some x ∈ F → x ∈ seen) : (rest.toFinset \ seen).card ≤ faultCount tr := by
  induction rest generalizing hist F tr seen with
  | nil => simp
  | cons p rest ih =>
    obtain ⟨s, tr', rfl, hs, ht'⟩ := ht
    have hF' : ∀ x, some x ∈ s.frames → x ∈ insert p seen := by
      intro x hx
      rcases hs.mem_frames hx with h | h
      · simp [h]
      · exact Finset.mem_insert_of_mem (hF x h)
    have ih' := ih ht' (insert p seen) hF'
    rw [faultCount_cons, List.toFinset_cons]
    by_cases hp : p ∈ seen
    · rw [Finset.insert_sdiff_of_mem _ hp]
      rw [Finset.insert_eq_of_mem hp] at ih'
      omega
    · have hmiss : s.hit = false := by
        have : ¬ s.hit = true := fun hh => hp (hF p (hs.hit_iff.mp hh))
        simpa using this
      have hsub : insert p rest.toFinset \ seen ⊆ insert p (rest.toFinset \ insert p seen) := by
        intro x hx
        simp only [Finset.mem_sdiff, Finset.mem_insert] at hx ⊢
        by_cases hxp : x = p
        · exact Or.inl hxp
        · rcases hx with ⟨h1 | h1, h2⟩
          · exact absurd h1 hxp
          · exact Or.inr ⟨h1, fun h => h.elim hxp h2⟩
      have := Finset.card_le_card hsub
      have := Finset.card_insert_le p (rest.toFinset \ insert p seen)
      simp only [hmiss]
      simp
      omega

/-! ## Claim C8 -/

/-- C8 (compulsory lower bound): for each of the three simulations, `faults` is at least
the number of distinct values in `refs`, and the first occurrence of every page in `refs`
is a fault step. -/
theorem compulsory_lower_bound (refs : List Int) (frames : Int) (h : 1 ≤ frames) :
    ∀ sim ∈ [simulateFIFO, simulateLRU, simulateOptimal],
      refs.toFinset.card ≤ (sim refs frames).faults ∧
      ∀ (t : Nat) (p : Int), refs[t]? = some p → (∀ j, j < t → refs[j]? ≠ some p) →
        ∃ st, (sim refs frames).state[t]? = some st ∧ st.hit = false := by
  intro sim hsim
  obtain ⟨htr, hf⟩ := sim_trace refs frames h sim hsim
  have hempty : ∀ x : Int, some x ∉ emptyFrames frames := by
    intro x hx; simp [emptyFrames] at hx
  constructor
  · have := htr.faultCount_ge ∅ (fun x hx => absurd hx (hempty x))
    rw [hf]
    simpa using this
  · intro t p hp hfirst
    obtain ⟨st, hst, hstep⟩ := htr.step_at hp
    refine ⟨st, hst, ?_⟩
    have : ¬ st.hit = true := by
      intro hh
      rcases htr.resident_seen t p (hstep.hit_iff.mp hh) with h' | h'
      · exact hempty p h'
      · obtain ⟨j, hj, hjp⟩ := List.mem_take_iff_getElem.mp h'
        have hj' : j < t ∧ j < refs.length := by simpa using hj
        exact hfirst j hj'.1 (by rw [List.getElem?_eq_getElem hj'.2, hjp])
    simpa using this

theorem compulsory_lower_bound_witness :
    (1 : Int) ≤ 2 ∧ [1, 2, 1, 3].toFinset.card ≤ (simulateLRU [1, 2, 1, 3] 2).faults ∧
      ∃ st, (simulateLRU [1, 2, 1, 3] 2).state[3]? = some st ∧ st.hit = false :=
  ⟨by decide,
    (compulsory_lower_bound [1, 2, 1, 3] 2 (by decide) simulateLRU (by simp)).1,
    (compulsory_lower_bound [1, 2, 1, 3] 2 (by decide) simulateLRU (by simp)).2 3 3 (by rfl)
      (by decide)⟩

/-! ## The victim rules at time `t` -/

theorem TraceP.map_ref {V : VictimRule} {hist : List Step} {F : List (Option Int)}
    {rest : List Int} {tr : List Step} (ht : TraceP V hist F rest tr) :
    tr.map Step.ref = rest := by
  induction rest generalizing hist F tr with
  | nil => simp [TraceP] at ht; simp [ht]
  | cons p rest ih =>
    obtain ⟨s, tr', rfl, hs, ht'⟩ := ht
    simp [ih ht', hs.1]

theorem lastAt_of_mem {pre : List Int} {x : Int} (h : x ∈ pre) : ∃ i, LastAt pre x i := by
  induction pre using List.reverseRecOn with
  | nil => simp at h
  | append_singleton l a ih =>
    by_cases hax : x = a
    · subst hax; exact ⟨l.length, lastAt_append_self l x⟩
    · have : x ∈ l := by
        rcases List.mem_append.mp h with h' | h'
        · exact h'
        · exact absurd (by simpa using h') hax
      obtain ⟨i, hi⟩ := ih this
      exact ⟨i, hi.append_ne hax⟩

/-- A capacity fault of a trace from the empty frame array, seen at its time `t`: the
replaced slot, the victim, and the victim rule on the history up to `t`. -/
theorem TraceP.capacity_at {V : VictimRule} {F : List (Option Int)} {refs : List Int}
    {tr : List Step} (ht : TraceP V [] F refs tr) {t : Nat} {p : Int} {st : Step}
    (hp : refs[t]? = some p) (hst : tr[t]? = some st) (hh : st.hit = false)
    (hfull : none ∉ framesBefore F tr t) :
    ∃ i v, (framesBefore F tr t)[i]? = some (some v) ∧ st.victim = some v ∧
      st.frames = (framesBefore F tr t).set i (some p) ∧
      V (tr.take t) (framesBefore F tr t) (refs.drop (t + 1)) i := by
  obtain ⟨st', hst', hstep⟩ := ht.step_at hp
  have : st' = st := by rw [hst] at hst'; simpa using hst'.symm
  subst this
  obtain ⟨_, i, v, hi, hV, hv, hf⟩ := hstep.of_capacity hh hfull
  exact ⟨i, v, hi, hv, hf, by simpa using hV⟩

/-! ## Claim C5 -/

/-- C5 (LRU victim): at every capacity fault of `simulateLRU` at time `t`, the replaced slot
`i` is the lowest-index slot among those whose page has the smallest last-used time, the
last-used time of a resident page being the index of its most recent occurrence in
`refs[0..t-1]` (`LastAt (refs.take t)`); the victim is the page of that slot. -/
theorem lru_victim (refs : List Int) (frames : Int) (h : 1 ≤ frames) (t : Nat) (p : Int)
    (st : Step) (hp : refs[t]? = some p) (hst : (simulateLRU refs frames).state[t]? = some st)
    (hh : st.hit = false)
    (hfull : none ∉ framesBefore (emptyFrames frames) (simulateLRU refs frames).state t) :
    ∃ i v tv,
      (framesBefore (emptyFrames frames) (simulateLRU refs frames).state t)[i]? = some (some v) ∧
      st.victim = some v ∧
      st.frames
        = (framesBefore (emptyFrames frames) (simulateLRU refs frames).state t).set i (some p) ∧
      LastAt (refs.take t) v tv ∧
      ∀ (j : Nat) (x : Int),
        (framesBefore (emptyFrames frames) (simulateLRU refs frames).state t)[j]? = some (some x) →
        ∃ tx, LastAt (refs.take t) x tx ∧ (tv < tx ∨ (tv = tx ∧ i ≤ j)) := by
  obtain ⟨htr, _⟩ := simulateLRU_trace refs frames h
  obtain ⟨i, v, hi, hv, hf, hV⟩ := htr.capacity_at hp hst hh hfull
  have hpre : ((simulateLRU refs frames).state.take t).map Step.ref = refs.take t := by
    rw [List.map_take, htr.map_ref]
  have hseen : ∀ (j : Nat) (x : Int),
      (framesBefore (emptyFrames frames) (simulateLRU refs frames).state t)[j]? = some (some x) →
      ∃ tx, LastAt (refs.take t) x tx := by
    intro j x hj
    rcases htr.resident_seen t x (List.getElem?_mem hj) with h' | h'
    · simp [emptyFrames] at h'
    · exact lastAt_of_mem h'
  obtain ⟨tv, htv⟩ := hseen i v hi
  refine ⟨i, v, tv, hi, hv, hf, htv, ?_⟩
  intro j x hj
  obtain ⟨tx, htx⟩ := hseen j x hj
  refine ⟨tx, htx, ?_⟩
  have := hV j x v tv tx hi hj
  rw [hpre] at this
  exact this htv htx

theorem lru_victim_witness :
    (1 : Int) ≤ 2 ∧
    ∃ i v tv,
      (framesBefore (emptyFrames 2) (simulateLRU [1, 2, 1, 3] 2).state 3)[i]? = some (some v) ∧
      (⟨3, false, some 2, [some 1, some 3]⟩ : Step).victim = some v ∧
      (⟨3, false, some 2, [some 1, some 3]⟩ : Step).frames
        = (framesBefore (emptyFrames 2) (simulateLRU [1, 2, 1, 3] 2).state 3).set i (some 3) ∧
      LastAt ([1, 2, 1, 3].take 3) v tv ∧
      ∀ (j : Nat) (x : Int),
        (framesBefore (emptyFrames 2) (simulateLRU [1, 2, 1, 3] 2).state 3)[j]? = some (some x) →
        ∃ tx, LastAt ([1, 2, 1, 3].take 3) x tx ∧ (tv < tx ∨ (tv = tx ∧ i ≤ j)) :=
  ⟨by decide, lru_victim [1, 2, 1, 3] 2 (by decide) 3 3 ⟨3, false, some 2, [some 1, some 3]⟩
    (by rfl) (by decide) rfl (by decide)⟩

/-! ## Claim C6 -/

theorem indexOf_le_of_getElem? {l : List Int} {x : Int} {k : Nat} (h : l[k]? = some x) :
    List.indexOf x l ≤ k := by
  induction l generalizing k with
  | nil => simp at h
  | cons a l ih =>
    by_cases hax : a = x
    · subst hax; simp
    · rw [List.indexOf_cons_ne _ hax]
      cases k with
      | zero =>
        simp only [List.getElem?_cons_zero, Option.some.injEq] at h
        exact absurd h hax
      | succ k =>
        simp only [List.getElem?_cons_succ] at h
        have := ih h
        omega

/-- The next-occurrence index read off the references that follow time `t`. -/
theorem isNextUse_of_indexOf (refs : List Int) (t : Nat) (x : Int) :
    IsNextUse refs t x
      (if x ∈ refs.drop (t + 1)
        then ((t + 1 + List.indexOf x (refs.drop (t + 1)) : Nat) : WithTop Nat) else ⊤) := by
  have hget : ∀ k : Nat, (refs.drop (t + 1))[k]? = refs[t + 1 + k]? := by
    intro k; rw [List.getElem?_drop]
  by_cases hx : x ∈ refs.drop (t + 1)
  · rw [if_pos hx]
    have hlt := List.indexOf_lt_length.mpr hx
    refine ⟨?_, fun h => by simp at h⟩
    intro i hi
    have hi' : i = t + 1 + List.indexOf x (refs.drop (t + 1)) := by
      exact_mod_cast hi.symm
    subst hi'
    refine ⟨by omega, ?_, ?_⟩
    · rw [← hget, List.getElem?_eq_getElem hlt]
      congr 1
      exact List.indexOf_get hlt
    · intro m hm1 hm2 hmx
      have hk : (refs.drop (t + 1))[m - (t + 1)]? = some x := by
        rw [hget]; rw [← hmx]; congr 1; omega
      have := indexOf_le_of_getElem? hk
      omega
  · rw [if_neg hx]
    refine ⟨fun i hi => by simp at hi, ?_⟩
    intro _ m hm hmx
    apply hx
    have hk : (refs.drop (t + 1))[m - (t + 1)]? = some x := by
      rw [hget]; rw [← hmx]; congr 1; omega
    exact List.getElem?_mem hk

theorem isNextUse_unique {refs : List Int} {t : Nat} {x : Int} {n n' : WithTop Nat}
    (h : IsNextUse refs t x n) (h' : IsNextUse refs t x n') : n = n' := by
  induction n using WithTop.recTopCoe with
  | top =>
    induction n' using WithTop.recTopCoe with
    | top => rfl
    | coe b =>
      obtain ⟨hb1, hb2, _⟩ := h'.1 b rfl
      exact absurd hb2 (h.2 rfl b hb1)
  | coe a =>
    obtain ⟨ha1, ha2, ha3⟩ := h.1 a rfl
    induction n' using WithTop.recTopCoe with
    | top => exact absurd ha2 (h'.2 rfl a ha1)
    | coe b =>
      obtain ⟨hb1, hb2, hb3⟩ := h'.1 b rfl
      rcases Nat.lt_trichotomy a b with hlt | heq | hgt
      · exact absurd ha2 (hb3 a ha1 hlt)
      · rw [heq]
      · exact absurd hb2 (ha3 b hb1 hgt)

/-- C6 (Optimal victim): at every capacity fault of `simulateOptimal` at time `t`, the
replaced slot `i` is the lowest-index slot among those whose page has the largest
next-occurrence index, the next-occurrence index of a page being the least `i > t` with
`refs[i]` equal to the page, or plus infinity when there is none. -/
theorem opt_victim (refs : List Int) (frames : Int) (h : 1 ≤ frames) (t : Nat) (p : Int)
    (st : Step) (hp : refs[t]? = some p)
    (hst : (simulateOptimal refs frames).state[t]? = some st) (hh : st.hit = false)
    (hfull : none ∉ framesBefore (emptyFrames frames) (simulateOptimal refs frames).state t) :
    ∃ i v nv,
      (framesBefore (emptyFrames frames) (simulateOptimal refs frames).state t)[i]?
        = some (some v) ∧
      st.victim = some v ∧
      st.frames
        = (framesBefore (emptyFrames frames) (simulateOptimal refs frames).state t).set i
            (some p) ∧
      IsNextUse refs t v nv ∧
      ∀ (j : Nat) (x : Int),
        (framesBefore (emptyFrames frames) (simulateOptimal refs frames).state t)[j]?
          = some (some x) →
        ∃ nx, IsNextUse refs t x nx ∧ (nx < nv ∨ (nx = nv ∧ i ≤ j)) := by
  obtain ⟨htr, _⟩ := simulateOptimal_trace refs frames h
  obtain ⟨i, v, hi, hv, hf, hV⟩ := htr.capacity_at hp hst hh hfull
  refine ⟨i, v, _, hi, hv, hf, isNextUse_of_indexOf refs t v, ?_⟩
  intro j x hj
  refine ⟨_, isNextUse_of_indexOf refs t x, ?_⟩
  have hcmp := hV j x v hi hj
  by_cases hx : x ∈ refs.drop (t + 1) <;> by_cases hvm : v ∈ refs.drop (t + 1)
  · rw [if_pos hx, if_pos hvm]
    rcases hcmp with hlt | ⟨heq, hle⟩
    · left; exact_mod_cast (by omega : t + 1 + List.indexOf x (refs.drop (t + 1))
        < t + 1 + List.indexOf v (refs.drop (t + 1)))
    · right; exact ⟨by rw [heq], hle⟩
  · rw [if_pos hx, if_neg hvm]
    left; exact WithTop.coe_lt_top _
  · exfalso
    have h1 := List.indexOf_lt_length.mpr hvm
    have h2 := List.indexOf_of_not_mem hx
    omega
  · rw [if_neg hx, if_neg hvm]
    rcases hcmp with hlt | ⟨_, hle⟩
    · have h1 := List.indexOf_of_not_mem hvm
      have h2 := List.indexOf_of_not_mem hx
      omega
    · exact Or.inr ⟨rfl, hle⟩

theorem opt_victim_witness :
    (1 : Int) ≤ 2 ∧
    ∃ i v nv,
      (framesBefore (emptyFrames 2) (simulateOptimal [1, 2, 3, 1] 2).state 2)[i]?
        = some (some v) ∧
      (⟨3, false, some 2, [some 1, some 3]⟩ : Step).victim = some v ∧
      (⟨3, false, some 2, [some 1, some 3]⟩ : Step).frames
        = (framesBefore (emptyFrames 2) (simulateOptimal [1, 2, 3, 1] 2).state 2).set i
            (some 3) ∧
      IsNextUse [1, 2, 3, 1] 2 v nv ∧
      ∀ (j : Nat) (x : Int),
        (framesBefore (emptyFrames 2) (simulateOptimal [1, 2, 3, 1] 2).state 2)[j]?
          = some (some x) →
        ∃ nx, IsNextUse [1, 2, 3, 1] 2 x nx ∧ (nx < nv ∨ (nx = nv ∧ i ≤ j)) :=
  ⟨by decide, opt_victim [1, 2, 3, 1] 2 (by decide) 2 3 ⟨3, false, some 2, [some 1, some 3]⟩
    (by rfl) (by decide) rfl (by decide)⟩

/-! ## Claim C4 -/

/-- Every page resident before step `t` of a trace from a frame array without pages has a
most recent fault among the steps before `t`. -/
theorem TraceP.resident_lastFault {V : VictimRule} {F : List (Option Int)} {rest : List Int}
    {tr : List Step} (ht : TraceP V [] F rest tr) (hF : ∀ x : Int, some x ∉ F) (t : Nat)
    (x : Int) (hx : some x ∈ framesBefore F tr t) : ∃ τ, LastFault (tr.take t) x τ := by
  induction t generalizing x with
  | zero => exact absurd hx (hF x)
  | succ t ih =>
    cases hst : tr[t]? with
    | none =>
      simp only [framesBefore, hst] at hx
      exact absurd hx (hF x)
    | some st =>
      simp only [framesBefore, hst] at hx
      have hlt' : t < tr.length := (List.getElem?_eq_some.mp hst).1
      have hlt : t < rest.length := by rw [← ht.length]; exact hlt'
      obtain ⟨st', hst', hstep⟩ := ht.step_at (List.getElem?_eq_getElem hlt)
      have : st' = st := by rw [hst] at hst'; simpa using hst'.symm
      subst this
      have htake : tr.take (t + 1) = tr.take t ++ [st'] := by
        rw [List.take_succ, hst]; rfl
      have hlen : (tr.take t).length = t := by simp; omega
      rw [htake]
      by_cases hxp : st'.ref = x
      · by_cases hhit : st'.hit = true
        · have hres := hstep.hit_iff.mp hhit
          rw [← hstep.1, hxp] at hres
          obtain ⟨τ, hτ⟩ := ih x hres
          exact ⟨τ, hτ.append_other (by simp [hhit])⟩
        · have := lastFault_append_fault (tr.take t) st' (by simpa using hhit)
          rw [hxp] at this
          exact ⟨_, this⟩
      · rcases hstep.mem_frames hx with h | h
        · exact absurd (hstep.1.trans h.symm) hxp
        · obtain ⟨τ, hτ⟩ := ih x h
          exact ⟨τ, hτ.append_other (fun hc => hxp hc.1)⟩

/-- C4 (FIFO victim): at every capacity fault of `simulateFIFO` at time `t`, the victim is
the resident page that has been resident longest: its most recent placement (the latest
fault on it before `t`, `LastFault` on the steps before `t`) is earlier than the most recent
placement of every other page resident before step `t`; hits play no part. -/
theorem fifo_victim (refs : List Int) (frames : Int) (h : 1 ≤ frames) (t : Nat) (p : Int)
    (st : Step) (hp : refs[t]? = some p) (hst : (simulateFIFO refs frames).state[t]? = some st)
    (hh : st.hit = false)
    (hfull : none ∉ framesBefore (emptyFrames frames) (simulateFIFO refs frames).state t) :
    ∃ i v τv,
      (framesBefore (emptyFrames frames) (simulateFIFO refs frames).state t)[i]? = some (some v) ∧
      st.victim = some v ∧
      st.frames
        = (framesBefore (emptyFrames frames) (simulateFIFO refs frames).state t).set i (some p) ∧
      LastFault ((simulateFIFO refs frames).state.take t) v τv ∧
      ∀ x : Int, some x ∈ framesBefore (emptyFrames frames) (simulateFIFO refs frames).state t →
        x ≠ v → ∃ τx, LastFault ((simulateFIFO refs frames).state.take t) x τx ∧ τv < τx := by
  obtain ⟨htr, _⟩ := simulateFIFO_trace refs frames h
  obtain ⟨i, v, hi, hv, hf, hV⟩ := htr.capacity_at hp hst hh hfull
  have hempty : ∀ x : Int, some x ∉ emptyFrames frames := by
    intro x hx; simp [emptyFrames] at hx
  obtain ⟨τv, hτv⟩ := htr.resident_lastFault hempty t v (List.getElem?_mem hi)
  refine ⟨i, v, τv, hi, hv, hf, hτv, ?_⟩
  intro x hx hxv
  obtain ⟨τx, hτx⟩ := htr.resident_lastFault hempty t x hx
  obtain ⟨j, hj⟩ := List.mem_iff_getElem?.mp hx
  have hji : j ≠ i := by
    intro e
    rw [e, hi] at hj
    exact hxv (by simpa using hj.symm)
  exact ⟨τx, hτx, hV j x v τv τx hi hj hji hτv hτx⟩

theorem fifo_victim_witness :
    (1 : Int) ≤ 2 ∧
    ∃ i v τv,
      (framesBefore (emptyFrames 2) (simulateFIFO [1, 2, 1, 3] 2).state 3)[i]? = some (some v) ∧
      (⟨3, false, some 1, [some 3, some 2]⟩ : Step).victim = some v ∧
      (⟨3, false, some 1, [some 3, some 2]⟩ : Step).frames
        = (framesBefore (emptyFrames 2) (simulateFIFO [1, 2, 1, 3] 2).state 3).set i (some 3) ∧
      LastFault ((simulateFIFO [1, 2, 1, 3] 2).state.take 3) v τv ∧
      ∀ x : Int, some x ∈ framesBefore (emptyFrames 2) (simulateFIFO [1, 2, 1, 3] 2).state 3 →
        x ≠ v → ∃ τx, LastFault ((simulateFIFO [1, 2, 1, 3] 2).state.take 3) x τx ∧ τv < τx :=
  ⟨by decide, fifo_victim [1, 2, 1, 3] 2 (by decide) 3 3 ⟨3, false, some 1, [some 3, some 2]⟩
    (by rfl) (by decide) rfl (by decide)⟩

/-! ## Resident sets -/

theorem mem_pagesOf {F : List (Option Int)} {x : Int} : x ∈ pagesOf F ↔ some x ∈ F := by
  simp [pagesOf, List.reduceOption_mem_iff]

theorem card_pagesOf_le (F : List (Option Int)) : (pagesOf F).card ≤ F.length :=
  (List.toFinset_card_le _).trans (List.reduceOption_length_le F)

theorem NoDupPages.tail {a : Option Int} {F : List (Option Int)} (h : NoDupPages (a :: F)) :
    NoDupPages F := by
  intro i j x hi hj
  have := h (i + 1) (j + 1) x (by simpa using hi) (by simpa using hj)
  omega

theorem NoDupPages.nodup_reduceOption {F : List (Option Int)} (h : NoDupPages F) :
    F.reduceOption.Nodup := by
  induction F with
  | nil => simp
  | cons a F ih =>
    cases a with
    | none => simpa [List.reduceOption_cons_of_none] using ih h.tail
    | some x =>
      rw [List.reduceOption_cons_of_some, List.nodup_cons]
      refine ⟨?_, ih h.tail⟩
      intro hx
      obtain ⟨k, hk⟩ := List.mem_iff_getElem?.mp (List.reduceOption_mem_iff.mp hx)
      have := h 0 (k + 1) x (by simp) (by simpa using hk)
      omega

theorem card_pagesOf_full {F : List (Option Int)} (h : NoDupPages F) (hfull : none ∉ F) :
    (pagesOf F).card = F.length := by
  rw [pagesOf, List.toFinset_card_of_nodup h.nodup_reduceOption,
    List.reduceOption_length_eq_iff]
  intro x hx
  cases x with
  | none => exact absurd hx hfull
  | some x => rfl

/-! ## Counting the resident pages that are used soon -/

theorem soonCount_mono {X Y : Finset Int} (h : X ⊆ Y) (rest : List Int) (j : Nat) :
    soonCount X rest j ≤ soonCount Y rest j :=
  Finset.card_le_card (Finset.filter_subset_filter _ h)

theorem soonCount_le_card (X : Finset Int) (rest : List Int) (j : Nat) :
    soonCount X rest j ≤ X.card :=
  Finset.card_le_card (Finset.filter_subset _ _)

theorem soonCount_erase_cons (X : Finset Int) (p : Int) (rest : List Int) (j : Nat) :
    soonCount (X.erase p) (p :: rest) (j + 1) = soonCount (X.erase p) rest j := by
  unfold soonCount
  congr 1
  apply Finset.filter_congr
  intro x hx
  have hxp : x ≠ p := (Finset.mem_erase.mp hx).1
  rw [List.indexOf_cons_ne _ (fun e => hxp e.symm)]
  omega

/-- Before a step on `p`: the pages of `X` used among the first `j + 1` references are `p`
itself, if resident, and the other pages used among the first `j` later references. -/
theorem soonCount_cons (X : Finset Int) (p : Int) (rest : List Int) (j : Nat) :
    soonCount X (p :: rest) (j + 1)
      = (if p ∈ X then 1 else 0) + soonCount (X.erase p) rest j := by
  rw [← soonCount_erase_cons]
  by_cases hp : p ∈ X
  · rw [if_pos hp]
    conv_lhs => rw [← Finset.insert_erase hp]
    unfold soonCount
    rw [Finset.filter_insert, if_pos (by simp),
      Finset.card_insert_of_not_mem (by simp)]
    omega
  · rw [if_neg hp, Finset.erase_eq_of_not_mem hp]
    omega

/-- Erasing a page lowers the count by at most one. -/
theorem soonCount_erase_ge (X : Finset Int) (v : Int) (rest : List Int) (j : Nat) :
    soonCount X rest j ≤ soonCount (X.erase v) rest j + 1 := by
  unfold soonCount
  have : X.filter (fun x => List.indexOf x rest < j)
      ⊆ insert v ((X.erase v).filter (fun x => List.indexOf x rest < j)) := by
    intro x hx
    simp only [Finset.mem_filter, Finset.mem_insert, Finset.mem_erase] at hx ⊢
    by_cases hxv : x = v
    · exact Or.inl hxv
    · exact Or.inr ⟨⟨hxv, hx.1⟩, hx.2⟩
  exact (Finset.card_le_card this).trans (Finset.card_insert_le _ _)

/-- Erasing a page that is not used soon does not change the count. -/
theorem soonCount_erase_far (X : Finset Int) (v : Int) (rest : List Int) (j : Nat)
    (hv : j ≤ List.indexOf v rest) : soonCount (X.erase v) rest j = soonCount X rest j := by
  unfold soonCount
  congr 1
  ext x
  simp only [Finset.mem_filter, Finset.mem_erase]
  constructor
  · rintro ⟨⟨_, h1⟩, h2⟩; exact ⟨h1, h2⟩
  · rintro ⟨h1, h2⟩
    refine ⟨⟨?_, h1⟩, h2⟩
    intro e; subst e; omega

/-- When every page of `X` is used soon, all of them are counted. -/
theorem soonCount_eq_card (X : Finset Int) (rest : List Int) (j : Nat)
    (h : ∀ x ∈ X, List.indexOf x rest < j) : soonCount X rest j = X.card := by
  unfold soonCount
  rw [Finset.filter_true_of_mem h]

theorem soonCount_zero (X : Finset Int) (rest : List Int) : soonCount X rest 0 = 0 := by
  simp [soonCount]

/-- After a step on `p`: the resident pages used among the next `j` references are the
pages other than `p`, and `p` itself when it is used again that soon. -/
theorem soonCount_split (X : Finset Int) (p : Int) (rest : List Int) (j : Nat) (hp : p ∈ X) :
    soonCount X rest j
      = soonCount (X.erase p) rest j + (if List.indexOf p rest < j then 1 else 0) := by
  conv_lhs => rw [← Finset.insert_erase hp]
  unfold soonCount
  rw [Finset.filter_insert]
  split
  · rw [Finset.card_insert_of_not_mem (by simp)]
  · rfl

/-! ## One step, seen on resident sets -/

theorem StepP.hit_iff_pages {V : VictimRule} {hist : List Step} {F : List (Option Int)}
    {p : Int} {rest : List Int} {s : Step} (hs : StepP V hist F p rest s) :
    s.hit = true ↔ p ∈ pagesOf F := by
  rw [mem_pagesOf]; exact hs.hit_iff

theorem StepP.ref_mem_pages {V : VictimRule} {hist : List Step} {F : List (Option Int)}
    {p : Int} {rest : List Int} {s : Step} (hs : StepP V hist F p rest s) :
    p ∈ pagesOf s.frames := mem_pagesOf.mpr hs.ref_mem

/-- Demand paging: a step brings in no page other than the referenced one. -/
theorem StepP.pages_erase_sub {V : VictimRule} {hist : List Step} {F : List (Option Int)}
    {p : Int} {rest : List Int} {s : Step} (hs : StepP V hist F p rest s) :
    (pagesOf s.frames).erase p ⊆ (pagesOf F).erase p := by
  intro x hx
  obtain ⟨hxp, hxF⟩ := Finset.mem_erase.mp hx
  rcases hs.mem_frames (mem_pagesOf.mp hxF) with h | h
  · exact absurd h hxp
  · exact Finset.mem_erase.mpr ⟨hxp, mem_pagesOf.mpr h⟩

/-- The pages kept by replacing slot `i`: every page of another slot stays. -/
theorem pages_set_keep {F : List (Option Int)} {i : Nat} {p x : Int} {a : Option Int}
    (hi : F[i]? = some a) (hx : some x ∈ F) (hxa : some x ≠ a) :
    some x ∈ F.set i (some p) := by
  obtain ⟨k, hk⟩ := List.mem_iff_getElem?.mp hx
  have hki : i ≠ k := by
    intro e; subst e
    rw [hi] at hk
    exact hxa (by simpa using hk.symm)
  exact List.getElem?_mem ((List.getElem?_set_ne hki).trans hk)

/-- One step of the Optimal policy on `p`: among the pages other than `p`, either no page
used within the next `j` references is lost, or all but one slot hold such pages. -/
theorem StepP.opt_keeps {hist : List Step} {F : List (Option Int)} {p : Int}
    {rest : List Int} {s : Step} (hs : StepP Vopt hist F p rest s) (hnd : NoDupPages F)
    (j : Nat) :
    soonCount ((pagesOf F).erase p) rest j ≤ soonCount ((pagesOf s.frames).erase p) rest j ∨
      F.length ≤ soonCount ((pagesOf s.frames).erase p) rest j + 1 := by
  obtain ⟨_, hc⟩ := hs
  rcases hc with ⟨_, _, _, hf⟩ | ⟨_, _, _, i, hi, _, hf⟩ | ⟨hp, hfull, _, i, v, hi, hV, _, hf⟩
  · left; rw [hf]
  · left
    apply soonCount_mono
    intro x hx
    obtain ⟨hxp, hxF⟩ := Finset.mem_erase.mp hx
    rw [hf]
    exact Finset.mem_erase.mpr ⟨hxp,
      mem_pagesOf.mpr (pages_set_keep hi (mem_pagesOf.mp hxF) (by simp))⟩
  · have hsub : (pagesOf F).erase v ⊆ (pagesOf s.frames).erase p := by
      intro x hx
      obtain ⟨hxv, hxF⟩ := Finset.mem_erase.mp hx
      have hxF' := mem_pagesOf.mp hxF
      refine Finset.mem_erase.mpr ⟨?_, ?_⟩
      · intro e; subst e; exact hp hxF'
      · rw [hf]
        exact mem_pagesOf.mpr (pages_set_keep hi hxF' (by simpa using hxv))
    have hmono := soonCount_mono hsub rest j
    rcases Nat.lt_or_ge (List.indexOf v rest) j with hlt | hge
    · right
      have hall : ∀ x ∈ pagesOf F, List.indexOf x rest < j := by
        intro x hx
        obtain ⟨k, hk⟩ := List.mem_iff_getElem?.mp (mem_pagesOf.mp hx)
        rcases hV k x v hi hk with h | ⟨h, _⟩ <;> omega
      have h1 := soonCount_eq_card (pagesOf F) rest j hall
      have h2 := card_pagesOf_full hnd hfull
      have h3 := soonCount_erase_ge (pagesOf F) v rest j
      omega
    · left
      rw [soonCount_erase_far _ v rest j hge] at hmono
      exact (soonCount_mono (Finset.erase_subset _ _) rest j).trans hmono

/-! ## The Optimal policy is optimal -/

/-- Belady's theorem for traces: a trace of the Optimal policy has no more faults than any
trace obeying the step contract on the same references with at most as many frames, up to
the head start `d` by which the other trace's resident pages are used sooner. -/
theorem opt_dominates (rest : List Int) (VA : VictimRule) :
    ∀ (histA histO : List Step) (FA FO : List (Option Int)) (trA trO : List Step) (d : Nat),
      TraceP VA histA FA rest trA → TraceP Vopt histO FO rest trO → NoDupPages FO →
      FA.length ≤ FO.length →
      (∀ j, soonCount (pagesOf FA) rest j ≤ soonCount (pagesOf FO) rest j + d) →
      faultCount trO ≤ faultCount trA + d := by
  induction rest with
  | nil =>
    intro histA histO FA FO trA trO d _ hO _ _ _
    simp only [TraceP] at hO
    simp [hO, faultCount]
  | cons p rest ih =>
    intro histA histO FA FO trA trO d hA hO hnd hlen hinv
    obtain ⟨sA, trA', rfl, hsA, hA'⟩ := hA
    obtain ⟨sO, trO', rfl, hsO, hO'⟩ := hO
    have hα := fun j => soonCount_mono hsA.pages_erase_sub rest j
    have hβ : ∀ j, soonCount ((pagesOf sA.frames).erase p) rest j + 1 ≤ FA.length := by
      intro j
      have h1 := soonCount_le_card ((pagesOf sA.frames).erase p) rest j
      have h2 := Finset.card_erase_of_mem hsA.ref_mem_pages
      have h3 := card_pagesOf_le sA.frames
      have h4 := hsA.length_frames
      have h5 : 0 < (pagesOf sA.frames).card := Finset.card_pos.mpr ⟨p, hsA.ref_mem_pages⟩
      omega
    have hγ := fun j => hsO.opt_keeps hnd j
    have hδ : ∀ j, (if p ∈ pagesOf FA then 1 else 0) + soonCount ((pagesOf FA).erase p) rest j
        ≤ (if p ∈ pagesOf FO then 1 else 0) + soonCount ((pagesOf FO).erase p) rest j + d := by
      intro j
      have := hinv (j + 1)
      rwa [soonCount_cons, soonCount_cons] at this
    have hδ0 := hδ 0
    simp only [soonCount_zero, Nat.add_zero] at hδ0
    have hfA : (if sA.hit = true then 0 else 1) + (if p ∈ pagesOf FA then 1 else 0) = 1 := by
      by_cases hh : sA.hit = true
      · simp [hh, hsA.hit_iff_pages.mp hh]
      · have : p ∉ pagesOf FA := fun hc => hh (hsA.hit_iff_pages.mpr hc)
        simp [hh, this]
    have hfO : (if sO.hit = true then 0 else 1) + (if p ∈ pagesOf FO then 1 else 0) = 1 := by
      by_cases hh : sO.hit = true
      · simp [hh, hsO.hit_iff_pages.mp hh]
      · have : p ∉ pagesOf FO := fun hc => hh (hsO.hit_iff_pages.mpr hc)
        simp [hh, this]
    have hkey : ∀ j, soonCount ((pagesOf sA.frames).erase p) rest j
          + (if sO.hit = true then 0 else 1)
        ≤ soonCount ((pagesOf sO.frames).erase p) rest j + d
          + (if sA.hit = true then 0 else 1) := by
      intro j
      have h1 := hα j
      have h2 := hβ j
      have h3 := hδ j
      rcases hγ j with h4 | h4 <;> omega
    have hinv' : ∀ j, soonCount (pagesOf sA.frames) rest j
        ≤ soonCount (pagesOf sO.frames) rest j
          + (d + (if sA.hit = true then 0 else 1) - (if sO.hit = true then 0 else 1)) := by
      intro j
      rw [soonCount_split _ p rest j hsA.ref_mem_pages,
        soonCount_split _ p rest j hsO.ref_mem_pages]
      have := hkey j
      omega
    have hlen' : sA.frames.length ≤ sO.frames.length := by
      rw [hsA.length_frames, hsO.length_frames]; exact hlen
    have := ih _ _ _ _ _ _ _ hA' hO' (hsO.noDup hnd) hlen' hinv'
    rw [faultCount_cons, faultCount_cons]
    omega

theorem pagesOf_emptyFrames (frames : Int) : pagesOf (emptyFrames frames) = ∅ := by
  ext x
  simp [mem_pagesOf, emptyFrames]

/-- A run of `simulateOptimal` has no more faults than any trace obeying the step contract
on the same references from an empty frame array with at most as many frames. -/
theorem simulateOptimal_le_trace (refs : List Int) (frames framesA : Int) (h : 1 ≤ frames)
    (hle : framesA ≤ frames) (VA : VictimRule) (trA : List Step)
    (hA : TraceP VA [] (emptyFrames framesA) refs trA) :
    (simulateOptimal refs frames).faults ≤ faultCount trA := by
  obtain ⟨hO, hf⟩ := simulateOptimal_trace refs frames h
  rw [hf]
  have := opt_dominates refs VA [] [] (emptyFrames framesA) (emptyFrames frames) trA
    (simulateOptimal refs frames).state 0 hA hO (noDupPages_emptyFrames frames)
    (by simp only [emptyFrames, List.length_replicate]; omega)
    (by intro j; simp [pagesOf_emptyFrames, soonCount])
  simpa using this

/-! ## Claims C7 and C10 -/

/-- C7 (optimality): for every reference list and every `frames ≥ 1`, `simulateOptimal`
returns no more faults than `simulateFIFO` and no more than `simulateLRU`. -/
theorem optimal_le_fifo_lru (refs : List Int) (frames : Int) (h : 1 ≤ frames) :
    (simulateOptimal refs frames).faults ≤ (simulateFIFO refs frames).faults ∧
      (simulateOptimal refs frames).faults ≤ (simulateLRU refs frames).faults := by
  obtain ⟨hF, hfF⟩ := simulateFIFO_trace refs frames h
  obtain ⟨hL, hfL⟩ := simulateLRU_trace refs frames h
  rw [hfF, hfL]
  exact ⟨simulateOptimal_le_trace refs frames frames h (le_refl _) Vfifo _ hF,
    simulateOptimal_le_trace refs frames frames h (le_refl _) Vlru _ hL⟩

theorem optimal_le_fifo_lru_witness :
    (1 : Int) ≤ 3 ∧
      (simulateOptimal [7, 0, 1, 2, 0, 3, 0, 4] 3).faults
        ≤ (simulateFIFO [7, 0, 1, 2, 0, 3, 0, 4] 3).faults ∧
      (simulateOptimal [7, 0, 1, 2, 0, 3, 0, 4] 3).faults
        ≤ (simulateLRU [7, 0, 1, 2, 0, 3, 0, 4] 3).faults :=
  ⟨by decide, optimal_le_fifo_lru [7, 0, 1, 2, 0, 3, 0, 4] 3 (by decide)⟩

/-- C10 (Optimal is monotone in capacity): for all `1 ≤ c ≤ c'`, `simulateOptimal` with
`c'` frames returns no more faults than with `c` frames on the same references. -/
theorem optimal_monotone (refs : List Int) (c c' : Int) (h1 : 1 ≤ c) (h2 : c ≤ c') :
    (simulateOptimal refs c').faults ≤ (simulateOptimal refs c).faults := by
  obtain ⟨hA, hfA⟩ := simulateOptimal_trace refs c h1
  rw [hfA]
  exact simulateOptimal_le_trace refs c' c (le_trans h1 h2) h2 Vopt _ hA

theorem optimal_monotone_witness :
    (1 : Int) ≤ 2 ∧ (2 : Int) ≤ 3 ∧
      (simulateOptimal [1, 2, 3, 4, 1, 2, 5] 3).faults
        ≤ (simulateOptimal [1, 2, 3, 4, 1, 2, 5] 2).faults :=
  ⟨by decide, by decide, optimal_monotone [1, 2, 3, 4, 1, 2, 5] 2 3 (by decide) (by decide)⟩

/-! ## LRU: the resident set with fewer frames is contained in the one with more -/

theorem card_pagesOf_lt {F : List (Option Int)} (h : none ∈ F) :
    (pagesOf F).card < F.length :=
  lt_of_le_of_lt (List.toFinset_card_le _) (List.reduceOption_length_lt_iff.mpr h)

theorem none_mem_of_set {F : List (Option Int)} {i : Nat} {p : Int}
    (h : none ∈ F.set i (some p)) : none ∈ F := by
  rcases List.mem_or_eq_of_mem_set h with h' | h'
  · exact h'
  · simp at h'

/-- A step keeps an empty slot only if there was one before. -/
theorem StepP.none_mem {V : VictimRule} {hist : List Step} {F : List (Option Int)} {p : Int}
    {rest : List Int} {s : Step} (hs : StepP V hist F p rest s) (h : none ∈ s.frames) :
    none ∈ F := by
  obtain ⟨_, hc⟩ := hs
  rcases hc with ⟨_, _, _, hf⟩ | ⟨_, _, _, i, _, _, hf⟩ | ⟨_, _, _, i, v, _, _, _, hf⟩
  · rw [hf] at h; exact h
  · rw [hf] at h; exact none_mem_of_set h
  · rw [hf] at h; exact none_mem_of_set h

/-- While an empty slot remains, a step evicts nothing. -/
theorem StepP.pages_sub_of_none {V : VictimRule} {hist : List Step} {F : List (Option Int)}
    {p : Int} {rest : List Int} {s : Step} (hs : StepP V hist F p rest s) (h : none ∈ F) :
    pagesOf F ⊆ pagesOf s.frames := by
  obtain ⟨_, hc⟩ := hs
  rcases hc with ⟨_, _, _, hf⟩ | ⟨_, _, _, i, hi, _, hf⟩ | ⟨_, hfull, _⟩
  · rw [hf]
  · intro x hx
    rw [hf]
    exact mem_pagesOf.mpr (pages_set_keep hi (mem_pagesOf.mp hx) (by simp))
  · exact absurd h hfull

/-- The stack property of LRU: along two LRU traces over the same references, the one with
fewer frames keeps its resident set inside the other's, so it faults at least as often. -/
theorem lru_inclusion (rest : List Int) :
    ∀ (histA histB : List Step) (FA FB : List (Option Int)) (trA trB : List Step),
      TraceP Vlru histA FA rest trA → TraceP Vlru histB FB rest trB →
      histA.map Step.ref = histB.map Step.ref →
      pagesOf FA ⊆ pagesOf FB → NoDupPages FA → NoDupPages FB →
      (∀ x ∈ pagesOf FB, x ∈ histB.map Step.ref) →
      (none ∈ FA → ∀ x ∈ histB.map Step.ref, x ∈ pagesOf FA) →
      FA.length ≤ FB.length →
      faultCount trB ≤ faultCount trA := by
  induction rest with
  | nil =>
    intro histA histB FA FB trA trB _ hB _ _ _ _ _ _ _
    simp only [TraceP] at hB
    simp [hB, faultCount]
  | cons p rest ih =>
    intro histA histB FA FB trA trB hA hB hhist hsub hndA hndB hseen hall hlen
    obtain ⟨sA, trA', rfl, hsA, hA'⟩ := hA
    obtain ⟨sB, trB', rfl, hsB, hB'⟩ := hB
    have hhist' : (histA ++ [sA]).map Step.ref = (histB ++ [sB]).map Step.ref := by
      simp [hhist, hsA.1, hsB.1]
    have hmiss : sB.hit = false → sA.hit = false := by
      intro hb
      by_contra ha
      have ha' : sA.hit = true := by simpa using ha
      have := hsB.hit_iff_pages.mpr (hsub (hsA.hit_iff_pages.mp ha'))
      rw [hb] at this; cases this
    have hsub' : pagesOf sA.frames ⊆ pagesOf sB.frames := by
      intro x hx
      by_cases hxp : x = p
      · subst hxp; exact hsB.ref_mem_pages
      have hxA : x ∈ pagesOf FA := by
        rcases hsA.mem_frames (mem_pagesOf.mp hx) with h | h
        · exact absurd h hxp
        · exact mem_pagesOf.mpr h
      have hxB : x ∈ pagesOf FB := hsub hxA
      obtain ⟨_, hcB⟩ := hsB
      rcases hcB with ⟨_, _, _, hf⟩ | ⟨_, _, _, i, hi, _, hf⟩ |
        ⟨hpB, hfullB, hhB, i', v', hi', hVB, _, hfB⟩
      · rw [hf]; exact hxB
      · rw [hf]
        exact mem_pagesOf.mpr (pages_set_keep hi (mem_pagesOf.mp hxB) (by simp))
      · rw [hfB]
        refine mem_pagesOf.mpr (pages_set_keep hi' (mem_pagesOf.mp hxB) ?_)
        intro hxv
        have hxv' : x = v' := by simpa using hxv
        subst hxv'
        have hhA := hmiss hhB
        by_cases hnoneA : none ∈ FA
        · -- the smaller array still has room, so it holds every page seen so far
          have h1 : pagesOf FB ⊆ pagesOf FA := fun y hy => hall hnoneA y (hseen y hy)
          have h2 := Finset.card_le_card h1
          have h3 := card_pagesOf_full hndB hfullB
          have h4 := card_pagesOf_lt hnoneA
          omega
        · obtain ⟨_, i, v, hi, hVA, _, hfA⟩ := hsA.of_capacity hhA hnoneA
          rw [hfA] at hx
          obtain ⟨a, hai, ha⟩ := mem_set_ne (mem_pagesOf.mp hx) hxp
          have hxv : x ≠ v := by
            intro e; subst e
            exact hai (hndA a i x ha hi)
          have hvB : v ∈ pagesOf FB := hsub (mem_pagesOf.mpr (List.getElem?_mem hi))
          obtain ⟨b, hb⟩ := List.mem_iff_getElem?.mp (mem_pagesOf.mp hvB)
          obtain ⟨tx, htx⟩ := lastAt_of_mem (hseen x hxB)
          obtain ⟨tv, htv⟩ := lastAt_of_mem (hseen v hvB)
          have hA1 := hVA a x v tv tx hi ha (by rw [hhist]; exact htv) (by rw [hhist]; exact htx)
          have hB1 := hVB b v x tx tv hi' hb htx htv
          have : tx = tv := by omega
          exact hxv (htx.page_unique htv this)
    have hseen' : ∀ x ∈ pagesOf sB.frames, x ∈ (histB ++ [sB]).map Step.ref := by
      intro x hx
      rcases hsB.mem_frames (mem_pagesOf.mp hx) with h | h
      · simp [h, hsB.1]
      · have := hseen x (mem_pagesOf.mpr h)
        simp only [List.map_append, List.mem_append]
        exact Or.inl this
    have hall' : none ∈ sA.frames → ∀ x ∈ (histB ++ [sB]).map Step.ref,
        x ∈ pagesOf sA.frames := by
      intro hnone x hx
      have hnoneA := hsA.none_mem hnone
      simp only [List.map_append, List.map_cons, List.map_nil, List.mem_append,
        List.mem_singleton] at hx
      rcases hx with h | h
      · exact hsA.pages_sub_of_none hnoneA (hall hnoneA x h)
      · rw [h, hsB.1]; exact hsA.ref_mem_pages
    have hlen' : sA.frames.length ≤ sB.frames.length := by
      rw [hsA.length_frames, hsB.length_frames]; exact hlen
    have := ih _ _ _ _ _ _ hA' hB' hhist' hsub' (hsA.noDup hndA) (hsB.noDup hndB) hseen' hall'
      hlen'
    rw [faultCount_cons, faultCount_cons]
    cases hb : sB.hit with
    | true => simp; omega
    | false => simp [hmiss hb]; omega

/-! ## Claim C9 -/

/-- C9 (LRU is monotone in capacity): for all `1 ≤ c ≤ c'`, `simulateLRU` with `c'` frames
returns no more faults than with `c` frames on the same references. -/
theorem lru_monotone (refs : List Int) (c c' : Int) (h1 : 1 ≤ c) (h2 : c ≤ c') :
    (simulateLRU refs c').faults ≤ (simulateLRU refs c).faults := by
  obtain ⟨hA, hfA⟩ := simulateLRU_trace refs c h1
  obtain ⟨hB, hfB⟩ := simulateLRU_trace refs c' (le_trans h1 h2)
  rw [hfA, hfB]
  refine lru_inclusion refs [] [] (emptyFrames c) (emptyFrames c') _ _ hA hB rfl ?_
    (noDupPages_emptyFrames c) (noDupPages_emptyFrames c') ?_ ?_ ?_
  · simp [pagesOf_emptyFrames]
  · simp [pagesOf_emptyFrames]
  · simp
  · simp only [emptyFrames, List.length_replicate]; omega

theorem lru_monotone_witness :
    (1 : Int) ≤ 2 ∧ (2 : Int) ≤ 3 ∧
      (simulateLRU [1, 2, 3, 4, 1, 2, 5] 3).faults ≤ (simulateLRU [1, 2, 3, 4, 1, 2, 5] 2).faults :=
  ⟨by decide, by decide, lru_monotone [1, 2, 3, 4, 1, 2, 5] 2 3 (by decide) (by decide)⟩

/-! ## Claims C11 and C12 -/

/-- C11 (Belady's anomaly): on `[1,2,3,4,1,2,5,1,2,3,4,5]`, `simulateFIFO` returns 9 faults
with 3 frames and 10 faults with 4 frames, so for some reference list the fault count of
FIFO strictly increases when the capacity increases. -/
theorem belady_anomaly :
    (simulateFIFO [1, 2, 3, 4, 1, 2, 5, 1, 2, 3, 4, 5] 3).faults = 9 ∧
      (simulateFIFO [1, 2, 3, 4, 1, 2, 5, 1, 2, 3, 4, 5] 4).faults = 10 ∧
      ∃ (refs : List Int) (c c' : Int), 1 ≤ c ∧ c < c' ∧
        (simulateFIFO refs c).faults < (simulateFIFO refs c').faults := by
  refine ⟨by decide, by decide, [1, 2, 3, 4, 1, 2, 5, 1, 2, 3, 4, 5], 3, 4, by decide,
    by decide, by decide⟩

/-- C12 (reference scenario): on `[7,0,1,2,0,3,0,4,2,3,0,3,2]` with 3 frames, `simulateFIFO`
returns 10 faults, `simulateLRU` 9 and `simulateOptimal` 7, and in all three runs the steps
0, 1 and 2 are faults without a victim. -/
theorem reference_scenario :
    (simulateFIFO [7, 0, 1, 2, 0, 3, 0, 4, 2, 3, 0, 3, 2] 3).faults = 10 ∧
      (simulateLRU [7, 0, 1, 2, 0, 3, 0, 4, 2, 3, 0, 3, 2] 3).faults = 9 ∧
      (simulateOptimal [7, 0, 1, 2, 0, 3, 0, 4, 2, 3, 0, 3, 2] 3).faults = 7 ∧
      ∀ sim ∈ [simulateFIFO, simulateLRU, simulateOptimal],
        ((sim [7, 0, 1, 2, 0, 3, 0, 4, 2, 3, 0, 3, 2] 3).state.take 3).map
            (fun s => (s.hit, s.victim))
          = [(false, none), (false, none), (false, none)] := by
  refine ⟨by decide, by decide, by decide, ?_⟩
  intro sim hsim
  simp only [List.mem_cons, List.mem_singleton, List.not_mem_nil, or_false] at hsim
  rcases hsim with rfl | rfl | rfl <;> decide

/-! ## Claim C14 -/

theorem TraceP.noDup_frames {V : VictimRule} {hist : List Step} {F : List (Option Int)}
    {rest : List Int} {tr : List Step} (ht : TraceP V hist F rest tr) (h : NoDupPages F) :
    ∀ st ∈ tr, NoDupPages st.frames := by
  induction rest generalizing hist F tr with
  | nil => simp only [TraceP] at ht; simp [ht]
  | cons p rest ih =>
    obtain ⟨s, tr', rfl, hs, ht'⟩ := ht
    intro st hst
    rcases List.mem_cons.mp hst with rfl | hst
    · exact hs.noDup h
    · exact ih ht' (hs.noDup h) st hst

/-- C14 (residency is a set): in each of the three simulations, at every step no page
occupies more than one slot of the recorded frames; only the empty marker may repeat. -/
theorem residency_is_set (refs : List Int) (frames : Int) (h : 1 ≤ frames) :
    ∀ sim ∈ [simulateFIFO, simulateLRU, simulateOptimal],
      ∀ (t : Nat) (st : Step), (sim refs frames).state[t]? = some st →
        ∀ (i j : Nat) (x : Int),
          st.frames[i]? = some (some x) → st.frames[j]? = some (some x) → i = j := by
  intro sim hsim t st hst
  obtain ⟨htr, _⟩ := sim_trace refs frames h sim hsim
  exact htr.noDup_frames (noDupPages_emptyFrames frames) st (List.getElem?_mem hst)

theorem residency_is_set_witness :
    (1 : Int) ≤ 2 ∧
      ∀ (i j : Nat) (x : Int),
        (⟨3, false, some 1, [some 3, some 2]⟩ : Step).frames[i]? = some (some x) →
        (⟨3, false, some 1, [some 3, some 2]⟩ : Step).frames[j]? = some (some x) → i = j :=
  ⟨by decide, residency_is_set [1, 2, 1, 3] 2 (by decide) simulateFIFO (by simp) 3
    ⟨3, false, some 1, [some 3, some 2]⟩ (by decide)⟩

/-! ## Claim C20 -/

theorem fifoLoop_append (a b : List Int) (s : FifoSt) :
    fifoLoop (a ++ b) s = fifoLoop b (fifoLoop a s) := by
  induction a generalizing s with
  | nil => rfl
  | cons p a ih => simp only [List.cons_append, fifoLoop]; exact ih _

theorem lruLoop_append (a b : List Int) (t : Nat) (s : LruSt) :
    lruLoop (a ++ b) t s = lruLoop b (t + a.length) (lruLoop a t s) := by
  induction a generalizing t s with
  | nil => rfl
  | cons p a ih =>
    have := ih (t + 1) (lruStep t p s)
    simp only [List.cons_append, lruLoop, List.length_cons]
    rw [show t + (a.length + 1) = t + 1 + a.length by omega]
    exact this

theorem fifoStep_state (p : Int) (s : FifoSt) :
    ∃ st, (fifoStep p s).state = s.state ++ [st] := by
  unfold fifoStep
  split
  · exact ⟨_, rfl⟩
  · split
    · exact ⟨_, rfl⟩
    · split <;> exact ⟨_, rfl⟩

theorem lruStep_state (t : Nat) (p : Int) (s : LruSt) :
    ∃ st, (lruStep t p s).state = s.state ++ [st] := by
  unfold lruStep
  split
  · exact ⟨_, rfl⟩
  · split <;> exact ⟨_, rfl⟩

/-- The loop of `simulateFIFO` only appends steps, one for each reference. -/
theorem fifoLoop_state (rest : List Int) (s : FifoSt) :
    ∃ tr, (fifoLoop rest s).state = s.state ++ tr ∧ tr.length = rest.length := by
  induction rest generalizing s with
  | nil => exact ⟨[], by simp [fifoLoop], rfl⟩
  | cons p rest ih =>
    obtain ⟨st, hst⟩ := fifoStep_state p s
    obtain ⟨tr, htr, hlen⟩ := ih (fifoStep p s)
    exact ⟨st :: tr, by simp only [fifoLoop]; rw [htr, hst]; simp, by simp [hlen]⟩

/-- The loop of `simulateLRU` only appends steps, one for each reference. -/
theorem lruLoop_state (rest : List Int) (t : Nat) (s : LruSt) :
    ∃ tr, (lruLoop rest t s).state = s.state ++ tr ∧ tr.length = rest.length := by
  induction rest generalizing t s with
  | nil => exact ⟨[], by simp [lruLoop], rfl⟩
  | cons p rest ih =>
    obtain ⟨st, hst⟩ := lruStep_state t p s
    obtain ⟨tr, htr, hlen⟩ := ih (t + 1) (lruStep t p s)
    exact ⟨st :: tr, by simp only [lruLoop]; rw [htr, hst]; simp, by simp [hlen]⟩

/-- C20 (FIFO and LRU are online): for all reference lists `refs` and `extra` and every
`frames`, the first `refs.length` steps of the run on `refs ++ extra` are the steps of the
run on `refs`, for `simulateFIFO` and for `simulateLRU`; the hit flag, victim and snapshot
of a step do not depend on later references. -/
theorem online_prefix (refs extra : List Int) (frames : Int) :
    (simulateFIFO (refs ++ extra) frames).state.take refs.length
        = (simulateFIFO refs frames).state ∧
      (simulateLRU (refs ++ extra) frames).state.take refs.length
        = (simulateLRU refs frames).state := by
  constructor
  · simp only [simulateFIFO, fifoLoop_append]
    obtain ⟨tr, htr, hlen⟩ := fifoLoop_state refs ⟨0, emptyFrames frames, none, [], []⟩
    obtain ⟨tr', htr', _⟩ := fifoLoop_state extra (fifoLoop refs ⟨0, emptyFrames frames, none, [], []⟩)
    rw [htr', htr]
    simp only [List.nil_append]
    rw [List.take_left' hlen]
  · simp only [simulateLRU, lruLoop_append]
    obtain ⟨tr, htr, hlen⟩ := lruLoop_state refs 0 ⟨0, emptyFrames frames, fun _ => none, []⟩
    obtain ⟨tr', htr', _⟩ := lruLoop_state extra (0 + refs.length)
      (lruLoop refs 0 ⟨0, emptyFrames frames, fun _ => none, []⟩)
    rw [htr', htr]
    simp only [List.nil_append]
    rw [List.take_left' hlen]

/-! ## Steps that leave no choice -/

/-- Two steps on the same reference and the same frame array are equal, whatever the victim
rules, unless the step is a capacity fault on more than one frame. -/
theorem StepP.det {V W : VictimRule} {hist hist' : List Step} {F : List (Option Int)}
    {p : Int} {rest rest' : List Int} {s s' : Step} (hs : StepP V hist F p rest s)
    (hs' : StepP W hist' F p rest' s') (hslot : some p ∉ F → none ∉ F → F.length ≤ 1) :
    s = s' := by
  obtain ⟨hr, hc⟩ := hs
  obtain ⟨hr', hc'⟩ := hs'
  cases s with
  | mk r h v f =>
  cases s' with
  | mk r' h' v' f' =>
  simp only at hr hr' hc hc'
  simp only [Step.mk.injEq]
  rcases hc with ⟨hp, hh, hv, hf⟩ | ⟨hp, hh, hv, i, hi, hlow, hf⟩ |
    ⟨hp, hfull, hh, i, w, hi, _, hv, hf⟩ <;>
  rcases hc' with ⟨hp', hh', hv', hf'⟩ | ⟨hp', hh', hv', i', hi', hlow', hf'⟩ |
    ⟨hp', hfull', hh', i', w', hi', _, hv', hf'⟩
  · exact ⟨hr.trans hr'.symm, hh.trans hh'.symm, hv.trans hv'.symm, hf.trans hf'.symm⟩
  · exact absurd hp hp'
  · exact absurd hp hp'
  · exact absurd hp' hp
  · have hii : i = i' := by
      rcases Nat.lt_trichotomy i i' with h1 | h1 | h1
      · exact absurd hi (hlow' i h1)
      · exact h1
      · exact absurd hi' (hlow i' h1)
    subst hii
    exact ⟨hr.trans hr'.symm, hh.trans hh'.symm, hv.trans hv'.symm, hf.trans hf'.symm⟩
  · exact absurd (List.getElem?_mem hi) hfull'
  · exact absurd hp' hp
  · exact absurd (List.getElem?_mem hi') hfull
  · have hlen := hslot hp hfull
    have h1 := (List.getElem?_eq_some.mp hi).1
    have h2 := (List.getElem?_eq_some.mp hi').1
    have hii : i = i' := by omega
    subst hii
    have hww : w = w' := by
      rw [hi] at hi'; simpa using hi'
    subst hww
    exact ⟨hr.trans hr'.symm, hh.trans hh'.symm, hv.trans hv'.symm, hf.trans hf'.symm⟩

/-- The frame array keeps its length along a trace. -/
theorem TraceP.length_framesBefore {V : VictimRule} {hist : List Step}
    {F : List (Option Int)} {rest : List Int} {tr : List Step} (ht : TraceP V hist F rest tr)
    (t : Nat) : (framesBefore F tr t).length = F.length := by
  induction t with
  | zero => rfl
  | succ t ih =>
    cases hst : tr[t]? with
    | none => simp [framesBefore, hst]
    | some st =>
      simp only [framesBefore, hst]
      have hlt : t < rest.length := by
        have := (List.getElem?_eq_some.mp hst).1
        rw [ht.length] at this
        exact this
      obtain ⟨st', hst', hstep⟩ := ht.step_at (List.getElem?_eq_getElem hlt)
      have : st' = st := by rw [hst] at hst'; simpa using hst'.symm
      subst this
      exact hstep.length_frames.trans ih

/-- With a single frame every trace on the same references is the same. -/
theorem TraceP.det_one {V W : VictimRule} {hist hist' : List Step} {F : List (Option Int)}
    {rest : List Int} {tr tr' : List Step} (ht : TraceP V hist F rest tr)
    (ht' : TraceP W hist' F rest tr') (hlen : F.length ≤ 1) : tr = tr' := by
  induction rest generalizing hist hist' F tr tr' with
  | nil =>
    simp only [TraceP] at ht ht'
    rw [ht, ht']
  | cons p rest ih =>
    obtain ⟨s, tr1, rfl, hs, ht1⟩ := ht
    obtain ⟨s', tr1', rfl, hs', ht1'⟩ := ht'
    have hss : s = s' := hs.det hs' (fun _ _ => hlen)
    subst hss
    rw [ih ht1 ht1' (by rw [hs.length_frames]; exact hlen)]

/-- With a single frame, the frame holds the page referenced last. -/
theorem StepP.frames_one {V : VictimRule} {hist : List Step} {F : List (Option Int)}
    {p : Int} {rest : List Int} {s : Step} (hs : StepP V hist F p rest s)
    (hlen : F.length = 1) : s.frames = [some p] := by
  have h1 := hs.ref_mem
  have h2 := hs.length_frames
  rw [hlen] at h2
  match hf : s.frames, h2 with
  | [a], _ =>
    rw [hf] at h1
    simp only [List.mem_singleton] at h1
    rw [← h1]

/-! ## Claim C13 -/

/-- C13 (single frame): with `frames = 1`, step `t` of each simulation is a fault exactly
when `t = 0` or `refs[t]` differs from `refs[t-1]`, and the three simulations return the
same `faults` and the same `state`. -/
theorem single_frame (refs : List Int) :
    (∀ sim ∈ [simulateFIFO, simulateLRU, simulateOptimal],
      ∀ (t : Nat) (p : Int) (st : Step), refs[t]? = some p →
        (sim refs 1).state[t]? = some st →
        (st.hit = false ↔ (t = 0 ∨ ∃ q, refs[t - 1]? = some q ∧ q ≠ p))) ∧
      simulateFIFO refs 1 = simulateLRU refs 1 ∧
      simulateLRU refs 1 = simulateOptimal refs 1 := by
  have hone : (emptyFrames 1).length = 1 := by simp [emptyFrames]
  refine ⟨?_, ?_, ?_⟩
  · intro sim hsim t p st hp hst
    obtain ⟨htr, _⟩ := sim_trace refs 1 (le_refl _) sim hsim
    obtain ⟨st', hst', hstep⟩ := htr.step_at hp
    have : st' = st := by rw [hst] at hst'; simpa using hst'.symm
    subst this
    have hmiss : st'.hit = false ↔ some p ∉ framesBefore (emptyFrames 1) (sim refs 1).state t := by
      rw [← hstep.hit_iff]; simp
    rw [hmiss]
    cases t with
    | zero => simp [framesBefore, emptyFrames]
    | succ t =>
      have hlt : t < refs.length := by
        have := (List.getElem?_eq_some.mp hp).1; omega
      obtain ⟨sq, hsq, hstepq⟩ := htr.step_at (List.getElem?_eq_getElem hlt)
      have hfl : (framesBefore (emptyFrames 1) (sim refs 1).state t).length = 1 := by
        rw [htr.length_framesBefore t]; exact hone
      have hfb : framesBefore (emptyFrames 1) (sim refs 1).state (t + 1) = [some refs[t]] := by
        simp only [framesBefore, hsq]
        exact hstepq.frames_one hfl
      rw [hfb]
      simp only [List.mem_singleton, Option.some.injEq, Nat.add_sub_cancel]
      constructor
      · intro hne
        exact Or.inr ⟨refs[t], List.getElem?_eq_getElem hlt, fun e => hne e.symm⟩
      · rintro (h0 | ⟨q, hq, hqp⟩)
        · omega
        · rw [List.getElem?_eq_getElem hlt] at hq
          have hq' : refs[t] = q := by simpa using hq
          intro e
          exact hqp (hq' ▸ e.symm)
  · obtain ⟨hF, hfF⟩ := simulateFIFO_trace refs 1 (le_refl _)
    obtain ⟨hL, hfL⟩ := simulateLRU_trace refs 1 (le_refl _)
    have hst := hF.det_one hL (by simp [emptyFrames])
    have : (simulateFIFO refs 1).faults = (simulateLRU refs 1).faults := by
      rw [hfF, hfL, hst]
    cases h1 : simulateFIFO refs 1
    cases h2 : simulateLRU refs 1
    simp_all
  · obtain ⟨hL, hfL⟩ := simulateLRU_trace refs 1 (le_refl _)
    obtain ⟨hO, hfO⟩ := simulateOptimal_trace refs 1 (le_refl _)
    have hst := hL.det_one hO (by simp [emptyFrames])
    have : (simulateLRU refs 1).faults = (simulateOptimal refs 1).faults := by
      rw [hfL, hfO, hst]
    cases h1 : simulateLRU refs 1
    cases h2 : simulateOptimal refs 1
    simp_all

/-! ## When the working set fits -/

theorem pagesOf_set_none {F : List (Option Int)} {i : Nat} (p : Int) (hi : F[i]? = some none) :
    pagesOf (F.set i (some p)) = insert p (pagesOf F) := by
  have hlt := (List.getElem?_eq_some.mp hi).1
  ext x
  simp only [Finset.mem_insert, mem_pagesOf]
  constructor
  · intro hx
    rcases List.mem_or_eq_of_mem_set hx with h | h
    · exact Or.inr h
    · exact Or.inl (by simpa using h)
  · rintro (rfl | h)
    · exact List.getElem?_mem (List.getElem?_set_self hlt)
    · exact pages_set_keep hi h (by simp)

/-- No capacity fault can occur while the resident pages and the pages still to come fit
into the frames. -/
theorem fit_no_capacity {F : List (Option Int)} {p : Int} {rest : List Int}
    (hnd : NoDupPages F) (hfit : (pagesOf F ∪ (p :: rest).toFinset).card ≤ F.length)
    (hp : some p ∉ F) (hfull : none ∉ F) : False := by
  have h1 := card_pagesOf_full hnd hfull
  have hpn : p ∉ pagesOf F := fun h => hp (mem_pagesOf.mp h)
  have hsub : insert p (pagesOf F) ⊆ pagesOf F ∪ (p :: rest).toFinset := by
    intro x hx
    rcases Finset.mem_insert.mp hx with rfl | h
    · exact Finset.mem_union_right _ (by simp)
    · exact Finset.mem_union_left _ h
  have h2 := Finset.card_le_card hsub
  rw [Finset.card_insert_of_not_mem hpn] at h2
  omega

theorem StepP.fit_next {V : VictimRule} {hist : List Step} {F : List (Option Int)} {p : Int}
    {rest : List Int} {s : Step} (hs : StepP V hist F p rest s)
    (hfit : (pagesOf F ∪ (p :: rest).toFinset).card ≤ F.length) :
    (pagesOf s.frames ∪ rest.toFinset).card ≤ s.frames.length := by
  rw [hs.length_frames]
  refine le_trans (Finset.card_le_card ?_) hfit
  intro x hx
  rcases Finset.mem_union.mp hx with h | h
  · rcases hs.mem_frames (mem_pagesOf.mp h) with h' | h'
    · exact Finset.mem_union_right _ (by simp [h'])
    · exact Finset.mem_union_left _ (mem_pagesOf.mpr h')
  · exact Finset.mem_union_right _ (by simp only [List.toFinset_cons, Finset.mem_insert]; exact Or.inr h)

/-- When the working set fits, every trace on the same references is the same. -/
theorem TraceP.det_fit {V W : VictimRule} {hist hist' : List Step} {F : List (Option Int)}
    {rest : List Int} {tr tr' : List Step} (ht : TraceP V hist F rest tr)
    (ht' : TraceP W hist' F rest tr') (hnd : NoDupPages F)
    (hfit : (pagesOf F ∪ rest.toFinset).card ≤ F.length) : tr = tr' := by
  induction rest generalizing hist hist' F tr tr' with
  | nil =>
    simp only [TraceP] at ht ht'
    rw [ht, ht']
  | cons p rest ih =>
    obtain ⟨s, tr1, rfl, hs, ht1⟩ := ht
    obtain ⟨s', tr1', rfl, hs', ht1'⟩ := ht'
    have hss : s = s' := hs.det hs' (fun hp hfull => (fit_no_capacity hnd hfit hp hfull).elim)
    subst hss
    rw [ih ht1 ht1' (hs.noDup hnd) (hs.fit_next hfit)]

/-- When the working set fits, the faults are the first references of the pages not yet
resident, and no step records a victim. -/
theorem TraceP.faults_fit {V : VictimRule} {hist : List Step} {F : List (Option Int)}
    {rest : List Int} {tr : List Step} (ht : TraceP V hist F rest tr) (hnd : NoDupPages F)
    (hfit : (pagesOf F ∪ rest.toFinset).card ≤ F.length) :
    faultCount tr = (rest.toFinset \ pagesOf F).card ∧ ∀ st ∈ tr, st.victim = none := by
  induction rest generalizing hist F tr with
  | nil =>
    simp only [TraceP] at ht
    simp [ht, faultCount]
  | cons p rest ih =>
    obtain ⟨s, tr', rfl, hs, ht'⟩ := ht
    obtain ⟨ihf, ihv⟩ := ih ht' (hs.noDup hnd) (hs.fit_next hfit)
    obtain ⟨_, hc⟩ := hs
    rcases hc with ⟨hp, hh, hv, hf⟩ | ⟨hp, hh, hv, i, hi, _, hf⟩ | ⟨hp, hfull, _⟩
    · refine ⟨?_, ?_⟩
      · rw [faultCount_cons, ihf, hf, hh, List.toFinset_cons,
          Finset.insert_sdiff_of_mem _ (mem_pagesOf.mpr hp)]
        simp
      · intro st hst
        rcases List.mem_cons.mp hst with rfl | hst
        · exact hv
        · exact ihv st hst
    · refine ⟨?_, ?_⟩
      · have hpn : p ∉ pagesOf F := fun h => hp (mem_pagesOf.mp h)
        have e : insert p (rest.toFinset \ pagesOf F)
            = insert p (rest.toFinset \ insert p (pagesOf F)) := by
          ext x
          simp only [Finset.mem_sdiff, Finset.mem_insert, not_or]
          tauto
        rw [faultCount_cons, ihf, hf, hh, pagesOf_set_none p hi, List.toFinset_cons,
          Finset.insert_sdiff_of_not_mem _ hpn, e,
          Finset.card_insert_of_not_mem (by simp)]
        simp; omega
      · intro st hst
        rcases List.mem_cons.mp hst with rfl | hst
        · exact hv
        · exact ihv st hst
    · exact (fit_no_capacity hnd hfit hp hfull).elim

theorem result_eq {a b : Result} (hf : a.faults = b.faults) (hs : a.state = b.state) :
    a = b := by
  cases a; cases b; simp_all

/-! ## Claim C19 -/

/-- C19 (the working set fits): when the number of distinct values of `refs` is at most
`frames`, the three simulations return the same `faults` and the same `state`, `faults` is
the number of distinct values of `refs`, and no step records a victim. -/
theorem working_set_fits (refs : List Int) (frames : Int) (h : 1 ≤ frames)
    (hfit : (refs.toFinset.card : Int) ≤ frames) :
    simulateFIFO refs frames = simulateLRU refs frames ∧
      simulateLRU refs frames = simulateOptimal refs frames ∧
      ∀ sim ∈ [simulateFIFO, simulateLRU, simulateOptimal],
        (sim refs frames).faults = refs.toFinset.card ∧
        ∀ st ∈ (sim refs frames).state, st.victim = none := by
  have hnd := noDupPages_emptyFrames frames
  have hfit' : (pagesOf (emptyFrames frames) ∪ refs.toFinset).card
      ≤ (emptyFrames frames).length := by
    rw [pagesOf_emptyFrames, Finset.empty_union]
    simp only [emptyFrames, List.length_replicate]
    omega
  obtain ⟨hF, hfF⟩ := simulateFIFO_trace refs frames h
  obtain ⟨hL, hfL⟩ := simulateLRU_trace refs frames h
  obtain ⟨hO, hfO⟩ := simulateOptimal_trace refs frames h
  have e1 := hF.det_fit hL hnd hfit'
  have e2 := hL.det_fit hO hnd hfit'
  refine ⟨result_eq (by rw [hfF, hfL, e1]) e1, result_eq (by rw [hfL, hfO, e2]) e2, ?_⟩
  intro sim hsim
  obtain ⟨htr, hf⟩ := sim_trace refs frames h sim hsim
  obtain ⟨h1, h2⟩ := htr.faults_fit hnd hfit'
  rw [pagesOf_emptyFrames, Finset.sdiff_empty] at h1
  exact ⟨hf.trans h1, h2⟩

theorem working_set_fits_witness :
    (1 : Int) ≤ 3 ∧ (([1, 2, 1, 3, 2].toFinset.card : Nat) : Int) ≤ 3 ∧
      simulateFIFO [1, 2, 1, 3, 2] 3 = simulateLRU [1, 2, 1, 3, 2] 3 ∧
      simulateLRU [1, 2, 1, 3, 2] 3 = simulateOptimal [1, 2, 1, 3, 2] 3 ∧
      (simulateOptimal [1, 2, 1, 3, 2] 3).faults = [1, 2, 1, 3, 2].toFinset.card ∧
      ∀ st ∈ (simulateOptimal [1, 2, 1, 3, 2] 3).state, st.victim = none :=
  ⟨by decide, by decide,
    (working_set_fits [1, 2, 1, 3, 2] 3 (by decide) (by decide)).1,
    (working_set_fits [1, 2, 1, 3, 2] 3 (by decide) (by decide)).2.1,
    (working_set_fits [1, 2, 1, 3, 2] 3 (by decide) (by decide)).2.2 simulateOptimal (by simp)⟩

/-! ## LRU bookkeeping: the keys of `lastUsed` -/

/-- A step of `simulateLRU` keeps the keys of `lastUsed` among the resident pages. -/
theorem lruStep_keys (s : LruSt) (p : Int) (hlen : 0 < s.mem.length) (hinv : LruInv s)
    (hk : ∀ x, s.lastUsed x ≠ none → some x ∈ s.mem) :
    ∀ x, (lruStep s.state.length p s).lastUsed x ≠ none →
      some x ∈ (lruStep s.state.length p s).mem := by
  obtain ⟨hnd, hm⟩ := hinv
  unfold lruStep
  cases h1 : indexOf s.mem (some p) with
  | some k =>
    have hp := List.getElem?_mem (indexOf_eq_some h1).1
    intro x hx
    simp only [mapSet] at hx
    by_cases hxp : x = p
    · subst hxp; exact hp
    · rw [if_neg hxp] at hx; exact hk x hx
  | none =>
    cases h2 : indexOf s.mem none with
    | some e =>
      obtain ⟨he, _⟩ := indexOf_eq_some h2
      have hlt : e < s.mem.length := (List.getElem?_eq_some.mp he).1
      intro x hx
      simp only [mapSet, writeAt_of_lt hlt] at hx ⊢
      by_cases hxp : x = p
      · subst hxp; exact List.getElem?_mem (List.getElem?_set_self hlt)
      · rw [if_neg hxp] at hx
        exact pages_set_keep he (hk x hx) (by simp)
    | none =>
      have hfull := indexOf_eq_none_iff.mp h2
      obtain ⟨i, v, hi, hv, _⟩ := lruScan_spec s.lastUsed (s.state.map Step.ref) s.mem
        hlen hfull hm
      have hlt : i < s.mem.length := (List.getElem?_eq_some.mp hv).1
      intro x hx
      simp only [hi, mapSet, mapDelete, writeAt_of_lt hlt, readAt_of_getElem? hv] at hx ⊢
      by_cases hxp : x = p
      · subst hxp; exact List.getElem?_mem (List.getElem?_set_self hlt)
      · rw [if_neg hxp] at hx
        by_cases hxv : x = v
        · rw [if_pos hxv] at hx; exact absurd rfl hx
        · rw [if_neg hxv] at hx
          exact pages_set_keep hv (hk x hx) (by simpa using hxv)

/-- The bookkeeping of `simulateLRU` holds after the loop has processed any references. -/
theorem lruLoop_inv (rest : List Int) (s : LruSt) (hlen : 0 < s.mem.length) (hinv : LruInv s)
    (hk : ∀ x, s.lastUsed x ≠ none → some x ∈ s.mem) :
    LruInv (lruLoop rest s.state.length s) ∧
      (∀ x, (lruLoop rest s.state.length s).lastUsed x ≠ none →
        some x ∈ (lruLoop rest s.state.length s).mem) ∧
      (lruLoop rest s.state.length s).state.map Step.ref = s.state.map Step.ref ++ rest := by
  induction rest generalizing s with
  | nil => exact ⟨hinv, hk, by simp [lruLoop]⟩
  | cons p rest ih =>
    obtain ⟨st, hst, hstate, hmem, _, hinv'⟩ := lruStep_spec s p rest hlen hinv
    have hk' := lruStep_keys s p hlen hinv hk
    have hlen' : 0 < (lruStep s.state.length p s).mem.length := by
      rw [hmem, hst.length_frames]; exact hlen
    have := ih (lruStep s.state.length p s) hlen' hinv' hk'
    rw [hstate] at this
    simp only [List.length_append, List.length_singleton, List.map_append, List.map_cons,
      List.map_nil, hst.1, List.append_assoc, List.singleton_append] at this
    simp only [lruLoop]
    exact this

theorem lruStep_mem (t : Nat) (p : Int) (s : LruSt) :
    ∃ st, (lruStep t p s).state = s.state ++ [st] ∧ (lruStep t p s).mem = st.frames := by
  unfold lruStep
  split
  · exact ⟨_, rfl, rfl⟩
  · split <;> exact ⟨_, rfl, rfl⟩

/-- The loop variables of `simulateLRU` after step `t` belong to the run on the whole
reference list: the steps recorded so far are its first `t + 1` steps and `mem` is the
snapshot of step `t`. -/
theorem lruLoop_take (refs : List Int) (frames : Int) (t : Nat) (ht : t < refs.length) :
    (lruLoop (refs.take (t + 1)) 0 ⟨0, emptyFrames frames, fun _ => none, []⟩).state
        = (simulateLRU refs frames).state.take (t + 1) ∧
      ∀ st, (simulateLRU refs frames).state[t]? = some st →
        (lruLoop (refs.take (t + 1)) 0 ⟨0, emptyFrames frames, fun _ => none, []⟩).mem
          = st.frames := by
  have hsplit : refs = refs.take (t + 1) ++ refs.drop (t + 1) := (List.take_append_drop _ _).symm
  obtain ⟨tr, htr, hlen⟩ := lruLoop_state (refs.take (t + 1)) 0
    ⟨0, emptyFrames frames, fun _ => none, []⟩
  obtain ⟨tr', htr', _⟩ := lruLoop_state (refs.drop (t + 1)) (0 + (refs.take (t + 1)).length)
    (lruLoop (refs.take (t + 1)) 0 ⟨0, emptyFrames frames, fun _ => none, []⟩)
  have hlen' : tr.length = t + 1 := by rw [hlen, List.length_take]; omega
  have hsim : (simulateLRU refs frames).state = tr ++ tr' := by
    conv_lhs => rw [hsplit]
    simp only [simulateLRU, lruLoop_append]
    rw [htr', htr]; simp
  simp only [List.nil_append] at htr
  have h1 : (lruLoop (refs.take (t + 1)) 0 ⟨0, emptyFrames frames, fun _ => none, []⟩).state
      = (simulateLRU refs frames).state.take (t + 1) := by
    rw [hsim, htr, List.take_left' hlen']
  refine ⟨h1, ?_⟩
  intro st hst
  have htake : refs.take (t + 1) = refs.take t ++ [refs[t]] := by
    rw [List.take_succ, List.getElem?_eq_getElem ht]; rfl
  obtain ⟨tr0, htr0, hlen0⟩ := lruLoop_state (refs.take t) 0
    ⟨0, emptyFrames frames, fun _ => none, []⟩
  obtain ⟨st', hst', hmem'⟩ := lruStep_mem (0 + (refs.take t).length) refs[t]
    (lruLoop (refs.take t) 0 ⟨0, emptyFrames frames, fun _ => none, []⟩)
  have hstep : lruLoop (refs.take (t + 1)) 0 ⟨0, emptyFrames frames, fun _ => none, []⟩
      = lruStep (0 + (refs.take t).length) refs[t]
          (lruLoop (refs.take t) 0 ⟨0, emptyFrames frames, fun _ => none, []⟩) := by
    rw [htake, lruLoop_append]; rfl
  rw [hstep, hmem']
  have hlen0' : tr0.length = t := by rw [hlen0, List.length_take]; omega
  have hst2 : (simulateLRU refs frames).state[t]? = some st' := by
    have : ((simulateLRU refs frames).state.take (t + 1))[t]? = some st' := by
      rw [← h1, hstep, hst', htr0]
      simp only [List.nil_append]
      rw [← hlen0']; simp
    rwa [List.getElem?_take, if_pos (by omega)] at this
  rw [hst] at hst2
  simp only [Option.some.injEq] at hst2
  rw [hst2]

/-! ## Claim C16 -/

/-- C16 (LRU bookkeeping): after `simulateLRU` has processed step `t`, the keys of `lastUsed`
are exactly the pages resident in `mem`, each key maps to the index of its most recent
occurrence in `refs[0..t]`, the stored times of distinct pages differ, and every resident
page has an entry, so that the `-Infinity` fallback is not taken by a victim scan. -/
theorem lru_bookkeeping (refs : List Int) (frames : Int) (h : 1 ≤ frames) (t : Nat)
    (ht : t < refs.length) :
    (∀ x, (lruLoop (refs.take (t + 1)) 0 ⟨0, emptyFrames frames, fun _ => none, []⟩).lastUsed x
          ≠ none ↔
        some x ∈ (lruLoop (refs.take (t + 1)) 0 ⟨0, emptyFrames frames, fun _ => none, []⟩).mem) ∧
      (∀ x i,
        (lruLoop (refs.take (t + 1)) 0 ⟨0, emptyFrames frames, fun _ => none, []⟩).lastUsed x
          = some i → LastAt (refs.take (t + 1)) x i) ∧
      (∀ x y i,
        (lruLoop (refs.take (t + 1)) 0 ⟨0, emptyFrames frames, fun _ => none, []⟩).lastUsed x
          = some i →
        (lruLoop (refs.take (t + 1)) 0 ⟨0, emptyFrames frames, fun _ => none, []⟩).lastUsed y
          = some i → x = y) ∧
      (∀ x,
        some x ∈ (lruLoop (refs.take (t + 1)) 0 ⟨0, emptyFrames frames, fun _ => none, []⟩).mem →
        ∃ i : Nat,
          lastUsedOr
            (lruLoop (refs.take (t + 1)) 0 ⟨0, emptyFrames frames, fun _ => none, []⟩).lastUsed
            (some x) = Num.fin i) ∧
      (lruLoop (refs.take (t + 1)) 0 ⟨0, emptyFrames frames, fun _ => none, []⟩).state
        = (simulateLRU refs frames).state.take (t + 1) ∧
      ∀ st, (simulateLRU refs frames).state[t]? = some st →
        (lruLoop (refs.take (t + 1)) 0 ⟨0, emptyFrames frames, fun _ => none, []⟩).mem
          = st.frames := by
  obtain ⟨⟨_, hm⟩, hk, hpre⟩ := lruLoop_inv (refs.take (t + 1))
    ⟨0, emptyFrames frames, fun _ => none, []⟩ (emptyFrames_length h)
    ⟨noDupPages_emptyFrames frames, by intro x hx; simp [emptyFrames] at hx⟩
    (by intro x hx; exact absurd rfl hx)
  simp only [List.length_nil, List.map_nil, List.nil_append] at hm hk hpre
  rw [hpre] at hm
  have hval : ∀ x i,
      (lruLoop (refs.take (t + 1)) 0 ⟨0, emptyFrames frames, fun _ => none, []⟩).lastUsed x
        = some i → LastAt (refs.take (t + 1)) x i := by
    intro x i hi
    obtain ⟨j, hj, hl⟩ := hm x (hk x (by rw [hi]; simp))
    rw [hi] at hj
    simp only [Option.some.injEq] at hj
    rw [hj]; exact hl
  refine ⟨?_, hval, ?_, ?_, lruLoop_take refs frames t ht⟩
  · intro x
    refine ⟨hk x, fun hx => ?_⟩
    obtain ⟨i, hi, _⟩ := hm x hx
    rw [hi]; simp
  · intro x y i hx hy
    exact (hval x i hx).page_unique (hval y i hy) rfl
  · intro x hx
    obtain ⟨i, hi, _⟩ := hm x hx
    exact ⟨i, by simp [lastUsedOr, hi]⟩

theorem lru_bookkeeping_witness :
    (1 : Int) ≤ 2 ∧ 3 < [1, 2, 1, 3].length ∧
      ((lruLoop ([1, 2, 1, 3].take (3 + 1)) 0 ⟨0, emptyFrames 2, fun _ => none, []⟩).lastUsed 2
          ≠ none ↔
        some 2 ∈ (lruLoop ([1, 2, 1, 3].take (3 + 1)) 0 ⟨0, emptyFrames 2, fun _ => none, []⟩).mem) ∧
      (lruLoop ([1, 2, 1, 3].take (3 + 1)) 0 ⟨0, emptyFrames 2, fun _ => none, []⟩).state
        = (simulateLRU [1, 2, 1, 3] 2).state.take (3 + 1) :=
  ⟨by decide, by decide,
    (lru_bookkeeping [1, 2, 1, 3] 2 (by decide) 3 (by decide)).1 2,
    (lru_bookkeeping [1, 2, 1, 3] 2 (by decide) 3 (by decide)).2.2.2.2.1⟩

/-! ## FIFO evicts round-robin -/

theorem capacityFaults_append (tr : List Step) (st : Step) :
    capacityFaults (tr ++ [st]) = capacityFaults tr + (if st.victim.isSome then 1 else 0) := by
  simp only [capacityFaults, List.countP_append, List.countP_cons, List.countP_nil]
  omega

/-- The head of the rotated list of slots and what shifting it to the back gives. -/
theorem range_rotate_shift (n k : Nat) (hn : 0 < n) :
    ((List.range n).rotate k).head? = some (k % n) ∧
      ((List.range n).rotate k).tail ++ [k % n] = (List.range n).rotate (k + 1) := by
  have hmod : k % n < (List.range n).length := by
    rw [List.length_range]; exact Nat.mod_lt _ hn
  have hhead : ((List.range n).rotate k).head? = some (k % n) := by
    have h1 := List.rotate_mod (List.range n) k
    rw [List.length_range] at h1
    rw [← h1, List.head?_rotate hmod, List.getElem?_range (by simpa using hmod)]
  refine ⟨hhead, ?_⟩
  cases hl : (List.range n).rotate k with
  | nil => rw [hl] at hhead; simp at hhead
  | cons a tl =>
    rw [hl] at hhead
    simp only [List.head?_cons, Option.some.injEq] at hhead
    rw [← List.rotate_rotate, hl, List.rotate_cons_succ, List.rotate_zero, hhead]
    rfl

/-- One iteration of `simulateFIFO` keeps the round-robin bookkeeping and the length of the
frame array; at a capacity fault it replaces the slot whose index is the number of earlier
capacity faults modulo the number of frames. -/
theorem fifoStep_rr (s : FifoSt) (p : Int) (hlen : 0 < s.mem.length) (hrr : FifoRR s) :
    FifoRR (fifoStep p s) ∧ (fifoStep p s).mem.length = s.mem.length ∧
      (indexOf s.mem (some p) = none → indexOf s.mem none = none →
        (fifoStep p s).mem
          = s.mem.set (capacityFaults s.state % s.mem.length) (some p)) := by
  obtain ⟨m, hm, hocc, hq, hk⟩ := hrr
  unfold fifoStep
  cases h1 : indexOf s.mem (some p) with
  | some k =>
    refine ⟨⟨m, hm, hocc, ?_, ?_⟩, rfl, fun h => by cases h⟩
    · simp only [capacityFaults_append]; simpa using hq
    · simp only [capacityFaults_append]; simpa using hk
  | none =>
    cases h2 : indexOf s.mem none with
    | some e =>
      obtain ⟨he, hlow⟩ := indexOf_eq_some h2
      have hlt : e < s.mem.length := (List.getElem?_eq_some.mp he).1
      have hme : m ≤ e := (hocc e hlt).mp he
      have hem : e = m := by
        rcases Nat.lt_or_ge m e with h | h
        · exact absurd ((hocc m (by omega)).mpr (le_refl _)) (hlow m h)
        · omega
      subst hem
      have hk0 := hk hlt
      simp only [writeAt_of_lt hlt]
      refine ⟨⟨e + 1, by simpa using hlt, ?_, ?_, ?_⟩, by simp, fun _ h => by cases h⟩
      · intro i hi
        simp only [List.length_set] at hi ⊢
        rw [List.getElem?_set]
        by_cases hei : e = i
        · subst hei; simp [hlt]
        · rw [if_neg hei, hocc i hi]; omega
      · simp only [capacityFaults_append, hk0, hq]
        simp [List.range_succ]
      · intro _
        simp only [capacityFaults_append, hk0]
        simp
    | none =>
      have hfull := indexOf_eq_none_iff.mp h2
      have hmn : m = s.mem.length := by
        rcases Nat.lt_or_ge m s.mem.length with h | h
        · exact absurd (List.getElem?_mem ((hocc m h).mpr (le_refl _))) hfull
        · omega
      subst hmn
      obtain ⟨hhead, hshift⟩ := range_rotate_shift s.mem.length (capacityFaults s.state) hlen
      have hj : capacityFaults s.state % s.mem.length < s.mem.length := Nat.mod_lt _ hlen
      have hqh : s.q.head?.join = some (capacityFaults s.state % s.mem.length) := by
        rw [hq, List.head?_map, hhead]; rfl
      have hqt : s.q.tail ++ [some (capacityFaults s.state % s.mem.length)]
          = ((List.range s.mem.length).rotate (capacityFaults s.state + 1)).map some := by
        rw [hq, ← hshift]; simp
      obtain ⟨v, hv⟩ : ∃ v, s.mem[capacityFaults s.state % s.mem.length]? = some (some v) := by
        cases hc : s.mem[capacityFaults s.state % s.mem.length] with
        | none => exact absurd (hc ▸ List.getElem_mem hj) hfull
        | some v => exact ⟨v, by rw [List.getElem?_eq_getElem hj, hc]⟩
      simp only [hqh, hqt, writeAt_of_lt hj, readAt_of_getElem? hv]
      refine ⟨⟨s.mem.length, by simp, ?_, ?_, ?_⟩, by simp, by simp⟩
      · intro i hi
        simp only [List.length_set] at hi ⊢
        rw [List.getElem?_set]
        by_cases hei : capacityFaults s.state % s.mem.length = i
        · subst hei; simp [hj]
        · rw [if_neg hei, hocc i hi]
      · simp only [capacityFaults_append, List.length_set]
        simp
      · intro h; simp at h

theorem fifoLoop_rr (rest : List Int) (s : FifoSt) (hlen : 0 < s.mem.length) (hrr : FifoRR s) :
    FifoRR (fifoLoop rest s) ∧ (fifoLoop rest s).mem.length = s.mem.length := by
  induction rest generalizing s with
  | nil => exact ⟨hrr, rfl⟩
  | cons p rest ih =>
    obtain ⟨hrr', hlen', _⟩ := fifoStep_rr s p hlen hrr
    obtain ⟨h1, h2⟩ := ih (fifoStep p s) (by rw [hlen']; exact hlen) hrr'
    exact ⟨h1, h2.trans hlen'⟩

theorem fifoRR_init (frames : Int) : FifoRR ⟨0, emptyFrames frames, none, [], []⟩ := by
  refine ⟨0, Nat.zero_le _, ?_, by simp [capacityFaults], fun _ => by simp [capacityFaults]⟩
  intro i hi
  simp only [emptyFrames, List.length_replicate] at hi
  simp [emptyFrames, List.getElem?_replicate, hi]

theorem fifoStep_mem (p : Int) (s : FifoSt) :
    ∃ st, (fifoStep p s).state = s.state ++ [st] ∧ (fifoStep p s).mem = st.frames ∧
      (indexOf s.mem (some p) ≠ none → st.hit = true) := by
  unfold fifoStep
  split
  · exact ⟨_, rfl, rfl, fun _ => rfl⟩
  · rename_i h
    split
    · exact ⟨_, rfl, rfl, fun hc => absurd h hc⟩
    · split <;> exact ⟨_, rfl, rfl, fun hc => absurd h hc⟩

/-- The loop variables of `simulateFIFO` before step `t` belong to the run on the whole
reference list: the steps recorded so far are its first `t` steps. -/
theorem fifoLoop_prefix (refs : List Int) (frames : Int) (t : Nat) :
    (fifoLoop (refs.take t) ⟨0, emptyFrames frames, none, [], []⟩).state
      = (simulateFIFO refs frames).state.take t := by
  have hsplit : refs = refs.take t ++ refs.drop t := (List.take_append_drop _ _).symm
  obtain ⟨tr, htr, hlen⟩ := fifoLoop_state (refs.take t) ⟨0, emptyFrames frames, none, [], []⟩
  obtain ⟨tr', htr', _⟩ := fifoLoop_state (refs.drop t)
    (fifoLoop (refs.take t) ⟨0, emptyFrames frames, none, [], []⟩)
  have hsim : (simulateFIFO refs frames).state = tr ++ tr' := by
    conv_lhs => rw [hsplit]
    simp only [simulateFIFO, fifoLoop_append]
    rw [htr', htr]; simp
  simp only [List.nil_append] at htr
  rw [hsim, htr]
  rcases Nat.lt_or_ge refs.length t with hlt | hge
  · have h1 : refs.drop t = [] := List.drop_eq_nil_of_le (by omega)
    have h2 : tr' = [] := by
      rw [h1] at htr'
      simp only [fifoLoop] at htr'
      simpa using htr'
    rw [h2, List.append_nil, List.take_of_length_le]
    rw [hlen, List.length_take]; omega
  · rw [List.take_left' (by rw [hlen, List.length_take]; omega)]

theorem fifoLoop_step_at (refs : List Int) (frames : Int) (t : Nat) (ht : t < refs.length) :
    fifoLoop (refs.take (t + 1)) ⟨0, emptyFrames frames, none, [], []⟩
      = fifoStep refs[t] (fifoLoop (refs.take t) ⟨0, emptyFrames frames, none, [], []⟩) := by
  have htake : refs.take (t + 1) = refs.take t ++ [refs[t]] := by
    rw [List.take_succ, List.getElem?_eq_getElem ht]; rfl
  rw [htake, fifoLoop_append]; rfl

/-- Step `t` of the run of `simulateFIFO` is the step appended by the iteration on `refs[t]`
from the loop variables before step `t`. -/
theorem fifoLoop_step_eq (refs : List Int) (frames : Int) (t : Nat) (ht : t < refs.length)
    (st : Step)
    (hst : (fifoStep refs[t] (fifoLoop (refs.take t) ⟨0, emptyFrames frames, none, [], []⟩)).state
      = (fifoLoop (refs.take t) ⟨0, emptyFrames frames, none, [], []⟩).state ++ [st]) :
    (simulateFIFO refs frames).state[t]? = some st := by
  have h1 := fifoLoop_prefix refs frames (t + 1)
  rw [fifoLoop_step_at refs frames t ht, hst] at h1
  obtain ⟨tr0, htr0, hlen0⟩ := fifoLoop_state (refs.take t) ⟨0, emptyFrames frames, none, [], []⟩
  have hlen0' : tr0.length = t := by rw [hlen0, List.length_take]; omega
  have : ((simulateFIFO refs frames).state.take (t + 1))[t]? = some st := by
    rw [← h1, htr0]
    simp only [List.nil_append]
    rw [← hlen0']; simp
  rwa [List.getElem?_take, if_pos (by omega)] at this

theorem fifoLoop_mem_take (refs : List Int) (frames : Int) (t : Nat) (ht : t ≤ refs.length) :
    (fifoLoop (refs.take t) ⟨0, emptyFrames frames, none, [], []⟩).mem
      = framesBefore (emptyFrames frames) (simulateFIFO refs frames).state t := by
  cases t with
  | zero => simp [fifoLoop, framesBefore]
  | succ t =>
    have hlt : t < refs.length := by omega
    obtain ⟨st, hst, hmem, _⟩ := fifoStep_mem refs[t]
      (fifoLoop (refs.take t) ⟨0, emptyFrames frames, none, [], []⟩)
    rw [fifoLoop_step_at refs frames t hlt, hmem]
    simp only [framesBefore, fifoLoop_step_eq refs frames t hlt st hst]

/-! ## Claim C18 -/

/-- C18 (FIFO evicts round-robin): with `s` the loop variables of `simulateFIFO` before step
`t` (its steps are the first `t` steps of the run and its `mem` is the snapshot before
step `t`): whenever all slots are occupied, the queue `q` contains every slot index
`0..frames-1` exactly once and `q.shift()` yields a slot index, namely the number of earlier
capacity faults modulo `frames`; and a capacity fault at step `t`, being the `k`-th of the
run counted from 0, replaces slot `k mod frames`. -/
theorem fifo_round_robin (refs : List Int) (frames : Int) (h : 1 ≤ frames) (t : Nat)
    (ht : t ≤ refs.length) :
    ((fifoLoop (refs.take t) ⟨0, emptyFrames frames, none, [], []⟩).state
        = (simulateFIFO refs frames).state.take t ∧
      (fifoLoop (refs.take t) ⟨0, emptyFrames frames, none, [], []⟩).mem
        = framesBefore (emptyFrames frames) (simulateFIFO refs frames).state t) ∧
    (none ∉ (fifoLoop (refs.take t) ⟨0, emptyFrames frames, none, [], []⟩).mem →
      (fifoLoop (refs.take t) ⟨0, emptyFrames frames, none, [], []⟩).q.Perm
          ((List.range frames.toNat).map some) ∧
        (fifoLoop (refs.take t) ⟨0, emptyFrames frames, none, [], []⟩).q.head?.join
          = some (capacityFaults ((simulateFIFO refs frames).state.take t) % frames.toNat)) ∧
    (∀ (p : Int) (st : Step), refs[t]? = some p →
      (simulateFIFO refs frames).state[t]? = some st → st.hit = false →
      none ∉ framesBefore (emptyFrames frames) (simulateFIFO refs frames).state t →
      st.frames = (framesBefore (emptyFrames frames) (simulateFIFO refs frames).state t).set
        (capacityFaults ((simulateFIFO refs frames).state.take t) % frames.toNat) (some p)) := by
  have hpre := fifoLoop_prefix refs frames t
  have hmem := fifoLoop_mem_take refs frames t ht
  obtain ⟨hrr, hlen⟩ := fifoLoop_rr (refs.take t) ⟨0, emptyFrames frames, none, [], []⟩
    (emptyFrames_length h) (fifoRR_init frames)
  have hn : (fifoLoop (refs.take t) ⟨0, emptyFrames frames, none, [], []⟩).mem.length
      = frames.toNat := by
    rw [hlen]; simp [emptyFrames]
  have hpos : 0 < frames.toNat := by omega
  refine ⟨⟨hpre, hmem⟩, ?_, ?_⟩
  · intro hfull
    obtain ⟨m, hm, hocc, hq, _⟩ := hrr
    have hmn : m = frames.toNat := by
      rw [hn] at hm hocc
      rcases Nat.lt_or_ge m frames.toNat with hlt | hge
      · exact absurd (List.getElem?_mem ((hocc m hlt).mpr (le_refl _))) hfull
      · omega
    subst hmn
    rw [hpre] at hq
    refine ⟨?_, ?_⟩
    · rw [hq]
      exact (List.rotate_perm _ _).map some
    · rw [hq, List.head?_map, (range_rotate_shift frames.toNat _ hpos).1]
      rfl
  · intro p st hp hst hh hfull
    have hlt : t < refs.length := (List.getElem?_eq_some.mp hp).1
    have hpe : refs[t] = p := by
      rw [List.getElem?_eq_getElem hlt] at hp; simpa using hp
    obtain ⟨st', hst', hmem', hhit⟩ := fifoStep_mem refs[t]
      (fifoLoop (refs.take t) ⟨0, emptyFrames frames, none, [], []⟩)
    have hst2 := fifoLoop_step_eq refs frames t hlt st' hst'
    rw [hst] at hst2
    simp only [Option.some.injEq] at hst2
    subst hst2
    have h1 : indexOf (fifoLoop (refs.take t) ⟨0, emptyFrames frames, none, [], []⟩).mem
        (some refs[t]) = none := by
      by_contra hc
      rw [hhit hc] at hh
      cases hh
    have h2 : indexOf (fifoLoop (refs.take t) ⟨0, emptyFrames frames, none, [], []⟩).mem none
        = none := by
      rw [indexOf_eq_none_iff, hmem]; exact hfull
    have h3 := (fifoStep_rr (fifoLoop (refs.take t) ⟨0, emptyFrames frames, none, [], []⟩) refs[t]
      (by rw [hn]; exact hpos) hrr).2.2 h1 h2
    rw [hmem', hn, hpre, hmem, hpe] at h3
    exact h3

theorem fifo_round_robin_witness :
    (1 : Int) ≤ 2 ∧ 3 ≤ [1, 2, 3, 4].length ∧
      (none ∉ (fifoLoop ([1, 2, 3, 4].take 3) ⟨0, emptyFrames 2, none, [], []⟩).mem →
        (fifoLoop ([1, 2, 3, 4].take 3) ⟨0, emptyFrames 2, none, [], []⟩).q.Perm
            ((List.range (2 : Int).toNat).map some) ∧
          (fifoLoop ([1, 2, 3, 4].take 3) ⟨0, emptyFrames 2, none, [], []⟩).q.head?.join
            = some (capacityFaults ((simulateFIFO [1, 2, 3, 4] 2).state.take 3)
                % (2 : Int).toNat)) ∧
      (⟨4, false, some 2, [some 3, some 4]⟩ : Step).frames
        = (framesBefore (emptyFrames 2) (simulateFIFO [1, 2, 3, 4] 2).state 3).set
            (capacityFaults ((simulateFIFO [1, 2, 3, 4] 2).state.take 3) % (2 : Int).toNat)
            (some 4) :=
  ⟨by decide, by decide,
    (fifo_round_robin [1, 2, 3, 4] 2 (by decide) 3 (by decide)).2.1,
    (fifo_round_robin [1, 2, 3, 4] 2 (by decide) 3 (by decide)).2.2 4
      ⟨4, false, some 2, [some 3, some 4]⟩ (by rfl) (by decide) rfl (by decide)⟩

/-! ## Claim C15 -/

/-- C15, counterexample: a run requested with capacity 0 (field text `0`, read as 0 by
`parseInt`) on the references `7 0 1` with the three algorithms selected does not fail: the
status line reports 3 references and 1 frame, and a result with its fault count is
produced for every policy. -/
theorem capacity_zero_gives_results :
    (runSimulation (fun _ => some 0) "7 0 1".toList "0".toList true true true).msg
        = Msg.parsed 3 (some 1) ∧
      (runSimulation (fun _ => some 0) "7 0 1".toList "0".toList true true true).results.map
          (fun r => (r.1, r.2.faults, r.2.state.length))
        = [("FIFO", 3, 3), ("LRU", 3, 3), ("Optimal", 3, 3)] := by
  decide

/-- C15, amended: a run requested with a capacity `n < 1` is not rejected; `runSimulation`
clamps the capacity to 1, so with a non-empty reference list and at least one algorithm
selected it reports `Frames = 1` and produces, for every selected policy, the result of
that policy with one frame. -/
theorem capacity_below_one_is_clamped (parseInt : List Char → Option Int)
    (refsText framesText : List Char) (fifo lru opt : Bool) (n : Int)
    (hn : parseInt (if framesText = [] then ['0'] else framesText) = some n) (hlt : n < 1)
    (hrefs : parseRefs refsText ≠ []) (hsel : fifo = true ∨ lru = true ∨ opt = true) :
    (runSimulation parseInt refsText framesText fifo lru opt).msg
        = Msg.parsed (parseRefs refsText).length (some 1) ∧
      (runSimulation parseInt refsText framesText fifo lru opt).results
        = ([("FIFO", simulateFIFO, fifo), ("LRU", simulateLRU, lru),
            ("Optimal", simulateOptimal, opt)].filter (fun a => a.2.2)).map
            (fun a => (a.1, a.2.1 (parseRefs refsText) 1)) ∧
      (runSimulation parseInt refsText framesText fifo lru opt).results ≠ [] := by
  have hlen : (parseRefs refsText).length ≠ 0 := by
    intro h; exact hrefs (List.length_eq_zero.mp h)
  have hclamp : max 1 (min 50 n) = 1 := by omega
  have hselne : ([("FIFO", simulateFIFO, fifo), ("LRU", simulateLRU, lru),
      ("Optimal", simulateOptimal, opt)].filter (fun a => a.2.2)).length ≠ 0 := by
    revert hsel
    cases fifo <;> cases lru <;> cases opt <;> simp [List.filter]
  simp only [runSimulation, hn, Option.map_some', hclamp, if_neg hlen, if_neg hselne,
    Option.getD_some]
  refine ⟨trivial, trivial, ?_⟩
  intro h
  apply hselne
  rw [List.map_eq_nil_iff] at h
  rw [h]; rfl

theorem capacity_below_one_is_clamped_witness :
    (fun _ : List Char => some (-3 : Int)) (if "-3".toList = [] then ['0'] else "-3".toList)
        = some (-3) ∧
      (-3 : Int) < 1 ∧ parseRefs "1,2,1".toList ≠ [] ∧
      (false = true ∨ true = true ∨ false = true) ∧
      (runSimulation (fun _ => some (-3)) "1,2,1".toList "-3".toList false true false).msg
        = Msg.parsed (parseRefs "1,2,1".toList).length (some 1) ∧
      (runSimulation (fun _ => some (-3)) "1,2,1".toList "-3".toList false true false).results
        = ([("FIFO", simulateFIFO, false), ("LRU", simulateLRU, true),
            ("Optimal", simulateOptimal, false)].filter (fun a => a.2.2)).map
            (fun a => (a.1, a.2.1 (parseRefs "1,2,1".toList) 1)) ∧
      (runSimulation (fun _ => some (-3)) "1,2,1".toList "-3".toList false true false).results
        ≠ [] :=
  ⟨rfl, by decide, by decide, by decide,
    capacity_below_one_is_clamped (fun _ => some (-3)) "1,2,1".toList "-3".toList false true
      false (-3) rfl (by decide) (by decide) (by decide)⟩

/-! ## Parsing decimal renderings -/

theorem digitChar_isDigit : ∀ d, d < 10 → (Nat.digitChar d).isDigit = true := by decide

theorem digitChar_value : ∀ d, d < 10 → (Nat.digitChar d).toNat - 48 = d := by decide

theorem digitsValue_append (ds : List Char) (c : Char) :
    digitsValue (ds ++ [c]) = 10 * digitsValue ds + (c.toNat - 48) := by
  simp [digitsValue, List.foldl_append]

/-- The digits produced by `Nat.toDigitsCore`: a non-empty string of digits in front of the
accumulator, whose value is the number when the fuel suffices. -/
theorem toDigitsCore_spec (fuel n : Nat) (ds : List Char) :
    ∃ pre, Nat.toDigitsCore 10 (fuel + 1) n ds = pre ++ ds ∧ pre ≠ [] ∧
      (∀ c ∈ pre, c.isDigit = true) ∧ (n ≤ fuel → digitsValue pre = n) := by
  induction fuel generalizing n ds with
  | zero =>
    refine ⟨[Nat.digitChar (n % 10)], ?_, by simp, ?_, ?_⟩
    · simp only [Nat.toDigitsCore]
      split <;> rfl
    · intro c hc
      simp only [List.mem_singleton] at hc
      rw [hc]; exact digitChar_isDigit _ (Nat.mod_lt _ (by omega))
    · intro hn
      have : n = 0 := by omega
      subst this
      rfl
  | succ fuel ih =>
    by_cases h0 : n / 10 = 0
    · refine ⟨[Nat.digitChar (n % 10)], ?_, by simp, ?_, ?_⟩
      · rw [Nat.toDigitsCore]; simp [h0]
      · intro c hc
        simp only [List.mem_singleton] at hc
        rw [hc]; exact digitChar_isDigit _ (Nat.mod_lt _ (by omega))
      · intro _
        have := digitChar_value (n % 10) (Nat.mod_lt _ (by omega))
        simp only [digitsValue, List.foldl_cons, List.foldl_nil, this]
        omega
    · obtain ⟨pre, hpre, hne, hdig, hval⟩ := ih (n / 10) (Nat.digitChar (n % 10) :: ds)
      refine ⟨pre ++ [Nat.digitChar (n % 10)], ?_, by simp, ?_, ?_⟩
      · rw [Nat.toDigitsCore]; simp only [h0, if_false]
        rw [hpre]; simp
      · intro c hc
        rcases List.mem_append.mp hc with h | h
        · exact hdig c h
        · simp only [List.mem_singleton] at h
          rw [h]; exact digitChar_isDigit _ (Nat.mod_lt _ (by omega))
      · intro hn
        rw [digitsValue_append, hval (by omega),
          digitChar_value (n % 10) (Nat.mod_lt _ (by omega))]
        omega

theorem toDigits_spec (n : Nat) :
    Nat.toDigits 10 n ≠ [] ∧ (∀ c ∈ Nat.toDigits 10 n, c.isDigit = true) ∧
      digitsValue (Nat.toDigits 10 n) = n := by
  obtain ⟨pre, hpre, hne, hdig, hval⟩ := toDigitsCore_spec n n []
  have : Nat.toDigits 10 n = pre := by simpa [Nat.toDigits] using hpre
  rw [this]
  exact ⟨hne, hdig, hval (le_refl _)⟩

theorem takeWhile_digits_append (ds tail : List Char) (hds : ∀ c ∈ ds, c.isDigit = true)
    (htail : ∀ c, tail.head? = some c → c.isDigit = false) :
    (ds ++ tail).takeWhile Char.isDigit = ds ∧ (ds ++ tail).dropWhile Char.isDigit = tail := by
  induction ds with
  | nil =>
    cases tail with
    | nil => simp
    | cons c tl =>
      have := htail c rfl
      simp [List.takeWhile_cons, List.dropWhile_cons, this]
  | cons d ds ih =>
    have hd := hds d (by simp)
    obtain ⟨h1, h2⟩ := ih (fun c hc => hds c (by simp [hc]))
    simp [List.takeWhile_cons, List.dropWhile_cons, hd, h1, h2]

theorem minus_not_digit : ('-' : Char).isDigit = false := by decide

/-- A decimal rendering in front of a text that does not go on with a digit is matched as
a whole. -/
theorem matchAt_renderInt (x : Int) (tail : List Char)
    (htail : ∀ c, tail.head? = some c → c.isDigit = false) :
    matchAt (renderInt x ++ tail) = some (renderInt x, tail) := by
  cases x with
  | ofNat k =>
    obtain ⟨hne, hdig, _⟩ := toDigits_spec k
    obtain ⟨h1, h2⟩ := takeWhile_digits_append (Nat.toDigits 10 k) tail hdig htail
    simp only [renderInt]
    cases hd : Nat.toDigits 10 k with
    | nil => exact absurd hd hne
    | cons c ds =>
      rw [hd] at h1 h2 hdig
      have hc : c ≠ '-' := by
        intro e
        have := hdig c (by simp)
        rw [e, minus_not_digit] at this
        cases this
      simp only [List.cons_append] at h1 h2 ⊢
      simp only [matchAt, if_neg hc, h1, h2]
      simp
  | negSucc k =>
    obtain ⟨hne, hdig, _⟩ := toDigits_spec (k + 1)
    obtain ⟨h1, h2⟩ := takeWhile_digits_append (Nat.toDigits 10 (k + 1)) tail hdig htail
    simp only [renderInt, List.cons_append, matchAt, if_true, h1, h2, if_neg hne]

theorem excessBits_of_lt (fuel n : Nat) (h : n < 2 ^ 53) : excessBits fuel n = 0 := by
  cases fuel with
  | zero => rfl
  | succ fuel => rw [excessBits, if_pos h]

/-- Rounding to a double changes no natural number below `2 ^ 53`. -/
theorem toDouble_of_lt (n : Nat) (h : n < 2 ^ 53) : toDouble n = n := by
  have hinf : ¬ infinityCode ≤ n := by
    have : (2 : Nat) ^ 53 ≤ infinityCode := by decide
    omega
  simp [toDouble, excessBits_of_lt n n h, hinf, Nat.mod_one]

theorem numberOf_renderInt (x : Int) (hx : x.natAbs < 2 ^ 53) : numberOf (renderInt x) = x := by
  cases x with
  | ofNat k =>
    have hk : k < 2 ^ 53 := by simpa using hx
    obtain ⟨hne, hdig, hval⟩ := toDigits_spec k
    simp only [renderInt]
    cases hd : Nat.toDigits 10 k with
    | nil => exact absurd hd hne
    | cons c ds =>
      rw [hd] at hval hdig
      have hc : c ≠ '-' := by
        intro e
        have := hdig c (by simp)
        rw [e, minus_not_digit] at this
        cases this
      simp only [numberOf, if_neg hc, hval, toDouble_of_lt k hk]
      rfl
  | negSucc k =>
    have hk : k + 1 < 2 ^ 53 := by simpa using hx
    obtain ⟨_, _, hval⟩ := toDigits_spec (k + 1)
    simp only [renderInt, numberOf, if_true, hval, toDouble_of_lt (k + 1) hk]
    rfl

theorem renderInt_ne_nil (x : Int) : renderInt x ≠ [] := by
  cases x with
  | ofNat k => exact (toDigits_spec k).1
  | negSucc k => simp [renderInt]

theorem matchAt_nondigit (c : Char) (rest : List Char) (hc : c.isDigit = false)
    (hm : c ≠ '-') : matchAt (c :: rest) = none := by
  simp [matchAt, hm, List.takeWhile_cons, hc]

/-- The scan over renderings joined by a separator that is neither a digit nor `-` finds
the renderings, whatever fuel beyond the length of the text it is given, and `Number`
gives back the integers when they are below `2 ^ 53` in absolute value. -/
theorem matchAll_joinWith (sep : Char) (hsep : sep.isDigit = false) (hm : sep ≠ '-')
    (xs : List Int) (hsafe : ∀ x ∈ xs, x.natAbs < 2 ^ 53) :
    ∀ fuel, (joinWith sep (xs.map renderInt)).length ≤ fuel →
      (matchAll fuel (joinWith sep (xs.map renderInt))).map numberOf = xs := by
  induction xs with
  | nil =>
    intro fuel _
    cases fuel <;> simp [joinWith, matchAll]
  | cons x xs ih =>
    intro fuel hfuel
    have hx := hsafe x (by simp)
    have ih := ih (fun y hy => hsafe y (by simp [hy]))
    have hne := renderInt_ne_nil x
    cases xs with
    | nil =>
      simp only [List.map_cons, List.map_nil, joinWith] at hfuel ⊢
      cases hr : renderInt x with
      | nil => exact absurd hr hne
      | cons c ds =>
        rw [hr] at hfuel
        cases fuel with
        | zero => simp at hfuel
        | succ fuel =>
          have hmatch := matchAt_renderInt x [] (by simp)
          rw [List.append_nil, hr] at hmatch
          simp only [matchAll, hmatch]
          have : matchAll fuel [] = [] := by cases fuel <;> rfl
          rw [this, ← hr]
          simp [numberOf_renderInt x hx]
    | cons y ys =>
      simp only [List.map_cons, joinWith] at hfuel ⊢
      have ih' := ih
      simp only [List.map_cons] at ih'
      cases hr : renderInt x with
      | nil => exact absurd hr hne
      | cons c ds =>
        rw [hr] at hfuel
        simp only [List.cons_append, List.length_cons, List.length_append] at hfuel
        cases fuel with
        | zero => omega
        | succ fuel =>
          have hmatch := matchAt_renderInt x (sep :: joinWith sep (renderInt y :: ys.map renderInt))
            (by intro c hc; simp only [List.head?_cons, Option.some.injEq] at hc; rw [← hc]; exact hsep)
          rw [hr, List.cons_append] at hmatch
          rw [List.cons_append, matchAll, hmatch]
          cases fuel with
          | zero => omega
          | succ fuel =>
            simp only [matchAll, matchAt_nondigit sep _ hsep hm, List.map_cons]
            rw [ih' fuel (by omega), ← hr, numberOf_renderInt x hx]

theorem matchAll_no_digit (fuel : Nat) (text : List Char)
    (h : ∀ c ∈ text, c.isDigit = false) : matchAll fuel text = [] := by
  induction fuel generalizing text with
  | zero => rfl
  | succ fuel ih =>
    cases text with
    | nil => rfl
    | cons c rest =>
      have hc := h c (by simp)
      have hnone : matchAt (c :: rest) = none := by
        by_cases hm : c = '-'
        · subst hm
          have : rest.takeWhile Char.isDigit = [] := by
            cases rest with
            | nil => rfl
            | cons d tl => simp [List.takeWhile_cons, h d (by simp)]
          simp [matchAt, this]
        · exact matchAt_nondigit c rest hc hm
      simp only [matchAll, hnone]
      exact ih rest (fun d hd => h d (by simp [hd]))

/-! ## Claim C17 -/

/-- C17, counterexample: the integer `9007199254740993` (that is `2 ^ 53 + 1`) does not
survive the round trip. `parseRefs` applied to its decimal rendering returns
`9007199254740992`, because `Number` rounds to the nearest double. -/
theorem parseRefs_rounds_large :
    parseRefs (joinWith ' ' ([9007199254740993].map renderInt)) = [9007199254740992] ∧
      parseRefs (joinWith ' ' ([9007199254740993].map renderInt)) ≠ [9007199254740993] := by
  decide

/-- C17, amended (`parseRefs` round trip): for every list `xs` of integers below `2 ^ 53` in
absolute value, `parseRefs` applied to the decimal renderings of `xs` joined by single
spaces, or by commas, returns `xs` in the same order; and `parseRefs` of a text that
contains no digit returns the empty list. -/
theorem parseRefs_round_trip (xs : List Int) (text : List Char)
    (hsafe : ∀ x ∈ xs, x.natAbs < 2 ^ 53) :
    parseRefs (joinWith ' ' (xs.map renderInt)) = xs ∧
      parseRefs (joinWith ',' (xs.map renderInt)) = xs ∧
      ((∀ c ∈ text, c.isDigit = false) → parseRefs text = []) := by
  refine ⟨?_, ?_, ?_⟩
  · exact matchAll_joinWith ' ' (by decide) (by decide) xs hsafe _ (le_refl _)
  · exact matchAll_joinWith ',' (by decide) (by decide) xs hsafe _ (le_refl _)
  · intro h
    simp [parseRefs, matchAll_no_digit _ text h]

theorem parseRefs_round_trip_witness :
    (∀ x ∈ ([7, -10, 0] : List Int), x.natAbs < 2 ^ 53) ∧
      parseRefs (joinWith ' ' ([7, -10, 0].map renderInt)) = [7, -10, 0] ∧
      parseRefs (joinWith ',' ([7, -10, 0].map renderInt)) = [7, -10, 0] ∧
      ((∀ c ∈ "a, -b".toList, c.isDigit = false) ∧ parseRefs "a, -b".toList = []) :=
  ⟨by decide, (parseRefs_round_trip [7, -10, 0] "a, -b".toList (by decide)).1,
    (parseRefs_round_trip [7, -10, 0] "a, -b".toList (by decide)).2.1,
    by decide, (parseRefs_round_trip [7, -10, 0] "a, -b".toList (by decide)).2.2 (by decide)⟩

end PageSim
